import Mathlib

/-!
# Parallel-Dictionary: a shallow embedding of the sharded word index

Embedded source: `src/parallel_dict/parallel_dictionary_cpp/parallel_dictionary.cpp`
(the sharded dictionary, the tokenizer, `processBooks` and the pipeline of `main`) and
the class `ConcurrentDictionary` of `src/parallel_dict/parallel_dictionary.cpp` (the
dictionary with one table).

Modelling conventions.

* A `std::string` is the list of its bytes, each byte the value of
  `static_cast<unsigned char>(c)`, a natural number below 256.
* `std::isalpha` / `std::tolower` are those of the default "C" locale (the program never
  calls `setlocale`): the letters are `A`..`Z` (65..90) and `a`..`z` (97..122).
* A cursor `pos` into a string is represented by the suffix of the string that starts
  at `pos`; `pos < length` is "the suffix is not empty".
* An `std::unordered_map<std::string, Entry>` is an association list without duplicate
  keys (`AList`); its iteration order is the order of the list, and every theorem
  quantifies over all such lists, hence over every iteration order.
* An `std::unordered_set<int>` is a `Finset Int`.
* `int wordCount` has two embeddings. `insertInt`, `mergeInt` and `insertAllInt` take
  `entry.wordCount++` and `myEntry.wordCount += entry.wordCount` in `int` (32 bits, two's
  complement, `wrapInt`), as the compiled program does: the theorems about the value of a
  count are about them. `insert`, `merge` and `insertAll`, the single-map class and the
  interleaving model of `insert` take the count as an unbounded integer: they describe
  the executions in which no count leaves the range of `int`, and are used where the
  statement takes counts as unbounded, is an equality between two runs of the program,
  or is about counts far below `2^31`.
* Document ids are `int` values obtained from `size_t` indices by `static_cast<int>`:
  the conversion is modular (`castInt`), and the sum `startBookId + static_cast<int>(i)`
  is taken in `int` (`bookId`).
* The `size_t` arithmetic of `main` is that of the naturals: its operands are bounded by
  the number of books and of threads, far below `2^64`.
* The hash function `std::hash<std::string>` is a parameter `hash : Word → Nat`; every
  theorem holds for every hash function.
* Undefined behaviour that the claims are about (an out-of-range `shards_[i]`, a
  modulo by zero in `getShardIndex`) is the result `none`.
* The threads of `main` write to private dictionaries and are joined before the merge;
  they are run one after the other.
* The argument of `merge` is another object than the receiver; a sequence of operations
  on several instances is the tree of the calls (`History`).
-/

namespace ParallelDictionary

/-! ## Tokenizer (`splitToWords`) -/

/-- A word: the bytes of a `std::string`. -/
abbrev Word := List Nat

/-- `std::isalpha(static_cast<unsigned char>(c))` in the "C" locale. -/
def isalpha (c : Nat) : Bool := (65 ≤ c && c ≤ 90) || (97 ≤ c && c ≤ 122)

/-- `std::tolower(c)` in the "C" locale. -/
def tolower (c : Nat) : Nat := if 65 ≤ c ∧ c ≤ 90 then c + 32 else c

/-- First inner loop of `splitToWords`:
`while (pos < length && !std::isalpha(text[pos])) ++pos;`
The argument is the suffix of `text` at `pos`, the result the suffix at the new `pos`. -/
def skipNonAlpha : List Nat → List Nat
  | [] => []
  | c :: rest => if !isalpha c then skipNonAlpha rest else c :: rest

/-- Second inner loop of `splitToWords`:
`start = pos; while (pos < length && std::isalpha(text[pos])) ++pos;`
The argument is the suffix at `start`; the result is
`(text.substr(start, pos - start), suffix at the new pos)`. -/
def collectAlpha : List Nat → List Nat × List Nat
  | [] => ([], [])
  | c :: rest =>
    if isalpha c then ((c :: (collectAlpha rest).1), (collectAlpha rest).2)
    else ([], c :: rest)

/-- The outer loop `while (pos < length) { ... }` of `splitToWords`, with a fuel bound
on the number of iterations; `rest` is the suffix at `pos`, `words` the vector built
so far. `start < pos` is "the collected substring is not empty". -/
def splitLoop : Nat → List Nat → List Word → List Word
  | 0, _, words => words
  | fuel + 1, rest, words =>
    if rest = [] then words
    else
      let afterSkip := skipNonAlpha rest
      let word := (collectAlpha afterSkip).1
      let afterWord := (collectAlpha afterSkip).2
      if word ≠ [] then splitLoop fuel afterWord (words ++ [word.map tolower])
      else splitLoop fuel afterWord words

/-- `splitToWords(text)`. Every iteration of the outer loop advances `pos`, so
`text.length` iterations always suffice (see `splitLoop_fuel`). -/
def splitToWords (text : List Nat) : List Word := splitLoop text.length text []

/-- The bytes of an ASCII string literal. -/
def bytes (s : String) : List Nat := s.toList.map Char.toNat

/-- Specification side: `[s, e)` is a maximal run of alphabetic characters of `text`:
it is not empty, lies inside the text, holds only alphabetic characters, and cannot be
extended to the left or to the right. -/
def IsMaximalRun (text : List Nat) (s e : Nat) : Prop :=
  s < e ∧ e ≤ text.length ∧
  (∀ i, s ≤ i → i < e → isalpha (text.getD i 0) = true) ∧
  (s = 0 ∨ isalpha (text.getD (s - 1) 0) = false) ∧
  (e = text.length ∨ isalpha (text.getD e 0) = false)

/-- Specification side: the characters of `text` at the positions `[s, e)`,
case-folded to lowercase. -/
def lowerSlice (text : List Nat) (r : Nat × Nat) : Word :=
  ((text.drop r.1).take (r.2 - r.1)).map tolower

/-- The index pairs `[start, pos)` of the words the outer loop emits, computed by the
same loop as `splitLoop`; `off` is the value of `pos` at loop entry. -/
def runsLoop : Nat → Nat → List Nat → List (Nat × Nat)
  | 0, _, _ => []
  | fuel + 1, off, rest =>
    if rest = [] then []
    else
      let afterSkip := skipNonAlpha rest
      let word := (collectAlpha afterSkip).1
      let afterWord := (collectAlpha afterSkip).2
      let start := off + (rest.length - afterSkip.length)
      if word ≠ [] then
        (start, start + word.length) :: runsLoop fuel (start + word.length) afterWord
      else runsLoop fuel (start + word.length) afterWord

/-! ## The sharded dictionary (`ShardedConcurrentDictionary`) -/

/-- `struct Entry { int wordCount = 0; std::unordered_set<int> bookIds; }`. The field
`wordCount` is an integer; the operations with `int` arithmetic (`insertInt`, `mergeInt`)
keep it in the range of `int`, the operations `insert` and `merge` take it as unbounded. -/
structure Entry where
  wordCount : Int := 0
  bookIds : Finset Int := ∅
deriving DecidableEq

/-- `struct Shard`: its `dict`, an `std::unordered_map<std::string, Entry>`. The mutex
holds no data and every operation below releases the locks it takes before it returns,
so a shard between two operations is its table. -/
abbrev Shard := AList (fun _ : Word => Entry)

/-- The class `ShardedConcurrentDictionary`: the vector `shards_`. -/
structure ShardedConcurrentDictionary where
  shards_ : List Shard
deriving DecidableEq

namespace ShardedConcurrentDictionary

/-- The constructor `ShardedConcurrentDictionary(numShards)`: `numShards` times
`shards_.emplace_back(std::make_unique<Shard>())`. It accepts every `numShards`. -/
def new (numShards : Nat) : ShardedConcurrentDictionary :=
  ⟨List.replicate numShards ∅⟩

/-- `getShardIndex(key)`: `std::hash<std::string>{}(key) % shards_.size()`. The hash
function of the standard library is a parameter. The result is `none` when
`shards_.size()` is zero (modulo by zero). -/
def getShardIndex (hash : Word → Nat) (self : ShardedConcurrentDictionary) (key : Word) :
    Option Nat :=
  if self.shards_.length = 0 then none else some (hash key % self.shards_.length)

/-- The update of one table in `merge`:
`auto& e = dict[word]; e.wordCount += count; e.bookIds.insert(ids.begin(), ids.end());`
where `dict[word]` creates a value-initialised entry (count 0, no id) when `word` is
absent. The sum is that of unbounded integers (`addToShardInt` takes it in `int`). -/
def addToShard (shard : Shard) (word : Word) (count : Int) (ids : Finset Int) : Shard :=
  let entry := (shard.lookup word).getD {}
  shard.insert word { wordCount := entry.wordCount + count, bookIds := entry.bookIds ∪ ids }

/-- `insert(word, bookId)`:
`shard = *shards_[getShardIndex(word)]; entry = shard.dict[word]; entry.wordCount++;
entry.bookIds.insert(bookId);`. The result is `none` when the shard index cannot be
computed or is out of range. The increment is that of an unbounded integer (`insertInt`
is the same statement sequence with the increment taken in `int`). -/
def insert (hash : Word → Nat) (self : ShardedConcurrentDictionary) (word : Word)
    (bookId : Int) : Option ShardedConcurrentDictionary :=
  match self.getShardIndex hash word with
  | none => none
  | some shardIndex =>
    match self.shards_[shardIndex]? with
    | none => none
    | some shard =>
      let entry := (shard.lookup word).getD {}
      some ⟨self.shards_.set shardIndex
        (shard.insert word
          { wordCount := entry.wordCount + 1, bookIds := Insert.insert bookId entry.bookIds })⟩

/-- The body of the inner loop of `merge` for one `(word, entry)` of the other shard:
`thisShard = *shards_[getShardIndex(word)]; myEntry = thisShard.dict[word];
myEntry.wordCount += entry.wordCount; myEntry.bookIds.insert(entry.bookIds...)`. -/
def mergeEntry (hash : Word → Nat) (self : ShardedConcurrentDictionary) (word : Word)
    (entry : Entry) : Option ShardedConcurrentDictionary :=
  match self.getShardIndex hash word with
  | none => none
  | some shardIndex =>
    match self.shards_[shardIndex]? with
    | none => none
    | some thisShard =>
      some ⟨self.shards_.set shardIndex
        (addToShard thisShard word entry.wordCount entry.bookIds)⟩

/-- The inner loop of `merge`: `for (const auto& [word, entry] : otherShard.dict)`. -/
def mergeShard (hash : Word → Nat) (self : ShardedConcurrentDictionary) (otherShard : Shard) :
    Option ShardedConcurrentDictionary :=
  otherShard.entries.foldlM (fun acc p => mergeEntry hash acc p.1 p.2) self

/-- `merge(other)`: `for (i = 0; i < shards_.size(); ++i)` read `*other.shards_[i]`
(`none` when `i` is out of range in `other`) and run the inner loop on it. The number of
shards of `self` does not change during the loop. `self` and `other` are two objects: the
tables of `other` are not modified while they are traversed. -/
def merge (hash : Word → Nat) (self other : ShardedConcurrentDictionary) :
    Option ShardedConcurrentDictionary :=
  (List.range self.shards_.length).foldlM
    (fun acc i =>
      match other.shards_[i]? with
      | none => none
      | some otherShard => mergeShard hash acc otherShard)
    self

/-- The loop over one table in `removeSingleOccurrences`: every entry whose `wordCount`
is 1 is erased (`it = dict.erase(it)`), every other entry is kept (`++it`). -/
def removeSingleFromShard (shard : Shard) : Shard :=
  ⟨shard.entries.filter (fun p => decide (p.2.wordCount ≠ 1)),
    shard.nodupKeys.sublist (List.filter_sublist _)⟩

/-- `removeSingleOccurrences()`: `for (auto& shardPtr : shards_)` prune the table. -/
def removeSingleOccurrences (self : ShardedConcurrentDictionary) :
    ShardedConcurrentDictionary :=
  ⟨self.shards_.map removeSingleFromShard⟩

/-- The entry of `word` in shard `i` (`none` when the shard or the word is absent). -/
def shardEntry (self : ShardedConcurrentDictionary) (i : Nat) (word : Word) : Option Entry :=
  match self.shards_[i]? with
  | none => none
  | some shard => shard.lookup word

/-- The dictionary read as the union of the tables of its shards, the way `print()`
traverses it: the entry of `word` in the first shard that holds one. -/
def find? (self : ShardedConcurrentDictionary) (word : Word) : Option Entry :=
  self.shards_.findSome? (fun shard => shard.lookup word)

/-- A sequence of calls `insert(w_1, d_1); insert(w_2, d_2); ...`. -/
def insertAll (hash : Word → Nat) (self : ShardedConcurrentDictionary)
    (calls : List (Word × Int)) : Option ShardedConcurrentDictionary :=
  calls.foldlM (fun acc c => acc.insert hash c.1 c.2) self

/-- A sequence of calls `acc.merge(d_1); acc.merge(d_2); ...`, the loop
`for (const auto& dictPtr : threadDicts) finalDict.merge(*dictPtr);` of `main`. -/
def mergeAll (hash : Word → Nat) (acc : ShardedConcurrentDictionary)
    (dicts : List ShardedConcurrentDictionary) : Option ShardedConcurrentDictionary :=
  dicts.foldlM (fun a d => a.merge hash d) acc

/-- Shard placement: every word stored in shard `i` has `i` as its shard index. -/
def Placed (hash : Word → Nat) (self : ShardedConcurrentDictionary) : Prop :=
  ∀ i word, (self.shardEntry i word).isSome = true → i = hash word % self.shards_.length

/-- Every word is stored in at most one shard. -/
def AtMostOneShard (self : ShardedConcurrentDictionary) : Prop :=
  ∀ i j word, (self.shardEntry i word).isSome = true →
    (self.shardEntry j word).isSome = true → i = j

/-- The `wordCount` of an entry that may be absent: absent counts as 0. -/
def countOf (o : Option Entry) : Int := (o.getD {}).wordCount

/-- The `bookIds` of an entry that may be absent: absent counts as the empty set. -/
def idsOf (o : Option Entry) : Finset Int := (o.getD {}).bookIds

/-- Specification side: the entry of a word after `e` has been added to its previous
entry `o`: the counts are added and the id sets united. -/
def addEntry (o : Option Entry) (e : Entry) : Option Entry :=
  some { wordCount := countOf o + e.wordCount, bookIds := idsOf o ∪ e.bookIds }

/-- Specification side: the entry of a word after a possibly absent entry `x` has been
added to its previous entry `o`: nothing changes when `x` is absent. -/
def addOpt (o x : Option Entry) : Option Entry :=
  match x with
  | none => o
  | some e => addEntry o e

/-- The entry of `word` in the shard that the code routes `word` to,
`shards_[getShardIndex(word)]->dict`. -/
def entry (hash : Word → Nat) (self : ShardedConcurrentDictionary) (word : Word) :
    Option Entry :=
  self.shardEntry (hash word % self.shards_.length) word

end ShardedConcurrentDictionary

/-- Specification side: the document ids `d_i` of the calls `insert(w_i, d_i)` of a
sequence whose word `w_i` is `word`, in call order. -/
def occurrences (calls : List (Word × Int)) (word : Word) : List Int :=
  (calls.filter (fun c => decide (c.1 = word))).map Prod.snd

/-- Specification side: the entry that a sequence of `insert` calls gives `word` in an
empty dictionary: none when no call names `word`, else the number of those calls and
the set of their document ids. -/
def tally (calls : List (Word × Int)) (word : Word) : Option Entry :=
  if occurrences calls word = [] then none
  else some { wordCount := (occurrences calls word).length,
              bookIds := (occurrences calls word).toFinset }

/-- Specification side: the sum of the entries that a list of `(word, entry)` pairs
holds for `word`: counts added, id sets united, none when the list has no pair for
`word`. -/
def sumEntries : List (Sigma fun _ : Word => Entry) → Word → Option Entry
  | [], _ => none
  | c :: t, word =>
    ShardedConcurrentDictionary.addOpt (if c.1 = word then some c.2 else none)
      (sumEntries t word)

/-- A table with one entry. -/
def singleShard (word : Word) (e : Entry) : Shard := (∅ : Shard).insert word e

/-- Example dictionary with two shards for the hash function `List.length`: the word
`a` (length 1) in shard 1. -/
def demoSelf : ShardedConcurrentDictionary := ⟨[∅, singleShard [97] ⟨1, {0}⟩]⟩

/-- Example dictionary with two shards for the hash function `List.length`: the word
`bc` (length 2) in shard 0 and the word `a` in shard 1. -/
def demoOther : ShardedConcurrentDictionary :=
  ⟨[singleShard [98, 99] ⟨2, {1}⟩, singleShard [97] ⟨3, {2}⟩]⟩

/-- A dictionary with `N` shards built by `insert` calls on the empty dictionary, the
way `processBooks` builds a per-worker dictionary. -/
def BuiltByInserts (hash : Word → Nat) (N : Nat) (d : ShardedConcurrentDictionary) : Prop :=
  ∃ calls : List (Word × Int), (ShardedConcurrentDictionary.new N).insertAll hash calls = some d

/-! ## Document ids, `processBooks` and the pipeline of `main` -/

/-- An integer reduced into the range of `int` (32 bits, two's complement). -/
def wrapInt (z : Int) : Int := (z + 2147483648) % 4294967296 - 2147483648

/-- `static_cast<int>(n)` for a `size_t` value `n`: the value modulo `2^32`, read in two's
complement (the conversion every compiler of the program performs; C++20 defines it so). -/
def castInt (n : Nat) : Int := wrapInt (n : Int)

/-- `int bookId = startBookId + static_cast<int>(i);` in `processBooks`. The sum is taken
in `int`: it is the exact sum whenever that is representable, the only case in which C++
defines it, and its two's complement reduction otherwise. -/
def bookId (startBookId : Int) (i : Nat) : Int := wrapInt (startBookId + castInt i)

/-- A book file as `std::ifstream file(bookFile)` finds it: `none` when it cannot be
opened (`!file.is_open()`), else the bytes of the file. -/
abbrev Book := Option (List Nat)

/-- `std::getline(file, line)` on the unread part of the file: `none` when no character
is left (the stream fails and the `while` loop ends), else the line up to the next
newline (10), which is consumed and not stored, or up to the end of the file, and the
part of the file left unread. -/
def getline : List Nat → Option (List Nat × List Nat)
  | [] => none
  | c :: rest =>
    if c = 10 then some ([], rest)
    else
      match getline rest with
      | none => some ([c], [])
      | some (line, unread) => some (c :: line, unread)

/-- The loop of `processBooks` over one open file:
`while (std::getline(file, line)) { auto words = splitToWords(line);
for (const auto& word : words) dict.insert(word, bookId); }`
with a fuel bound on the number of lines; every line read consumes at least one byte, so
the length of the file is enough fuel (see `readLoop_fuel`). -/
def readLoop (hash : Word → Nat) (bookId : Int) :
    Nat → List Nat → ShardedConcurrentDictionary → Option ShardedConcurrentDictionary
  | 0, _, dict => some dict
  | fuel + 1, file, dict =>
    match getline file with
    | none => some dict
    | some (line, unread) =>
      match dict.insertAll hash ((splitToWords line).map (fun word => (word, bookId))) with
      | none => none
      | some dict' => readLoop hash bookId fuel unread dict'

/-- The loop `for (size_t i = 0; i < books.size(); ++i)` of `processBooks`, from index
`i` on: a book that cannot be opened is skipped (`continue`), the words of every other
book are inserted with the id `startBookId + static_cast<int>(i)`. -/
def processBooksFrom (hash : Word → Nat) (startBookId : Int) :
    List Book → Nat → ShardedConcurrentDictionary → Option ShardedConcurrentDictionary
  | [], _, dict => some dict
  | none :: rest, i, dict => processBooksFrom hash startBookId rest (i + 1) dict
  | some file :: rest, i, dict =>
    match readLoop hash (bookId startBookId i) file.length file dict with
    | none => none
    | some dict' => processBooksFrom hash startBookId rest (i + 1) dict'

/-- `processBooks(books, dict, startBookId, logger)`; the logger only writes to the
error stream. -/
def processBooks (hash : Word → Nat) (books : List Book) (dict : ShardedConcurrentDictionary)
    (startBookId : Int) : Option ShardedConcurrentDictionary :=
  processBooksFrom hash startBookId books 0 dict

/-- `size_t booksPerThread = (totalBooks + numThreads - 1) / numThreads;`. The operands
are `size_t` values far below `2^64` (a vector of strings has fewer than `2^59` elements,
`numThreads` is below `2^32`), so the arithmetic of `size_t` is that of the naturals. -/
def booksPerThread (totalBooks numThreads : Nat) : Nat :=
  (totalBooks + numThreads - 1) / numThreads

/-- One `threads.emplace_back(processBooks, threadBooks, *threadDicts[i],
static_cast<int>(startIdx), logger)`: the thread index `i`, the bounds of the slice
`allBooks[startIdx, endIdx)` copied into `threadBooks`, and the start offset passed. -/
structure Launch where
  i : Nat
  startIdx : Nat
  endIdx : Nat
  startBookId : Int
deriving DecidableEq

/-- The launch loop of `main`, from thread index `i` on, `remaining` being
`numThreads - i`:
`startIdx = i * booksPerThread; endIdx = std::min(startIdx + booksPerThread, totalBooks);
if (startIdx >= endIdx) break;` and else the launch. -/
def launchLoop (totalBooks perThread : Nat) : Nat → Nat → List Launch
  | 0, _ => []
  | remaining + 1, i =>
    let startIdx := i * perThread
    let endIdx := min (startIdx + perThread) totalBooks
    if startIdx ≥ endIdx then []
    else ⟨i, startIdx, endIdx, castInt startIdx⟩
      :: launchLoop totalBooks perThread remaining (i + 1)

/-- The launches of `main` for `totalBooks` books and `numThreads` threads, in order. -/
def launches (totalBooks numThreads : Nat) : List Launch :=
  launchLoop totalBooks (booksPerThread totalBooks numThreads) numThreads 0

/-- `std::vector<std::string> threadBooks(allBooks.begin() + startIdx,
allBooks.begin() + endIdx);`. -/
def threadBooks (allBooks : List Book) (l : Launch) : List Book :=
  (allBooks.drop l.startIdx).take (l.endIdx - l.startIdx)

/-- The threads of `main`, run to completion (`thread.join()`): thread `l.i` runs
`processBooks` on its slice and on `*threadDicts[l.i]`. Every thread writes to its own
dictionary only, so the dictionaries after the joins are those of the threads run one
after the other. -/
def runThreads (hash : Word → Nat) (allBooks : List Book) :
    List Launch → List ShardedConcurrentDictionary → Option (List ShardedConcurrentDictionary)
  | [], dicts => some dicts
  | l :: rest, dicts =>
    match dicts[l.i]? with
    | none => none
    | some dict =>
      match processBooks hash (threadBooks allBooks l) dict l.startBookId with
      | none => none
      | some dict' => runThreads hash allBooks rest (dicts.set l.i dict')

/-- The pipeline of `main` (the code after the argument and directory handling):
`numThreads` empty dictionaries with `numShards` shards, the launches and the joins, the
merge of all the thread dictionaries into the empty `finalDict`, and
`finalDict.removeSingleOccurrences()`. `numThreads` is
`std::max(1u, std::thread::hardware_concurrency())`. -/
def main (hash : Word → Nat) (numShards : Nat) (allBooks : List Book) (numThreads : Nat) :
    Option ShardedConcurrentDictionary :=
  match runThreads hash allBooks (launches allBooks.length numThreads)
      (List.replicate numThreads (ShardedConcurrentDictionary.new numShards)) with
  | none => none
  | some threadDicts =>
    match (ShardedConcurrentDictionary.new numShards).mergeAll hash threadDicts with
    | none => none
    | some finalDict => some finalDict.removeSingleOccurrences

/-- The lines that the loop `while (std::getline(file, line))` reads, with the fuel
bound of `readLoop`. -/
def linesLoop : Nat → List Nat → List (List Nat)
  | 0, _ => []
  | fuel + 1, file =>
    match getline file with
    | none => []
    | some (line, unread) => line :: linesLoop fuel unread

/-- The words of an open book file in reading order: the words of its lines. -/
def bookWords (file : List Nat) : List Word :=
  (linesLoop file.length file).flatMap splitToWords

/-- The `insert` calls that `processBooks` makes from index `i` on, in order. -/
def callsOf (startBookId : Int) : Nat → List Book → List (Word × Int)
  | _, [] => []
  | i, none :: rest => callsOf startBookId (i + 1) rest
  | i, some file :: rest =>
    (bookWords file).map (fun word => (word, bookId startBookId i))
      ++ callsOf startBookId (i + 1) rest

/-- The launch of thread `j` when the loop reaches it without a break. -/
def launchOf (totalBooks perThread j : Nat) : Launch :=
  ⟨j, j * perThread, min (j * perThread + perThread) totalBooks, castInt (j * perThread)⟩

/-- The number of slices of `perThread` books that cover `totalBooks` books. -/
def sliceCount (totalBooks perThread : Nat) : Nat := (totalBooks + perThread - 1) / perThread

/-- The shard count that `main` constructs its dictionaries with (the code before the
directory scan): `size_t numShards = 16;` and, when a third argument is given
(`argc >= 3`), `numShards = std::stoul(argv[2])` with exit status 1 when the conversion
throws or when `numShards == 0` ("Number of shards must be at least 1."). `arg` is
`none` when the argument is absent, `some none` when `std::stoul` throws, `some (some n)`
when it returns `n`. The result is the exit status or the shard count. -/
def mainNumShards (arg : Option (Option Nat)) : Except Nat Nat :=
  match arg with
  | none => .ok 16
  | some none => .error 1
  | some (some numShards) => if numShards = 0 then .error 1 else .ok numShards

/-- The dictionaries reachable from the empty dictionary with `N` shards by `insert`,
by `merge` with any other dictionary of `N` shards, and by `removeSingleOccurrences`. -/
inductive Reachable (hash : Word → Nat) (N : Nat) : ShardedConcurrentDictionary → Prop
  | empty : Reachable hash N (ShardedConcurrentDictionary.new N)
  | insert (d r : ShardedConcurrentDictionary) (word : Word) (bookId : Int) :
      Reachable hash N d → d.insert hash word bookId = some r → Reachable hash N r
  | merge (d other r : ShardedConcurrentDictionary) :
      Reachable hash N d → other.shards_.length = N → d.merge hash other = some r →
      Reachable hash N r
  | prune (d : ShardedConcurrentDictionary) :
      Reachable hash N d → Reachable hash N d.removeSingleOccurrences

/-- The dictionaries reachable from empty dictionaries with `N` shards by `insert`, by
`merge` of two such dictionaries, and by `removeSingleOccurrences`. -/
inductive ReachableClosed (hash : Word → Nat) (N : Nat) : ShardedConcurrentDictionary → Prop
  | empty : ReachableClosed hash N (ShardedConcurrentDictionary.new N)
  | insert (d r : ShardedConcurrentDictionary) (word : Word) (bookId : Int) :
      ReachableClosed hash N d → d.insert hash word bookId = some r →
      ReachableClosed hash N r
  | merge (d other r : ShardedConcurrentDictionary) :
      ReachableClosed hash N d → ReachableClosed hash N other →
      d.merge hash other = some r → ReachableClosed hash N r
  | prune (d : ShardedConcurrentDictionary) :
      ReachableClosed hash N d → ReachableClosed hash N d.removeSingleOccurrences

/-- The entry invariant: `wordCount ≥ 1`, a non-empty id set, and no more ids than
occurrences. -/
def EntryOK (e : Entry) : Prop :=
  1 ≤ e.wordCount ∧ e.bookIds.Nonempty ∧ (e.bookIds.card : Int) ≤ e.wordCount

/-- Specification side: a list of books in which every book that cannot be opened is
replaced by a book with empty text. -/
def asEmptyText (books : List Book) : List Book :=
  books.map (fun book => some (book.getD []))

/-- Specification side: the `insert` calls of a worker that ingests every readable book
in full: for every index `i` of the slice, in order, and every word of the tokenization
of the whole text of book `i`, in order, one call with the id
`startBookId + static_cast<int>(i)`; no call for a book that cannot be opened. -/
def readableCalls (startBookId : Int) (books : List Book) : List (Word × Int) :=
  (books.enumFrom 0).flatMap (fun p =>
    match p.2 with
    | none => []
    | some file => (splitToWords file).map (fun word => (word, bookId startBookId p.1)))

/-! ## The locks of `merge` -/

/-- A lock event of the thread that executes `self.merge(other)`: the construction and
the destruction of the two `std::lock_guard`s, `lockOther` on `other.shards_[i]->mutex`
and `lockThis` on `shards_[i]->mutex`. -/
inductive LockEvent
  | acquireOther (i : Nat)
  | acquireThis (i : Nat)
  | releaseThis (i : Nat)
  | releaseOther (i : Nat)
deriving DecidableEq

/-- The lock events of the inner loop of `merge` over one table of `other`: for every
`(word, entry)`, `lockThis` is constructed on the shard `getShardIndex(word)` of `self`
and destroyed at the end of the loop body. -/
def shardLockTrace (hash : Word → Nat) (numShards : Nat) (otherShard : Shard) :
    List LockEvent :=
  otherShard.entries.flatMap (fun p =>
    [LockEvent.acquireThis (hash p.1 % numShards), LockEvent.releaseThis (hash p.1 % numShards)])

/-- The lock events of the outer loop of `merge` over the shard indices `indices`:
`lockOther` is constructed at the start of the loop body, before the inner loop, and
destroyed at the end of the loop body, after the inner loop. The trace ends where
`other.shards_[i]` is out of range. -/
def mergeLockTraceFrom (hash : Word → Nat) (numShards : Nat)
    (other : ShardedConcurrentDictionary) : List Nat → List LockEvent
  | [] => []
  | i :: rest =>
    match other.shards_[i]? with
    | none => []
    | some otherShard =>
      LockEvent.acquireOther i :: (shardLockTrace hash numShards otherShard
        ++ LockEvent.releaseOther i :: mergeLockTraceFrom hash numShards other rest)

/-- The lock events of `self.merge(other)`, in order. -/
def mergeLockTrace (hash : Word → Nat) (self other : ShardedConcurrentDictionary) :
    List LockEvent :=
  mergeLockTraceFrom hash self.shards_.length other (List.range self.shards_.length)

/-- The locks that the thread holds: the shard indices of the locks of `other` and of the
locks of `self`. -/
structure Held where
  other : List Nat
  this : List Nat
deriving DecidableEq

/-- The effect of one lock event on the locks held. -/
def Held.step (h : Held) : LockEvent → Held
  | LockEvent.acquireOther i => { h with other := i :: h.other }
  | LockEvent.acquireThis i => { h with this := i :: h.this }
  | LockEvent.releaseThis i => { h with this := h.this.erase i }
  | LockEvent.releaseOther i => { h with other := h.other.erase i }

/-- The locks held after a sequence of lock events. -/
def heldAfter (h : Held) (trace : List LockEvent) : Held := trace.foldl Held.step h

/-- Whether `p` holds of the locks held at every point of a sequence of lock events:
before the first event, between two events and after the last. -/
def always (p : Held → Bool) : Held → List LockEvent → Bool
  | h, [] => p h
  | h, e :: trace => p h && always p (h.step e) trace

/-- The rule of the specification: no lock of `other` and lock of `self` held at the same
time. -/
def neverBoth (h : Held) : Bool := h.other.isEmpty || h.this.isEmpty

/-- What the code does: at most one lock of `other` and at most one lock of `self` are
held, and a lock of `self` is held only while a lock of `other` is held. -/
def nestedLocks (h : Held) : Bool :=
  decide (h.other.length ≤ 1) && decide (h.this.length ≤ 1)
    && (h.this.isEmpty || !h.other.isEmpty)

/-! ## Concurrent `insert` calls -/

/-- The class `ConcurrentDictionary` of `src/parallel_dict/parallel_dictionary.cpp`: its
one table `dict_`, an `std::unordered_map<std::string, Entry>` whose `Entry` has the
fields of the sharded one (`int wordCount = 0; std::unordered_set<int> bookIds;`). The
`shared_mutex` holds no data and every operation releases it before it returns. -/
structure ConcurrentDictionary where
  dict_ : AList (fun _ : Word => Entry)
deriving DecidableEq

namespace ConcurrentDictionary

/-- The default constructor: an empty table. -/
def new : ConcurrentDictionary := ⟨∅⟩

/-- `insert(word, bookId)`:
`auto& entry = dict_[word]; entry.wordCount++; entry.bookIds.insert(bookId);`, where
`dict_[word]` creates a value-initialised entry when `word` is absent. -/
def insert (self : ConcurrentDictionary) (word : Word) (bookId : Int) :
    ConcurrentDictionary :=
  let entry := (self.dict_.lookup word).getD {}
  ⟨self.dict_.insert word
    { wordCount := entry.wordCount + 1, bookIds := Insert.insert bookId entry.bookIds }⟩

/-- `merge(other)`: `for (const auto& [word, entry] : other.dict_)` do
`auto& myEntry = dict_[word]; myEntry.wordCount += entry.wordCount;
myEntry.bookIds.insert(entry.bookIds.begin(), entry.bookIds.end());`. `self` and `other`
are two objects. -/
def merge (self other : ConcurrentDictionary) : ConcurrentDictionary :=
  other.dict_.entries.foldl
    (fun acc p =>
      let myEntry := (acc.dict_.lookup p.1).getD {}
      ⟨acc.dict_.insert p.1
        { wordCount := myEntry.wordCount + p.2.wordCount,
          bookIds := myEntry.bookIds ∪ p.2.bookIds }⟩)
    self

/-- `removeSingleOccurrences()`: the loop over `dict_` erases every entry whose
`wordCount` is 1 and keeps every other entry. -/
def removeSingleOccurrences (self : ConcurrentDictionary) : ConcurrentDictionary :=
  ⟨⟨self.dict_.entries.filter (fun p => decide (p.2.wordCount ≠ 1)),
    self.dict_.nodupKeys.sublist (List.filter_sublist _)⟩⟩

/-- The mapping word -> entry that the table holds, the one `print()` traverses. -/
def find? (self : ConcurrentDictionary) (word : Word) : Option Entry :=
  self.dict_.lookup word

end ConcurrentDictionary

/-- How a dictionary instance comes to its state: it is constructed empty and then
receives a sequence of `insert`, `merge` and `removeSingleOccurrences` calls; the
argument of a `merge` call is another instance, which has a history of its own. -/
inductive History where
  | empty : History
  | insert (before : History) (word : Word) (bookId : Int) : History
  | merge (before other : History) : History
  | removeSingleOccurrences (before : History) : History

namespace History

/-- The history applied to `ShardedConcurrentDictionary` instances, every one of them
constructed with `N` shards. -/
def runSharded (hash : Word → Nat) (N : Nat) : History → Option ShardedConcurrentDictionary
  | .empty => some (ShardedConcurrentDictionary.new N)
  | .insert before word bookId =>
    match runSharded hash N before with
    | none => none
    | some d => d.insert hash word bookId
  | .merge before other =>
    match runSharded hash N before, runSharded hash N other with
    | some d, some o => d.merge hash o
    | _, _ => none
  | .removeSingleOccurrences before =>
    match runSharded hash N before with
    | none => none
    | some d => some d.removeSingleOccurrences

/-- The history applied to `ConcurrentDictionary` instances. -/
def runSingle : History → ConcurrentDictionary
  | .empty => ConcurrentDictionary.new
  | .insert before word bookId => (runSingle before).insert word bookId
  | .merge before other => (runSingle before).merge (runSingle other)
  | .removeSingleOccurrences before => (runSingle before).removeSingleOccurrences

end History

/-- Example history: two instances each receive `insert("a", 0)`, resp. `insert("a", 1)`
and `insert("bc", 1)`; the second is merged into the first, which is then pruned. -/
def demoHistory : History :=
  .removeSingleOccurrences
    (.merge (.insert .empty [97] 0) (.insert (.insert .empty [97] 1) [98, 99] 1))

/-- Example dictionary with two shards for the hash function `List.length`: the word
`a` in shard 1, inserted once with document id 1; a second instance beside `demoSelf`. -/
def demoTwin : ShardedConcurrentDictionary := ⟨[∅, singleShard [97] ⟨1, {1}⟩]⟩

/-! ## The sharded dictionary with the arithmetic of `int wordCount`

The operations `insert` and `merge` above take `wordCount` as an unbounded integer: they
describe the executions in which no count leaves the range of `int`. The operations below
are the same statements with `entry.wordCount++` and `myEntry.wordCount += entry.wordCount`
taken in `int` (32 bits, two's complement): the exact sum whenever it is representable,
and its reduction `wrapInt` otherwise, which is what the compiled program computes.
`removeSingleOccurrences` does no arithmetic and is the same for both. -/

namespace ShardedConcurrentDictionary

/-- The update of one table in `merge`, in `int`:
`auto& e = dict[word]; e.wordCount += count; e.bookIds.insert(ids.begin(), ids.end());`
where `dict[word]` creates a value-initialised entry (count 0, no id) when `word` is
absent. -/
def addToShardInt (shard : Shard) (word : Word) (count : Int) (ids : Finset Int) : Shard :=
  let entry := (shard.lookup word).getD {}
  shard.insert word
    { wordCount := wrapInt (entry.wordCount + count), bookIds := entry.bookIds ∪ ids }

/-- `insert(word, bookId)`, in `int`:
`shard = *shards_[getShardIndex(word)]; entry = shard.dict[word]; entry.wordCount++;
entry.bookIds.insert(bookId);`. The result is `none` when the shard index cannot be
computed or is out of range. -/
def insertInt (hash : Word → Nat) (self : ShardedConcurrentDictionary) (word : Word)
    (bookId : Int) : Option ShardedConcurrentDictionary :=
  match self.getShardIndex hash word with
  | none => none
  | some shardIndex =>
    match self.shards_[shardIndex]? with
    | none => none
    | some shard =>
      let entry := (shard.lookup word).getD {}
      some ⟨self.shards_.set shardIndex
        (shard.insert word
          { wordCount := wrapInt (entry.wordCount + 1),
            bookIds := Insert.insert bookId entry.bookIds })⟩

/-- The body of the inner loop of `merge` for one `(word, entry)` of the other shard, in
`int`: `thisShard = *shards_[getShardIndex(word)]; myEntry = thisShard.dict[word];
myEntry.wordCount += entry.wordCount; myEntry.bookIds.insert(entry.bookIds...)`. -/
def mergeEntryInt (hash : Word → Nat) (self : ShardedConcurrentDictionary) (word : Word)
    (entry : Entry) : Option ShardedConcurrentDictionary :=
  match self.getShardIndex hash word with
  | none => none
  | some shardIndex =>
    match self.shards_[shardIndex]? with
    | none => none
    | some thisShard =>
      some ⟨self.shards_.set shardIndex
        (addToShardInt thisShard word entry.wordCount entry.bookIds)⟩

/-- The inner loop of `merge`, in `int`:
`for (const auto& [word, entry] : otherShard.dict)`. -/
def mergeShardInt (hash : Word → Nat) (self : ShardedConcurrentDictionary)
    (otherShard : Shard) : Option ShardedConcurrentDictionary :=
  otherShard.entries.foldlM (fun acc p => mergeEntryInt hash acc p.1 p.2) self

/-- `merge(other)`, in `int`: `for (i = 0; i < shards_.size(); ++i)` read
`*other.shards_[i]` (`none` when `i` is out of range in `other`) and run the inner loop on
it. `self` and `other` are two objects. -/
def mergeInt (hash : Word → Nat) (self other : ShardedConcurrentDictionary) :
    Option ShardedConcurrentDictionary :=
  (List.range self.shards_.length).foldlM
    (fun acc i =>
      match other.shards_[i]? with
      | none => none
      | some otherShard => mergeShardInt hash acc otherShard)
    self

/-- A sequence of calls `insert(w_1, d_1); insert(w_2, d_2); ...`, in `int`. -/
def insertAllInt (hash : Word → Nat) (self : ShardedConcurrentDictionary)
    (calls : List (Word × Int)) : Option ShardedConcurrentDictionary :=
  calls.foldlM (fun acc c => acc.insertInt hash c.1 c.2) self

/-- Specification side: the entry of a word after `e` has been added to its previous
entry `o` in `int`: the counts are added and reduced to `int`, the id sets united. -/
def addEntryInt (o : Option Entry) (e : Entry) : Option Entry :=
  some { wordCount := wrapInt (countOf o + e.wordCount), bookIds := idsOf o ∪ e.bookIds }

/-- Specification side: the entry of a word after a possibly absent entry `x` has been
added to its previous entry `o` in `int`: nothing changes when `x` is absent. -/
def addOptInt (o x : Option Entry) : Option Entry :=
  match x with
  | none => o
  | some e => addEntryInt o e

end ShardedConcurrentDictionary

/-- The largest `int`, `INT_MAX = 2^31 - 1`. -/
def intMax : Int := 2147483647

/-- The smallest `int`, `INT_MIN = -2^31`. -/
def intMin : Int := -2147483648

/-- Example dictionary with one shard: the word `a` with `wordCount` `INT_MAX`, the
state after `2^31 - 1` calls `insert("a", 0)` on an empty dictionary. -/
def demoFull : ShardedConcurrentDictionary := ⟨[singleShard [97] ⟨2147483647, {0}⟩]⟩

/-- Example dictionary with one shard: the word `a` with `wordCount` `2^30`, the state
after `2^30` calls `insert("a", 0)` on an empty dictionary. -/
def demoHalf : ShardedConcurrentDictionary := ⟨[singleShard [97] ⟨1073741824, {0}⟩]⟩

/-- Example dictionary with one shard: the word `a` with `wordCount` 1, the state after
one call `insert("a", 1)` on an empty dictionary. -/
def demoOnce : ShardedConcurrentDictionary := ⟨[singleShard [97] ⟨1, {1}⟩]⟩

/-- Example dictionary with one shard: the word `a` with `wordCount` `2^30`, the state
after `2^30` calls `insert("a", 1)` on an empty dictionary; a second instance beside
`demoHalf`. -/
def demoHalfTwin : ShardedConcurrentDictionary := ⟨[singleShard [97] ⟨1073741824, {1}⟩]⟩

/-! # Theorems -/

/-! ## Tokenizer: proofs -/

theorem isalpha_zero : isalpha 0 = false := by decide

theorem tolower_lower (c : Nat) (h : isalpha c = true) : 97 ≤ tolower c ∧ tolower c ≤ 122 := by
  unfold isalpha at h
  unfold tolower
  simp only [Bool.or_eq_true, Bool.and_eq_true, decide_eq_true_eq] at h
  split_ifs <;> omega

theorem skipNonAlpha_spec (rest : List Nat) :
    ∃ sep, rest = sep ++ skipNonAlpha rest ∧ (∀ c ∈ sep, isalpha c = false) ∧
      isalpha ((skipNonAlpha rest).getD 0 0) = !(skipNonAlpha rest).isEmpty := by
  induction rest with
  | nil => exact ⟨[], by simp [skipNonAlpha, isalpha_zero]⟩
  | cons c t ih =>
    by_cases hc : isalpha c = true
    · exact ⟨[], by simp [skipNonAlpha, hc]⟩
    · obtain ⟨sep, h1, h2, h3⟩ := ih
      have hc' : isalpha c = false := by simpa using hc
      refine ⟨c :: sep, ?_, ?_, ?_⟩
      · simp only [skipNonAlpha, hc', Bool.not_false, if_true, List.cons_append]
        rw [← h1]
      · intro x hx
        rcases List.mem_cons.1 hx with rfl | hx
        · exact hc'
        · exact h2 x hx
      · simpa [skipNonAlpha, hc'] using h3

theorem collectAlpha_spec (l : List Nat) :
    l = (collectAlpha l).1 ++ (collectAlpha l).2 ∧
      (∀ c ∈ (collectAlpha l).1, isalpha c = true) ∧
      isalpha ((collectAlpha l).2.getD 0 0) = false ∧
      ((collectAlpha l).1 = [] → isalpha (l.getD 0 0) = false) := by
  induction l with
  | nil => simp [collectAlpha, isalpha_zero]
  | cons c t ih =>
    by_cases hc : isalpha c = true
    · obtain ⟨h1, h2, h3, _⟩ := ih
      refine ⟨?_, ?_, ?_, ?_⟩
      · simp only [collectAlpha, hc, if_true, List.cons_append]
        rw [← h1]
      · intro x hx
        simp only [collectAlpha, hc, if_true] at hx
        rcases List.mem_cons.1 hx with rfl | hx
        · exact hc
        · exact h2 x hx
      · simpa [collectAlpha, hc] using h3
      · simp [collectAlpha, hc]
    · have hc' : isalpha c = false := by simpa using hc
      simp [collectAlpha, hc']

/-- One iteration of the outer loop, as a decomposition of the suffix at `pos`:
a separator, the word, and the suffix the next iteration starts from. -/
theorem splitStep_spec (rest : List Nat) (hne : rest ≠ []) :
    ∃ sep, rest = sep ++ (collectAlpha (skipNonAlpha rest)).1
          ++ (collectAlpha (skipNonAlpha rest)).2 ∧
      skipNonAlpha rest = (collectAlpha (skipNonAlpha rest)).1
          ++ (collectAlpha (skipNonAlpha rest)).2 ∧
      (∀ c ∈ sep, isalpha c = false) ∧
      (∀ c ∈ (collectAlpha (skipNonAlpha rest)).1, isalpha c = true) ∧
      isalpha ((collectAlpha (skipNonAlpha rest)).2.getD 0 0) = false ∧
      (collectAlpha (skipNonAlpha rest)).2.length < rest.length := by
  obtain ⟨sep, h1, h2, h3⟩ := skipNonAlpha_spec rest
  obtain ⟨k1, k2, k3, k4⟩ := collectAlpha_spec (skipNonAlpha rest)
  refine ⟨sep, ?_, k1, h2, k2, k3, ?_⟩
  · rw [List.append_assoc, ← k1]; exact h1
  · have hl : rest.length = sep.length + ((collectAlpha (skipNonAlpha rest)).1.length
        + (collectAlpha (skipNonAlpha rest)).2.length) := by
      have := congrArg List.length h1
      rw [List.length_append] at this
      rw [this]
      have := congrArg List.length k1
      rw [List.length_append] at this
      omega
    by_contra hcon
    have hsep : sep = [] := List.eq_nil_of_length_eq_zero (by omega)
    have hw : (collectAlpha (skipNonAlpha rest)).1 = [] :=
      List.eq_nil_of_length_eq_zero (by omega)
    have h4 := k4 hw
    rw [h4] at h3
    have h5 : skipNonAlpha rest = [] := by
      cases hs : skipNonAlpha rest with
      | nil => rfl
      | cons a b => rw [hs] at h3; simp at h3
    rw [hsep, h5] at h1
    exact hne (by simpa using h1)

theorem getD_append_offset (pre rest : List Nat) (i : Nat) :
    (pre ++ rest).getD (pre.length + i) 0 = rest.getD i 0 := by
  rw [List.getD_append_right _ _ _ _ (Nat.le_add_right _ _)]
  simp

/-- The arithmetic core of one loop iteration. `p0` is `pos` at loop entry, `[p0, p1)`
the separator, `[p1, p2)` the collected word: the maximal runs that start at or after
`p0` are the collected word (when it is not empty) and those that start at or after
`p2`. -/
theorem run_step (text : List Nat) (p0 p1 p2 : Nat) (h01 : p0 ≤ p1) (h12 : p1 ≤ p2)
    (h2L : p2 ≤ text.length)
    (hsep : ∀ i, p0 ≤ i → i < p1 → isalpha (text.getD i 0) = false)
    (hword : ∀ i, p1 ≤ i → i < p2 → isalpha (text.getD i 0) = true)
    (hend : isalpha (text.getD p2 0) = false)
    (hbnd : p0 = 0 ∨ isalpha (text.getD p0 0) = false) (s e : Nat) :
    (p0 ≤ s ∧ IsMaximalRun text s e) ↔
      ((p1 < p2 ∧ s = p1 ∧ e = p2) ∨ (p2 ≤ s ∧ IsMaximalRun text s e)) := by
  constructor
  · rintro ⟨h0s, hse, heL, hall, hleft, hright⟩
    have hs : isalpha (text.getD s 0) = true := hall s le_rfl hse
    have h1s : p1 ≤ s := by
      by_contra hcon
      have := hsep s h0s (by omega)
      rw [this] at hs; exact Bool.noConfusion hs
    by_cases h2s : p2 ≤ s
    · exact Or.inr ⟨h2s, hse, heL, hall, hleft, hright⟩
    · left
      have hs1 : s = p1 := by
        rcases hleft with h | h
        · omega
        · by_contra hcon
          have := hword (s - 1) (by omega) (by omega)
          rw [this] at h; exact Bool.noConfusion h
      have he2 : e ≤ p2 := by
        by_contra hcon
        have := hall p2 (by omega) (by omega)
        rw [this] at hend; exact Bool.noConfusion hend
      have he : e = p2 := by
        by_contra hcon
        have hlt : e < p2 := by omega
        have := hword e (by omega) hlt
        rcases hright with h | h
        · omega
        · rw [this] at h; exact Bool.noConfusion h
      exact ⟨by omega, hs1, he⟩
  · rintro (⟨hlt, rfl, rfl⟩ | ⟨h2s, hrun⟩)
    · refine ⟨h01, hlt, h2L, hword, ?_, Or.inr hend⟩
      by_cases h : p0 = s
      · subst h
        rcases hbnd with h | h
        · exact Or.inl h
        · have := hword p0 le_rfl hlt
          rw [this] at h; exact Bool.noConfusion h
      · exact Or.inr (hsep (s - 1) (by omega) (by omega))
    · exact ⟨by omega, hrun⟩

/-- The loop invariant in terms of lists: with `text = pre ++ rest` and `pos = pre.length`,
one iteration splits `rest` into separator, word and new suffix. -/
theorem run_step_lists (pre sep w r2 : List Nat)
    (hsep : ∀ c ∈ sep, isalpha c = false) (hw : ∀ c ∈ w, isalpha c = true)
    (hend : isalpha (r2.getD 0 0) = false)
    (hbnd : pre = [] ∨ isalpha ((sep ++ w ++ r2).getD 0 0) = false) (s e : Nat) :
    (pre.length ≤ s ∧ IsMaximalRun (pre ++ (sep ++ w ++ r2)) s e) ↔
      ((w ≠ [] ∧ s = pre.length + sep.length ∧ e = pre.length + sep.length + w.length) ∨
        ((pre ++ sep ++ w).length ≤ s ∧ IsMaximalRun (pre ++ (sep ++ w ++ r2)) s e)) := by
  have key := run_step (pre ++ (sep ++ w ++ r2)) pre.length (pre.length + sep.length)
    (pre.length + sep.length + w.length) (by omega) (by omega)
    (by simp only [List.length_append]; omega)
    (by
      intro i h1 h2
      obtain ⟨j, rfl⟩ := Nat.exists_eq_add_of_le h1
      rw [getD_append_offset, List.append_assoc, List.getD_append _ _ _ _ (by omega)]
      rw [List.getD_eq_getElem _ _ (by omega)]
      exact hsep _ (List.getElem_mem _))
    (by
      intro i h1 h2
      obtain ⟨j, rfl⟩ := Nat.exists_eq_add_of_le h1
      have e1 : pre ++ (sep ++ w ++ r2) = (pre ++ sep) ++ (w ++ r2) := by simp
      have e2 : pre.length + sep.length + j = (pre ++ sep).length + j := by
        simp only [List.length_append]
      rw [e1, e2, getD_append_offset, List.getD_append _ _ _ _ (by omega)]
      rw [List.getD_eq_getElem _ _ (by omega)]
      exact hw _ (List.getElem_mem _))
    (by
      have e1 : pre ++ (sep ++ w ++ r2) = (pre ++ sep ++ w) ++ r2 := by simp
      have e2 : pre.length + sep.length + w.length = (pre ++ sep ++ w).length + 0 := by
        simp only [List.length_append]; omega
      rw [e1, e2, getD_append_offset]
      exact hend)
    (by
      rcases hbnd with h | h
      · left; simp [h]
      · right
        have := getD_append_offset pre (sep ++ w ++ r2) 0
        rw [Nat.add_zero] at this
        rw [this]; exact h)
    s e
  rw [key]
  have hwne : w ≠ [] ↔ pre.length + sep.length < pre.length + sep.length + w.length := by
    rw [← List.length_pos]; omega
  simp only [List.length_append, hwne]

theorem no_run_past_end (pre : List Nat) (s e : Nat) :
    ¬ (pre.length ≤ s ∧ IsMaximalRun pre s e) := by
  rintro ⟨h, hse, heL, _⟩
  omega

theorem splitStep_offsets (pre rest sep : List Nat)
    (hrest : rest = sep ++ (collectAlpha (skipNonAlpha rest)).1
          ++ (collectAlpha (skipNonAlpha rest)).2)
    (hskip : skipNonAlpha rest = (collectAlpha (skipNonAlpha rest)).1
          ++ (collectAlpha (skipNonAlpha rest)).2) :
    pre.length + (rest.length - (skipNonAlpha rest).length) = pre.length + sep.length ∧
    pre.length + (rest.length - (skipNonAlpha rest).length)
        + (collectAlpha (skipNonAlpha rest)).1.length
      = (pre ++ sep ++ (collectAlpha (skipNonAlpha rest)).1).length := by
  have h1 := congrArg List.length hrest
  have h2 := congrArg List.length hskip
  simp only [List.length_append] at h1 h2 ⊢
  omega

/-- The index pairs recorded by the loop are exactly the maximal runs that start at or
after the loop's entry position. -/
theorem runsLoop_mem (fuel : Nat) : ∀ (pre rest : List Nat), rest.length ≤ fuel →
    (pre = [] ∨ isalpha (rest.getD 0 0) = false) → ∀ s e,
    ((s, e) ∈ runsLoop fuel pre.length rest ↔
      (pre.length ≤ s ∧ IsMaximalRun (pre ++ rest) s e)) := by
  induction fuel with
  | zero =>
    intro pre rest hfuel _ s e
    have hnil : rest = [] := List.eq_nil_of_length_eq_zero (by omega)
    subst hnil
    simp only [runsLoop, List.not_mem_nil, List.append_nil, false_iff]
    exact no_run_past_end pre s e
  | succ fuel ih =>
    intro pre rest hfuel hbnd s e
    by_cases hne : rest = []
    · subst hne
      simp only [runsLoop, if_true, List.not_mem_nil, List.append_nil, false_iff]
      exact no_run_past_end pre s e
    · obtain ⟨sep, hrest, hskip, hsep, hw, hend, hlen⟩ := splitStep_spec rest hne
      obtain ⟨ho1, ho2⟩ := splitStep_offsets pre rest sep hrest hskip
      have hih := ih (pre ++ sep ++ (collectAlpha (skipNonAlpha rest)).1)
        (collectAlpha (skipNonAlpha rest)).2 (by omega) (Or.inr hend) s e
      have htext : pre ++ sep ++ (collectAlpha (skipNonAlpha rest)).1
          ++ (collectAlpha (skipNonAlpha rest)).2 = pre ++ rest := by
        conv_rhs => rw [hrest]
        simp
      rw [htext] at hih
      have hstep := run_step_lists pre sep (collectAlpha (skipNonAlpha rest)).1
        (collectAlpha (skipNonAlpha rest)).2 hsep hw hend (by rw [← hrest]; exact hbnd) s e
      rw [← hrest] at hstep
      rw [hstep, ← hih, ← ho2, ← ho1]
      rw [runsLoop]
      simp only [hne, if_false]
      split_ifs with hwne
      · simp only [List.mem_cons, Prod.mk.injEq]
        constructor
        · rintro (⟨h1, h2⟩ | h)
          · exact Or.inl ⟨hwne, h1, h2⟩
          · exact Or.inr h
        · rintro (⟨_, h1, h2⟩ | h)
          · exact Or.inl ⟨h1, h2⟩
          · exact Or.inr h
      · constructor
        · intro h; exact Or.inr h
        · rintro (⟨h, _⟩ | h)
          · exact absurd h hwne
          · exact h

/-- The recorded index pairs come in increasing order and are separated by at least one
character. -/
theorem runsLoop_pairwise (fuel : Nat) : ∀ (pre rest : List Nat), rest.length ≤ fuel →
    (pre = [] ∨ isalpha (rest.getD 0 0) = false) →
    (runsLoop fuel pre.length rest).Pairwise (fun a b => a.2 < b.1) := by
  induction fuel with
  | zero => intro pre rest _ _; simp [runsLoop]
  | succ fuel ih =>
    intro pre rest hfuel hbnd
    by_cases hne : rest = []
    · simp [runsLoop, hne]
    · obtain ⟨sep, hrest, hskip, hsep, hw, hend, hlen⟩ := splitStep_spec rest hne
      obtain ⟨ho1, ho2⟩ := splitStep_offsets pre rest sep hrest hskip
      have hih := ih (pre ++ sep ++ (collectAlpha (skipNonAlpha rest)).1)
        (collectAlpha (skipNonAlpha rest)).2 (by omega) (Or.inr hend)
      rw [runsLoop]
      simp only [hne, if_false]
      rw [ho2]
      split_ifs with hwne
      · refine List.pairwise_cons.2 ⟨?_, hih⟩
        rintro ⟨s, e⟩ hmem
        have hm := (runsLoop_mem fuel _ _ (by omega) (Or.inr hend) s e).1 hmem
        obtain ⟨h1, hse, _, hall, _⟩ := hm
        have hs := hall s le_rfl hse
        show (pre ++ sep ++ (collectAlpha (skipNonAlpha rest)).1).length < s
        rcases Nat.lt_or_ge (pre ++ sep ++ (collectAlpha (skipNonAlpha rest)).1).length s with h | h
        · exact h
        · have hs' : s = (pre ++ sep ++ (collectAlpha (skipNonAlpha rest)).1).length + 0 := by
            omega
          rw [hs', getD_append_offset, hend] at hs
          exact Bool.noConfusion hs
      · exact hih

theorem lowerSlice_append (a w b : List Nat) :
    lowerSlice (a ++ w ++ b) (a.length, a.length + w.length) = w.map tolower := by
  simp [lowerSlice, List.append_assoc]

/-- The words emitted by the loop are the lowercase slices of the recorded index pairs. -/
theorem splitLoop_eq_runs (fuel : Nat) : ∀ (pre rest : List Nat) (words : List Word),
    splitLoop fuel rest words
      = words ++ (runsLoop fuel pre.length rest).map (lowerSlice (pre ++ rest)) := by
  induction fuel with
  | zero => intro pre rest words; simp [splitLoop, runsLoop]
  | succ fuel ih =>
    intro pre rest words
    by_cases hne : rest = []
    · simp [splitLoop, runsLoop, hne]
    · obtain ⟨sep, hrest, hskip, hsep, hw, hend, hlen⟩ := splitStep_spec rest hne
      obtain ⟨ho1, ho2⟩ := splitStep_offsets pre rest sep hrest hskip
      have htext : pre ++ sep ++ (collectAlpha (skipNonAlpha rest)).1
          ++ (collectAlpha (skipNonAlpha rest)).2 = pre ++ rest := by
        conv_rhs => rw [hrest]
        simp
      have hslice := lowerSlice_append (pre ++ sep) (collectAlpha (skipNonAlpha rest)).1
        (collectAlpha (skipNonAlpha rest)).2
      rw [htext] at hslice
      rw [splitLoop, runsLoop]
      simp only [hne, if_false]
      rw [ho2]
      split_ifs with hwne
      · rw [ih (pre ++ sep ++ (collectAlpha (skipNonAlpha rest)).1), htext, List.map_cons,
          ← ho2, ho1, ← List.length_append, hslice]
        simp
      · rw [ih (pre ++ sep ++ (collectAlpha (skipNonAlpha rest)).1), htext]

/-- Running the outer loop with more fuel than `text.length` changes nothing: the loop
has ended by then. -/
theorem splitLoop_fuel (fuel : Nat) : ∀ (rest : List Nat) (words : List Word) (extra : Nat),
    rest.length ≤ fuel → splitLoop (fuel + extra) rest words = splitLoop fuel rest words := by
  induction fuel with
  | zero =>
    intro rest words extra h
    have hnil : rest = [] := List.eq_nil_of_length_eq_zero (by omega)
    subst hnil
    cases extra <;> simp [splitLoop]
  | succ fuel ih =>
    intro rest words extra h
    by_cases hne : rest = []
    · rw [show fuel + 1 + extra = (fuel + extra) + 1 by omega]
      simp [splitLoop, hne]
    · obtain ⟨sep, _, _, _, _, _, hlen⟩ := splitStep_spec rest hne
      rw [show fuel + 1 + extra = (fuel + extra) + 1 by omega, splitLoop, splitLoop]
      simp only [hne, if_false]
      split_ifs
      · exact ih _ _ _ (by omega)
      · exact ih _ _ _ (by omega)

theorem lowerSlice_of_run (text : List Nat) (s e : Nat) (h : IsMaximalRun text s e) :
    lowerSlice text (s, e) ≠ [] ∧ ∀ c ∈ lowerSlice text (s, e), 97 ≤ c ∧ c ≤ 122 := by
  obtain ⟨hse, heL, hall, _, _⟩ := h
  constructor
  · intro hnil
    have := congrArg List.length hnil
    simp only [lowerSlice, List.length_map, List.length_take, List.length_drop,
      List.length_nil] at this
    omega
  · intro c hc
    simp only [lowerSlice, List.mem_map] at hc
    obtain ⟨x, hx, rfl⟩ := hc
    obtain ⟨j, hj, rfl⟩ := List.mem_iff_getElem.1 hx
    simp only [List.length_take, List.length_drop] at hj
    have hget := hall (s + j) (by omega) (by omega)
    rw [List.getD_eq_getElem _ _ (by omega)] at hget
    apply tolower_lower
    simpa using hget

/-- C1: `splitToWords(text)` is, in left-to-right order, the list of the maximal runs of
alphabetic characters of `text`, each case-folded to lowercase: there is a list of index
pairs that holds exactly the maximal runs, in increasing order, whose lowercase slices
are the returned words. Hence every returned word is non-empty and made of lowercase
letters only, and a text without alphabetic character (the empty text in particular)
yields no word. -/
theorem splitToWords_maximal_runs (text : List Nat) :
    ∃ runs : List (Nat × Nat),
      (∀ s e, (s, e) ∈ runs ↔ IsMaximalRun text s e) ∧
      runs.Pairwise (fun a b => a.2 < b.1) ∧
      splitToWords text = runs.map (lowerSlice text) ∧
      (∀ w ∈ splitToWords text, w ≠ [] ∧ ∀ c ∈ w, 97 ≤ c ∧ c ≤ 122) ∧
      ((∀ c ∈ text, isalpha c = false) → splitToWords text = []) ∧
      splitToWords [] = [] := by
  have hmem : ∀ s e, (s, e) ∈ runsLoop text.length 0 text ↔ IsMaximalRun text s e := by
    intro s e
    have := runsLoop_mem text.length [] text le_rfl (Or.inl rfl) s e
    simpa using this
  have heq : splitToWords text = (runsLoop text.length 0 text).map (lowerSlice text) := by
    have := splitLoop_eq_runs text.length [] text []
    simpa [splitToWords] using this
  refine ⟨runsLoop text.length 0 text, hmem, ?_, heq, ?_, ?_, by simp [splitToWords, splitLoop]⟩
  · exact runsLoop_pairwise text.length [] text le_rfl (Or.inl rfl)
  · intro w hw
    rw [heq, List.mem_map] at hw
    obtain ⟨⟨s, e⟩, hr, rfl⟩ := hw
    exact lowerSlice_of_run text s e ((hmem s e).1 hr)
  · intro hno
    have hnil : runsLoop text.length 0 text = [] := by
      apply List.eq_nil_iff_forall_not_mem.2
      rintro ⟨s, e⟩ hr
      obtain ⟨hse, heL, hall, _, _⟩ := (hmem s e).1 hr
      have hs := hall s le_rfl hse
      rw [List.getD_eq_getElem _ _ (by omega), hno _ (List.getElem_mem _)] at hs
      exact Bool.noConfusion hs
    rw [heq, hnil, List.map_nil]

/-! ## The sharded dictionary: one update -/

namespace ShardedConcurrentDictionary

theorem getShardIndex_pos (hash : Word → Nat) (self : ShardedConcurrentDictionary) (key : Word)
    (hN : 0 < self.shards_.length) :
    self.getShardIndex hash key = some (hash key % self.shards_.length) := by
  unfold getShardIndex
  rw [if_neg (by omega)]

theorem shardEntry_set (l : List Shard) (j : Nat) (s : Shard) (hj : j < l.length) (i : Nat)
    (w : Word) :
    shardEntry ⟨l.set j s⟩ i w = if i = j then s.lookup w else shardEntry ⟨l⟩ i w := by
  unfold shardEntry
  simp only [List.getElem?_set]
  by_cases h : j = i
  · subst h; simp [hj]
  · have h' : ¬ i = j := fun e => h e.symm
    simp [h, h']

theorem lookup_addToShard (shard : Shard) (word : Word) (count : Int) (ids : Finset Int)
    (w : Word) :
    (addToShard shard word count ids).lookup w =
      if w = word then addEntry (shard.lookup word) ⟨count, ids⟩ else shard.lookup w := by
  unfold addToShard
  by_cases h : w = word
  · subst h
    simp [AList.lookup_insert, addEntry, countOf, idsOf]
  · simp [AList.lookup_insert_ne h, h]

theorem insert_eq_mergeEntry (hash : Word → Nat) (self : ShardedConcurrentDictionary)
    (word : Word) (bookId : Int) :
    self.insert hash word bookId = self.mergeEntry hash word ⟨1, {bookId}⟩ := by
  unfold insert mergeEntry addToShard
  cases self.getShardIndex hash word with
  | none => rfl
  | some k =>
    dsimp only
    cases self.shards_[k]? with
    | none => rfl
    | some shard =>
      dsimp only
      rw [Finset.union_comm, ← Finset.insert_eq]

/-- One `(word, entry)` step of `merge` on a dictionary with at least one shard: it
succeeds, keeps the number of shards, and changes exactly the entry of `word` in the
shard `word` is routed to. -/
theorem mergeEntry_spec (hash : Word → Nat) (self : ShardedConcurrentDictionary) (word : Word)
    (e : Entry) (hN : 0 < self.shards_.length) :
    ∃ r, self.mergeEntry hash word e = some r ∧ r.shards_.length = self.shards_.length ∧
      ∀ i w, r.shardEntry i w =
        if i = hash word % self.shards_.length ∧ w = word
        then addEntry (self.shardEntry i w) e else self.shardEntry i w := by
  have hlt : hash word % self.shards_.length < self.shards_.length := Nat.mod_lt _ hN
  unfold mergeEntry
  rw [getShardIndex_pos hash self word hN]
  simp only [List.getElem?_eq_getElem hlt]
  refine ⟨_, rfl, by simp, ?_⟩
  intro i w
  rw [shardEntry_set _ _ _ hlt, lookup_addToShard]
  by_cases hi : i = hash word % self.shards_.length
  · by_cases hw : w = word
    · subst hw
      simp only [hi, and_self, if_true]
      unfold shardEntry
      simp [List.getElem?_eq_getElem hlt]
    · simp only [hi, hw, and_false, if_false, if_true]
      unfold shardEntry
      simp [List.getElem?_eq_getElem hlt]
  · simp [hi]

end ShardedConcurrentDictionary

/-! ## The sharded dictionary: algebra of entries -/

namespace ShardedConcurrentDictionary

theorem countOf_addOpt (o x : Option Entry) : countOf (addOpt o x) = countOf o + countOf x := by
  cases x with
  | none => simp [addOpt, countOf]
  | some e => simp [addOpt, addEntry, countOf]

theorem idsOf_addOpt (o x : Option Entry) : idsOf (addOpt o x) = idsOf o ∪ idsOf x := by
  cases x with
  | none => simp [addOpt, idsOf]
  | some e => simp [addOpt, addEntry, idsOf]

theorem isSome_addOpt (o x : Option Entry) :
    (addOpt o x).isSome = (o.isSome || x.isSome) := by
  cases x with
  | none => simp [addOpt]
  | some e => simp [addOpt, addEntry]

theorem addOpt_none_left (x : Option Entry) : addOpt none x = x := by
  cases x with
  | none => rfl
  | some e => simp [addOpt, addEntry, countOf, idsOf]

theorem addOpt_assoc (o x y : Option Entry) :
    addOpt (addOpt o x) y = addOpt o (addOpt x y) := by
  cases y with
  | none => rfl
  | some e =>
    have h1 := countOf_addOpt o x
    have h2 := idsOf_addOpt o x
    show addEntry (addOpt o x) e = addEntry o _
    cases x with
    | none => simp [addOpt, addEntry, countOf, idsOf]
    | some f =>
      simp only [addEntry, h1, h2]
      simp only [addOpt, addEntry, countOf, idsOf, Option.getD_some]
      rw [add_assoc, Finset.union_assoc]

theorem addOpt_right_comm (o x y : Option Entry) :
    addOpt (addOpt o x) y = addOpt (addOpt o y) x := by
  cases x with
  | none => rfl
  | some e =>
    cases y with
    | none => rfl
    | some f =>
      simp only [addOpt, addEntry, countOf, idsOf, Option.getD_some]
      rw [add_right_comm, Finset.union_right_comm]

theorem tally_nil (w : Word) : tally [] w = none := by
  simp [tally, occurrences]

theorem tally_cons (c : Word × Int) (t : List (Word × Int)) (w : Word) :
    tally (c :: t) w
      = addOpt (if c.1 = w then some ⟨1, {c.2}⟩ else none) (tally t w) := by
  by_cases h : c.1 = w
  · simp only [h, if_true]
    by_cases ht : occurrences t w = []
    · have : occurrences (c :: t) w = [c.2] := by
        simp only [occurrences] at ht ⊢
        simp [List.filter_cons, h, ht]
      simp [tally, ht, this, addOpt]
    · have : occurrences (c :: t) w = c.2 :: occurrences t w := by
        simp [occurrences, List.filter_cons, h]
      simp only [tally, ht, this, addOpt, addEntry, countOf, idsOf, if_false,
        Option.getD_some, List.length_cons, List.toFinset_cons]
      simp only [reduceCtorEq, if_false, Option.some.injEq, Entry.mk.injEq]
      constructor
      · push_cast; ring
      · rw [Finset.insert_eq]
  · have : occurrences (c :: t) w = occurrences t w := by
      simp [occurrences, List.filter_cons, h]
    simp only [h, if_false, addOpt_none_left]
    simp [tally, this]

end ShardedConcurrentDictionary

/-! ## The sharded dictionary: sequences of updates -/

namespace ShardedConcurrentDictionary

/-- A sequence of `(word, entry)` steps of `merge`, in any order and with any
repetition, on a dictionary with at least one shard: it succeeds, keeps the number of
shards, and adds to the entry of every word, in the shard the word is routed to, the sum
of the entries the sequence holds for it. -/
theorem foldlM_mergeEntry_spec (hash : Word → Nat) :
    ∀ (l : List (Sigma fun _ : Word => Entry)) (self : ShardedConcurrentDictionary),
    0 < self.shards_.length →
    ∃ r, l.foldlM (fun acc p => mergeEntry hash acc p.1 p.2) self = some r ∧
      r.shards_.length = self.shards_.length ∧
      ∀ i w, r.shardEntry i w =
        if i = hash w % self.shards_.length
        then addOpt (self.shardEntry i w) (sumEntries l w) else self.shardEntry i w := by
  intro l
  induction l with
  | nil =>
    intro self _
    exact ⟨self, rfl, rfl, fun i w => by simp [sumEntries, addOpt]⟩
  | cons c t ih =>
    intro self hN
    obtain ⟨s1, h1, hlen1, hent1⟩ := mergeEntry_spec hash self c.1 c.2 hN
    obtain ⟨r, h2, hlen2, hent2⟩ := ih s1 (by omega)
    refine ⟨r, ?_, by omega, ?_⟩
    · rw [List.foldlM_cons, h1]
      exact h2
    · intro i w
      rw [hent2, hlen1, hent1]
      by_cases hi : i = hash w % self.shards_.length
      · by_cases hw : c.1 = w
        · subst hw
          simp only [hi, and_self, if_true, sumEntries]
          rw [← addOpt_assoc]
          rfl
        · have hw' : ¬ w = c.1 := fun e => hw e.symm
          simp only [hi, hw, hw', and_false, if_false, if_true, sumEntries, addOpt_none_left]
      · have : ¬ (i = hash c.1 % self.shards_.length ∧ w = c.1) := by
          rintro ⟨h1, h2⟩
          subst h2
          exact hi h1
        simp only [hi, this, if_false]

theorem sumEntries_of_not_mem (l : List (Sigma fun _ : Word => Entry)) (w : Word)
    (h : w ∉ l.keys) : sumEntries l w = none := by
  induction l with
  | nil => rfl
  | cons c t ih =>
    rw [List.keys_cons, List.mem_cons, not_or] at h
    have hc : ¬ c.1 = w := fun e => h.1 e.symm
    simp only [sumEntries, hc, if_false, addOpt_none_left]
    exact ih h.2

/-- In a table (no duplicate key) the sum of the entries of a word is its entry. -/
theorem sumEntries_eq_dlookup (l : List (Sigma fun _ : Word => Entry)) (hl : l.NodupKeys)
    (w : Word) : sumEntries l w = l.dlookup w := by
  induction l with
  | nil => rfl
  | cons c t ih =>
    obtain ⟨hnot, ht⟩ := List.nodupKeys_cons.1 hl
    by_cases hc : c.1 = w
    · subst hc
      simp only [sumEntries, if_true]
      rw [sumEntries_of_not_mem t c.1 hnot]
      cases c with
      | mk a b => simp [addOpt, List.dlookup_cons_eq]
    · simp only [sumEntries, hc, if_false, addOpt_none_left]
      rw [ih ht]
      cases c with
      | mk a b => exact (List.dlookup_cons_ne t ⟨a, b⟩ (fun e => hc e.symm)).symm

theorem sumEntries_calls (calls : List (Word × Int)) (w : Word) :
    sumEntries (calls.map (fun c => ⟨c.1, ⟨1, {c.2}⟩⟩)) w = tally calls w := by
  induction calls with
  | nil => simp [sumEntries, tally_nil]
  | cons c t ih =>
    rw [tally_cons, List.map_cons, sumEntries, ih]

theorem insertAll_eq_foldlM (hash : Word → Nat) (calls : List (Word × Int)) :
    ∀ self : ShardedConcurrentDictionary, self.insertAll hash calls
      = (calls.map (fun c => (⟨c.1, ⟨1, {c.2}⟩⟩ : Sigma fun _ : Word => Entry))).foldlM
          (fun acc p => mergeEntry hash acc p.1 p.2) self := by
  induction calls with
  | nil => intro self; rfl
  | cons c t ih =>
    intro self
    unfold insertAll at ih ⊢
    rw [List.map_cons, List.foldlM_cons, List.foldlM_cons, insert_eq_mergeEntry]
    cases self.mergeEntry hash c.1 ⟨1, {c.2}⟩ with
    | none => rfl
    | some s1 => exact ih s1

/-- A sequence of `insert` calls on a dictionary with at least one shard succeeds, keeps
the number of shards, and adds the tally of the calls to the entry of every word in the
shard the word is routed to. -/
theorem insertAll_spec (hash : Word → Nat) (calls : List (Word × Int))
    (self : ShardedConcurrentDictionary) (hN : 0 < self.shards_.length) :
    ∃ r, self.insertAll hash calls = some r ∧ r.shards_.length = self.shards_.length ∧
      ∀ i w, r.shardEntry i w =
        if i = hash w % self.shards_.length
        then addOpt (self.shardEntry i w) (tally calls w) else self.shardEntry i w := by
  rw [insertAll_eq_foldlM]
  obtain ⟨r, h1, h2, h3⟩ := foldlM_mergeEntry_spec hash
    (calls.map (fun c => (⟨c.1, ⟨1, {c.2}⟩⟩ : Sigma fun _ : Word => Entry))) self hN
  exact ⟨r, h1, h2, fun i w => by rw [h3, sumEntries_calls]⟩

/-- The inner loop of `merge` over one table of the other dictionary. -/
theorem mergeShard_spec (hash : Word → Nat) (self : ShardedConcurrentDictionary)
    (otherShard : Shard) (hN : 0 < self.shards_.length) :
    ∃ r, self.mergeShard hash otherShard = some r ∧
      r.shards_.length = self.shards_.length ∧
      ∀ i w, r.shardEntry i w =
        if i = hash w % self.shards_.length
        then addOpt (self.shardEntry i w) (otherShard.lookup w) else self.shardEntry i w := by
  obtain ⟨r, h1, h2, h3⟩ := foldlM_mergeEntry_spec hash otherShard.entries self hN
  refine ⟨r, h1, h2, fun i w => ?_⟩
  rw [h3, sumEntries_eq_dlookup _ otherShard.nodupKeys]
  rfl

end ShardedConcurrentDictionary

/-! ## The sharded dictionary: `merge`, placement and the union reading -/

namespace ShardedConcurrentDictionary

theorem shardEntry_eq_bind (self : ShardedConcurrentDictionary) (i : Nat) (w : Word) :
    self.shardEntry i w = (self.shards_[i]?).bind (fun shard => shard.lookup w) := by
  unfold shardEntry
  cases self.shards_[i]? <;> rfl

theorem shardEntry_new (N i : Nat) (w : Word) : (new N).shardEntry i w = none := by
  rw [shardEntry_eq_bind]
  simp only [new, List.getElem?_replicate]
  split_ifs <;> simp [AList.lookup_empty]

theorem length_new (N : Nat) : (new N).shards_.length = N := by simp [new]

/-- The outer loop of `merge` after `n` iterations, `n` at most the number of shards of
`other`. -/
theorem merge_range_spec (hash : Word → Nat) (other : ShardedConcurrentDictionary) (n : Nat)
    (hn : n ≤ other.shards_.length) (self : ShardedConcurrentDictionary)
    (hN : 0 < self.shards_.length) :
    ∃ r, (List.range n).foldlM
        (fun acc i =>
          match other.shards_[i]? with
          | none => none
          | some otherShard => mergeShard hash acc otherShard) self = some r ∧
      r.shards_.length = self.shards_.length ∧
      ∀ i w, r.shardEntry i w =
        if i = hash w % self.shards_.length
        then ((List.range n).map (fun k => other.shardEntry k w)).foldl addOpt
          (self.shardEntry i w)
        else self.shardEntry i w := by
  induction n with
  | zero => exact ⟨self, rfl, rfl, fun i w => by simp⟩
  | succ n ih =>
    obtain ⟨r1, h1, hlen1, hent1⟩ := ih (by omega)
    have hlt : n < other.shards_.length := by omega
    obtain ⟨r, h2, hlen2, hent2⟩ := mergeShard_spec hash r1 other.shards_[n] (by omega)
    refine ⟨r, ?_, by omega, ?_⟩
    · rw [List.range_succ, List.foldlM_append, h1]
      simp only [Option.bind_eq_bind, Option.some_bind, List.foldlM_cons, List.foldlM_nil,
        List.getElem?_eq_getElem hlt, h2]
      rfl
    · intro i w
      rw [hent2, hlen1, hent1]
      by_cases hi : i = hash w % self.shards_.length
      · simp only [hi, if_true, List.range_succ, List.map_append, List.map_cons, List.map_nil,
          List.foldl_append, List.foldl_cons, List.foldl_nil]
        congr 1
        rw [shardEntry_eq_bind, List.getElem?_eq_getElem hlt]
        rfl
      · simp only [hi, if_false]

theorem foldl_addOpt_none (xs : List (Option Entry)) (h : ∀ x ∈ xs, x = none)
    (o : Option Entry) : xs.foldl addOpt o = o := by
  induction xs generalizing o with
  | nil => rfl
  | cons x t ih =>
    have hx : x = none := h x (List.mem_cons_self _ _)
    subst hx
    exact ih (fun y hy => h y (List.mem_cons_of_mem _ hy)) o

theorem findSome?_id_none (xs : List (Option Entry)) (h : ∀ x ∈ xs, x = none) :
    xs.findSome? id = none := by
  induction xs with
  | nil => rfl
  | cons x t ih =>
    have hx : x = none := h x (List.mem_cons_self _ _)
    subst hx
    simpa [List.findSome?_cons] using ih (fun y hy => h y (List.mem_cons_of_mem _ hy))

/-- Adding a list of possibly absent entries of which at most one is present adds that
one. -/
theorem foldl_addOpt_pairwise (xs : List (Option Entry))
    (h : xs.Pairwise (fun a b => a = none ∨ b = none)) (o : Option Entry) :
    xs.foldl addOpt o = addOpt o (xs.findSome? id) := by
  induction xs generalizing o with
  | nil => rfl
  | cons x t ih =>
    obtain ⟨hx, ht⟩ := List.pairwise_cons.1 h
    cases x with
    | none =>
      simpa [List.findSome?_cons, addOpt] using ih ht o
    | some e =>
      have hall : ∀ y ∈ t, y = none := by
        intro y hy
        rcases hx y hy with h1 | h1
        · exact absurd h1 (by simp)
        · exact h1
      simp only [List.foldl_cons, List.findSome?_cons, id]
      rw [foldl_addOpt_none t hall]

theorem map_shardEntry_range (other : ShardedConcurrentDictionary) (w : Word) :
    (List.range other.shards_.length).map (fun k => other.shardEntry k w)
      = other.shards_.map (fun shard => shard.lookup w) := by
  apply List.ext_getElem
  · simp
  · intro k h1 h2
    simp only [List.length_map, List.length_range] at h1
    simp [shardEntry_eq_bind, List.getElem?_eq_getElem h1]

theorem find?_eq_findSome?_map (self : ShardedConcurrentDictionary) (w : Word) :
    self.find? w = (self.shards_.map (fun shard => shard.lookup w)).findSome? id := by
  unfold find?
  induction self.shards_ with
  | nil => rfl
  | cons a t ih => simp [List.findSome?_cons, ih]

theorem pairwise_of_atMostOneShard (other : ShardedConcurrentDictionary)
    (h : other.AtMostOneShard) (w : Word) :
    (other.shards_.map (fun shard => shard.lookup w)).Pairwise
      (fun a b => a = none ∨ b = none) := by
  rw [List.pairwise_iff_getElem]
  intro i j hi hj hij
  simp only [List.length_map] at hi hj
  simp only [List.getElem_map]
  by_contra hcon
  rw [not_or] at hcon
  have h1 : (other.shardEntry i w).isSome = true := by
    rw [shardEntry_eq_bind, List.getElem?_eq_getElem hi]
    exact Option.ne_none_iff_isSome.1 hcon.1
  have h2 : (other.shardEntry j w).isSome = true := by
    rw [shardEntry_eq_bind, List.getElem?_eq_getElem hj]
    exact Option.ne_none_iff_isSome.1 hcon.2
  have := h i j w h1 h2
  omega

end ShardedConcurrentDictionary

namespace ShardedConcurrentDictionary

/-- The effect of `merge` on every shard of `self`, when `other` has as many shards and
stores every word in at most one of them: the entry of a word in the shard it is routed
to receives the entry `other` holds for it, nothing else changes. -/
theorem merge_shardEntry (hash : Word → Nat) (self other : ShardedConcurrentDictionary)
    (hN : 0 < self.shards_.length) (hlen : other.shards_.length = self.shards_.length)
    (hother : other.AtMostOneShard) :
    ∃ r, self.merge hash other = some r ∧ r.shards_.length = self.shards_.length ∧
      ∀ i w, r.shardEntry i w =
        if i = hash w % self.shards_.length
        then addOpt (self.shardEntry i w) (other.find? w) else self.shardEntry i w := by
  obtain ⟨r, h1, h2, h3⟩ :=
    merge_range_spec hash other self.shards_.length (by omega) self hN
  refine ⟨r, h1, h2, fun i w => ?_⟩
  rw [h3, ← hlen, map_shardEntry_range,
    foldl_addOpt_pairwise _ (pairwise_of_atMostOneShard other hother w),
    ← find?_eq_findSome?_map]

theorem findSome?_unique {α β : Type} (f : α → Option β) :
    ∀ (l : List α) (j : Nat), (∀ i, i ≠ j → (l[i]?).bind f = none) →
      l.findSome? f = (l[j]?).bind f := by
  intro l
  induction l with
  | nil => intro j _; rfl
  | cons a t ih =>
    intro j h
    cases j with
    | zero =>
      have hall : ∀ i, i ≠ t.length → (t[i]?).bind f = none := by
        intro i _
        have := h (i + 1) (by omega)
        simpa using this
      have ht := ih t.length hall
      simp only [List.getElem?_eq_none (le_refl t.length), Option.none_bind] at ht
      simp only [List.findSome?_cons, ht, List.getElem?_cons_zero, Option.some_bind]
      cases f a <;> rfl
    | succ j =>
      have ha : f a = none := by
        have := h 0 (by omega)
        simpa using this
      have hall : ∀ i, i ≠ j → (t[i]?).bind f = none := by
        intro i hi
        have := h (i + 1) (by omega)
        simpa using this
      simp only [List.findSome?_cons, ha, List.getElem?_cons_succ]
      exact ih j hall

/-- Under shard placement the union reading of a dictionary is the reading by routing. -/
theorem find?_eq_entry (hash : Word → Nat) (self : ShardedConcurrentDictionary)
    (h : self.Placed hash) (w : Word) : self.find? w = self.entry hash w := by
  unfold find? entry
  rw [shardEntry_eq_bind]
  apply findSome?_unique
  intro i hi
  rw [← shardEntry_eq_bind]
  by_contra hcon
  exact hi (h i w (Option.ne_none_iff_isSome.1 hcon))

theorem placed_new (hash : Word → Nat) (N : Nat) : (new N).Placed hash := by
  intro i w h
  rw [shardEntry_new] at h
  exact Bool.noConfusion h

theorem atMostOneShard_of_placed (hash : Word → Nat) (self : ShardedConcurrentDictionary)
    (h : self.Placed hash) : self.AtMostOneShard := by
  intro i j w hi hj
  rw [h i w hi, h j w hj]

/-- An operation that keeps the number of shards and only changes entries in the shard
their word is routed to keeps shard placement. -/
theorem placed_of_routed (hash : Word → Nat) (self r : ShardedConcurrentDictionary)
    (hlen : r.shards_.length = self.shards_.length)
    (hent : ∀ i w, i ≠ hash w % self.shards_.length → r.shardEntry i w = self.shardEntry i w)
    (h : self.Placed hash) : r.Placed hash := by
  intro i w hi
  rw [hlen]
  by_contra hcon
  rw [hent i w hcon] at hi
  exact hcon (h i w hi)

end ShardedConcurrentDictionary

namespace ShardedConcurrentDictionary

/-- A sequence of `insert` calls on an empty dictionary with at least one shard succeeds
and yields a dictionary with the same number of shards, with shard placement, that
reads as the tally of the calls. -/
theorem insertAll_new (hash : Word → Nat) (N : Nat) (hN : 0 < N) (calls : List (Word × Int)) :
    ∃ r, (new N).insertAll hash calls = some r ∧ r.shards_.length = N ∧ r.Placed hash ∧
      ∀ w, r.find? w = tally calls w := by
  obtain ⟨r, h1, h2, h3⟩ := insertAll_spec hash calls (new N) (by rw [length_new]; exact hN)
  rw [length_new] at h2 h3
  have hp : r.Placed hash := by
    apply placed_of_routed hash (new N) r (by rw [h2, length_new]) _ (placed_new hash N)
    intro i w hi
    rw [length_new] at hi
    rw [h3, if_neg hi]
  refine ⟨r, h1, h2, hp, fun w => ?_⟩
  rw [find?_eq_entry hash r hp, entry, h2, h3, if_pos rfl, shardEntry_new, addOpt_none_left]

theorem occurrences_eq_nil (calls : List (Word × Int)) (w : Word) :
    occurrences calls w = [] ↔ ¬ ∃ c ∈ calls, c.1 = w := by
  simp only [occurrences, List.map_eq_nil_iff, List.filter_eq_nil_iff, decide_eq_true_eq]
  constructor
  · rintro h ⟨c, hc, hw⟩; exact h c hc hw
  · intro h c hc hw; exact h ⟨c, hc, hw⟩

theorem occurrences_replicate (k : Nat) (w : Word) (d : Int) :
    occurrences (List.replicate k (w, d)) w = List.replicate k d := by
  induction k with
  | zero => rfl
  | succ k ih =>
    simp only [occurrences, List.replicate_succ, List.filter_cons, decide_True, if_true,
      List.map_cons] at ih ⊢
    rw [ih]

/-- With counts taken as unbounded integers (the executions in which no count leaves the
range of `int`; the statement for `int` counts is the one about `insertInt`): for every
dictionary
with at least one shard, `insert(word, bookId)` returns, and afterwards the entry of
`word` in the shard `getShardIndex(word)` has its previous `wordCount` plus 1 and its
previous id set with `bookId` added, absent counting as 0 and as the empty set; the entry
of every other word in every shard, and every other shard, is unchanged; the number of
shards is unchanged. When the dictionary obeys shard placement so does the result, and
the same holds for the dictionary read as the union of its shards. -/
theorem insert_spec (hash : Word → Nat) (self : ShardedConcurrentDictionary) (word : Word)
    (bookId : Int) (hN : 1 ≤ self.shards_.length) :
    ∃ r, self.insert hash word bookId = some r ∧
      r.shards_.length = self.shards_.length ∧
      r.entry hash word = some ⟨countOf (self.entry hash word) + 1,
        Insert.insert bookId (idsOf (self.entry hash word))⟩ ∧
      (∀ i w, (w ≠ word ∨ i ≠ hash word % self.shards_.length) →
        r.shardEntry i w = self.shardEntry i w) ∧
      (self.Placed hash → r.Placed hash ∧
        r.find? word = some ⟨countOf (self.find? word) + 1,
          Insert.insert bookId (idsOf (self.find? word))⟩ ∧
        ∀ w, w ≠ word → r.find? w = self.find? w) := by
  obtain ⟨r, h1, h2, h3⟩ := mergeEntry_spec hash self word ⟨1, {bookId}⟩ (by omega)
  have hentry : r.entry hash word = some ⟨countOf (self.entry hash word) + 1,
      Insert.insert bookId (idsOf (self.entry hash word))⟩ := by
    rw [entry, h2, h3]
    simp only [and_self, if_true, addEntry, entry]
    rw [Finset.union_comm, ← Finset.insert_eq]
  have hrest : ∀ i w, (w ≠ word ∨ i ≠ hash word % self.shards_.length) →
      r.shardEntry i w = self.shardEntry i w := by
    intro i w hne
    rw [h3, if_neg]
    rintro ⟨hi, hw⟩
    rcases hne with h | h
    · exact h hw
    · exact h hi
  refine ⟨r, by rw [insert_eq_mergeEntry]; exact h1, h2, hentry, hrest, fun hp => ?_⟩
  have hpr : r.Placed hash := by
    apply placed_of_routed hash self r h2 _ hp
    intro i w hi
    by_cases hw : w = word
    · subst hw; exact hrest i w (Or.inr hi)
    · exact hrest i w (Or.inl hw)
  refine ⟨hpr, ?_, fun w hw => ?_⟩
  · rw [find?_eq_entry hash r hpr, find?_eq_entry hash self hp]
    exact hentry
  · rw [find?_eq_entry hash r hpr, find?_eq_entry hash self hp, entry, entry, h2]
    exact hrest _ w (Or.inl hw)

/-- With counts taken as unbounded integers (the statement for `int` counts is the one
about `insertAllInt`): for every sequence of `insert(w_i, d_i)` calls applied to the empty
dictionary with `N ≥ 1` shards, the calls all return, and in the result every word `w` is
present iff some call names it, its `wordCount` is the number of calls that name it and
its `bookIds` the set of the `d_i` of those calls; in particular `k ≥ 1` calls
`insert(w, d)` give `w` the entry `(k, {d})`. -/
theorem insertAll_new_spec (hash : Word → Nat) (N : Nat) (hN : 1 ≤ N)
    (calls : List (Word × Int)) :
    ∃ r, (new N).insertAll hash calls = some r ∧
      (∀ w, ((r.find? w).isSome = true ↔ ∃ c ∈ calls, c.1 = w) ∧
        countOf (r.find? w) = ((calls.filter (fun c => decide (c.1 = w))).length : Int) ∧
        idsOf (r.find? w)
          = ((calls.filter (fun c => decide (c.1 = w))).map Prod.snd).toFinset) ∧
      (∀ w d k, 1 ≤ k → calls = List.replicate k (w, d) →
        r.find? w = some ⟨(k : Int), {d}⟩) := by
  obtain ⟨r, h1, _, _, h4⟩ := insertAll_new hash N (by omega) calls
  refine ⟨r, h1, fun w => ?_, fun w d k hk hcalls => ?_⟩
  · rw [h4]
    by_cases ho : occurrences calls w = []
    · have hno := (occurrences_eq_nil calls w).1 ho
      have ho' := ho
      simp only [occurrences] at ho'
      simp only [tally, ho, if_true, Option.isSome_none, countOf, idsOf, Option.getD_none]
      refine ⟨⟨fun h => Bool.noConfusion h, fun h => absurd h hno⟩, ?_, ?_⟩
      · have := congrArg List.length ho'
        simp only [List.length_map, List.length_nil] at this
        simp [this]
      · rw [ho']; rfl
    · have hyes : ∃ c ∈ calls, c.1 = w := by
        by_contra hcon
        exact ho ((occurrences_eq_nil calls w).2 hcon)
      simp only [tally, ho, if_false, Option.isSome_some, countOf, idsOf, Option.getD_some,
        true_iff]
      exact ⟨hyes, by simp [occurrences], rfl⟩
  · rw [h4, hcalls]
    have hne : List.replicate k d ≠ [] := by
      intro h
      have := congrArg List.length h
      simp at this
      omega
    simp only [tally, occurrences_replicate, hne, if_false, List.length_replicate,
      Option.some.injEq, Entry.mk.injEq, true_and]
    ext x
    simp only [List.mem_toFinset, List.mem_replicate, Finset.mem_singleton]
    constructor
    · exact fun h => h.2
    · exact fun h => ⟨by omega, h⟩

end ShardedConcurrentDictionary

namespace ShardedConcurrentDictionary

/-- With counts taken as unbounded integers (the statement for `int` counts is the one
about `mergeInt`): for two dictionaries `self` and `other` with the same number `N ≥ 1` of shards,
each storing every word in at most one shard, `self.merge(other)` returns, and
afterwards, for every word `w`, with the entry of `w` in `self` read in the shard
`getShardIndex(w)` and its entry in `other` read in the one shard of `other` that stores
it: `w` is present iff it was present in `self` or in `other`, its `wordCount` is the sum
of its previous counts in `self` and in `other`, its `bookIds` the union of its previous
id sets (absent: 0 and the empty set); no other shard of `self` changes. When `self`
obeys shard placement so does the result and the same holds for the union reading
`find?` of `self`. -/
theorem merge_spec (hash : Word → Nat) (self other : ShardedConcurrentDictionary)
    (hN : 1 ≤ self.shards_.length) (hlen : other.shards_.length = self.shards_.length)
    (hself : self.AtMostOneShard) (hother : other.AtMostOneShard) :
    ∃ r, self.merge hash other = some r ∧
      r.shards_.length = self.shards_.length ∧
      (∀ w, ((r.entry hash w).isSome = true ↔
            ((self.entry hash w).isSome = true ∨ (other.find? w).isSome = true)) ∧
        countOf (r.entry hash w) = countOf (self.entry hash w) + countOf (other.find? w) ∧
        idsOf (r.entry hash w) = idsOf (self.entry hash w) ∪ idsOf (other.find? w)) ∧
      (∀ i w, i ≠ hash w % self.shards_.length → r.shardEntry i w = self.shardEntry i w) ∧
      (self.Placed hash → r.Placed hash ∧ ∀ w,
        ((r.find? w).isSome = true ↔
            ((self.find? w).isSome = true ∨ (other.find? w).isSome = true)) ∧
        countOf (r.find? w) = countOf (self.find? w) + countOf (other.find? w) ∧
        idsOf (r.find? w) = idsOf (self.find? w) ∪ idsOf (other.find? w)) := by
  obtain ⟨r, h1, h2, h3⟩ := merge_shardEntry hash self other (by omega) hlen hother
  have hent : ∀ w, r.entry hash w = addOpt (self.entry hash w) (other.find? w) := by
    intro w
    rw [entry, h2, h3, if_pos rfl]
    rfl
  have hrest : ∀ i w, i ≠ hash w % self.shards_.length →
      r.shardEntry i w = self.shardEntry i w := by
    intro i w hi
    rw [h3, if_neg hi]
  have hthree : ∀ a b c : Option Entry, a = addOpt b c →
      ((a.isSome = true ↔ (b.isSome = true ∨ c.isSome = true)) ∧
        countOf a = countOf b + countOf c ∧ idsOf a = idsOf b ∪ idsOf c) := by
    intro a b c h
    subst h
    refine ⟨?_, countOf_addOpt b c, idsOf_addOpt b c⟩
    rw [isSome_addOpt, Bool.or_eq_true]
  have _ := hself
  refine ⟨r, h1, h2, fun w => hthree _ _ _ (hent w), hrest, fun hp => ?_⟩
  have hpr : r.Placed hash := placed_of_routed hash self r h2 hrest hp
  refine ⟨hpr, fun w => hthree _ _ _ ?_⟩
  rw [find?_eq_entry hash r hpr, find?_eq_entry hash self hp]
  exact hent w

end ShardedConcurrentDictionary

namespace ShardedConcurrentDictionary

theorem lookup_singleShard (word : Word) (e : Entry) (w : Word) :
    (singleShard word e).lookup w = if w = word then some e else none := by
  unfold singleShard
  by_cases h : w = word
  · subst h; rw [AList.lookup_insert]; simp
  · rw [AList.lookup_insert_ne h, AList.lookup_empty]; simp [h]

theorem placed_demoSelf : demoSelf.Placed List.length := by
  intro i w h
  rcases i with _ | _ | i
  · simp [demoSelf, shardEntry] at h
  · simp only [demoSelf, shardEntry, List.getElem?_cons_succ, List.getElem?_cons_zero,
      lookup_singleShard] at h
    by_cases hw : w = [97]
    · subst hw; rfl
    · simp [hw] at h
  · simp [demoSelf, shardEntry] at h

theorem placed_demoOther : demoOther.Placed List.length := by
  intro i w h
  rcases i with _ | _ | i
  · simp only [demoOther, shardEntry, List.getElem?_cons_zero, lookup_singleShard] at h
    by_cases hw : w = [98, 99]
    · subst hw; rfl
    · simp [hw] at h
  · simp only [demoOther, shardEntry, List.getElem?_cons_succ, List.getElem?_cons_zero,
      lookup_singleShard] at h
    by_cases hw : w = [97]
    · subst hw; rfl
    · simp [hw] at h
  · simp [demoOther, shardEntry] at h

end ShardedConcurrentDictionary

namespace ShardedConcurrentDictionary

/-- `merge` of two dictionaries with shard placement and the same number of shards:
it returns a dictionary with shard placement whose union reading adds, word by word,
the entries of `other` to those of `self`. -/
theorem merge_placed (hash : Word → Nat) (N : Nat) (hN : 0 < N)
    (self other : ShardedConcurrentDictionary)
    (hs : self.shards_.length = N) (ho : other.shards_.length = N)
    (hps : self.Placed hash) (hpo : other.Placed hash) :
    ∃ r, self.merge hash other = some r ∧ r.shards_.length = N ∧ r.Placed hash ∧
      ∀ w, r.find? w = addOpt (self.find? w) (other.find? w) := by
  obtain ⟨r, h1, h2, h3⟩ := merge_shardEntry hash self other (by omega) (by omega)
    (atMostOneShard_of_placed hash other hpo)
  have hrest : ∀ i w, i ≠ hash w % self.shards_.length →
      r.shardEntry i w = self.shardEntry i w := by
    intro i w hi
    rw [h3, if_neg hi]
  have hpr : r.Placed hash := placed_of_routed hash self r h2 hrest hps
  refine ⟨r, h1, by omega, hpr, fun w => ?_⟩
  rw [find?_eq_entry hash r hpr, find?_eq_entry hash self hps, entry, h2, h3, if_pos rfl]
  rfl

/-- The fold `acc.merge(d_1); acc.merge(d_2); ...` over dictionaries with shard
placement and the same number of shards. -/
theorem mergeAll_placed (hash : Word → Nat) (N : Nat) (hN : 0 < N) :
    ∀ (ds : List ShardedConcurrentDictionary) (acc : ShardedConcurrentDictionary),
    acc.shards_.length = N → acc.Placed hash →
    (∀ d ∈ ds, d.shards_.length = N ∧ d.Placed hash) →
    ∃ r, acc.mergeAll hash ds = some r ∧ r.shards_.length = N ∧ r.Placed hash ∧
      ∀ w, r.find? w = (ds.map (fun d => d.find? w)).foldl addOpt (acc.find? w) := by
  intro ds
  induction ds with
  | nil => intro acc h1 h2 _; exact ⟨acc, rfl, h1, h2, fun w => rfl⟩
  | cons d t ih =>
    intro acc h1 h2 hall
    obtain ⟨hd1, hd2⟩ := hall d (List.mem_cons_self _ _)
    obtain ⟨r1, hm, hl1, hp1, hf1⟩ := merge_placed hash N hN acc d h1 hd1 h2 hd2
    obtain ⟨r, hm2, hl2, hp2, hf2⟩ := ih r1 hl1 hp1
      (fun x hx => hall x (List.mem_cons_of_mem _ hx))
    refine ⟨r, ?_, hl2, hp2, fun w => ?_⟩
    · unfold mergeAll at hm2 ⊢
      rw [List.foldlM_cons, hm]
      exact hm2
    · rw [hf2, hf1, List.map_cons, List.foldl_cons]

theorem builtByInserts_placed (hash : Word → Nat) (N : Nat) (hN : 0 < N)
    (d : ShardedConcurrentDictionary) (h : BuiltByInserts hash N d) :
    d.shards_.length = N ∧ d.Placed hash := by
  obtain ⟨calls, hc⟩ := h
  obtain ⟨r, h1, h2, h3, _⟩ := insertAll_new hash N hN calls
  rw [hc] at h1
  cases h1
  exact ⟨h2, h3⟩

/-- C5: for dictionaries `A`, `B`, `C` built by inserts with the same number `N ≥ 1` of
shards, merging `B` then `C` into `A` and merging `C` then `B` into `A` both return and
give every word the same entry (same presence, `wordCount` and `bookIds`); and for every
list of dictionaries built by inserts, folding the list or any permutation of it into
the empty dictionary by repeated `merge` returns and gives every word the same entry. -/
theorem merge_order_independent (hash : Word → Nat) (N : Nat) (hN : 1 ≤ N)
    (A B C : ShardedConcurrentDictionary) (hA : BuiltByInserts hash N A)
    (hB : BuiltByInserts hash N B) (hC : BuiltByInserts hash N C) :
    (∃ ab abc ac acb, A.merge hash B = some ab ∧ ab.merge hash C = some abc ∧
        A.merge hash C = some ac ∧ ac.merge hash B = some acb ∧
        ∀ w, abc.find? w = acb.find? w) ∧
    (∀ ds ds' : List ShardedConcurrentDictionary, ds.Perm ds' →
      (∀ d ∈ ds, BuiltByInserts hash N d) →
      ∃ r r', (new N).mergeAll hash ds = some r ∧ (new N).mergeAll hash ds' = some r' ∧
        ∀ w, r.find? w = r'.find? w) := by
  have hN' : 0 < N := by omega
  obtain ⟨hA1, hA2⟩ := builtByInserts_placed hash N hN' A hA
  obtain ⟨hB1, hB2⟩ := builtByInserts_placed hash N hN' B hB
  obtain ⟨hC1, hC2⟩ := builtByInserts_placed hash N hN' C hC
  constructor
  · obtain ⟨ab, e1, l1, p1, f1⟩ := merge_placed hash N hN' A B hA1 hB1 hA2 hB2
    obtain ⟨abc, e2, _, _, f2⟩ := merge_placed hash N hN' ab C l1 hC1 p1 hC2
    obtain ⟨ac, e3, l3, p3, f3⟩ := merge_placed hash N hN' A C hA1 hC1 hA2 hC2
    obtain ⟨acb, e4, _, _, f4⟩ := merge_placed hash N hN' ac B l3 hB1 p3 hB2
    refine ⟨ab, abc, ac, acb, e1, e2, e3, e4, fun w => ?_⟩
    rw [f2, f1, f4, f3, addOpt_right_comm]
  · intro ds ds' hperm hall
    have hall1 : ∀ d ∈ ds, d.shards_.length = N ∧ d.Placed hash :=
      fun d hd => builtByInserts_placed hash N hN' d (hall d hd)
    have hall2 : ∀ d ∈ ds', d.shards_.length = N ∧ d.Placed hash :=
      fun d hd => hall1 d (hperm.mem_iff.2 hd)
    obtain ⟨r, e1, _, _, f1⟩ := mergeAll_placed hash N hN' ds (new N) (length_new N)
      (placed_new hash N) hall1
    obtain ⟨r', e2, _, _, f2⟩ := mergeAll_placed hash N hN' ds' (new N) (length_new N)
      (placed_new hash N) hall2
    refine ⟨r, r', e1, e2, fun w => ?_⟩
    rw [f1, f2]
    exact @List.Perm.foldl_eq _ _ addOpt _ _ ⟨addOpt_right_comm⟩
      (hperm.map (fun d => d.find? w)) _

end ShardedConcurrentDictionary

namespace ShardedConcurrentDictionary

/-- Three dictionaries built by inserts, none of them empty: `demoSelf` holds `a` once,
`demoOther` holds `bc` twice and `a` three times, `demoTwin` holds `a` once. The two
merge orders pass through different dictionaries (`a` is held 4 times after `demoOther`
is merged, twice after `demoTwin` is) and end with the same entries; so do the folds of
the list of the three and of a permutation of it into the empty dictionary. -/
theorem merge_order_independent_witness :
    (1 : Nat) ≤ 2 ∧
    BuiltByInserts List.length 2 demoSelf ∧ BuiltByInserts List.length 2 demoOther ∧
    BuiltByInserts List.length 2 demoTwin ∧
    (demoSelf.merge List.length demoOther).map (fun d => d.find? [97])
      = some (some ⟨4, {0, 2}⟩) ∧
    (demoSelf.merge List.length demoTwin).map (fun d => d.find? [97])
      = some (some ⟨2, {0, 1}⟩) ∧
    ((new 2).mergeAll List.length [demoSelf, demoOther, demoTwin]).map
        (fun d => (d.find? [97], d.find? [98, 99]))
      = some (some ⟨5, {0, 2, 1}⟩, some ⟨2, {1}⟩) ∧
    (∃ ab abc ac acb, demoSelf.merge List.length demoOther = some ab ∧
      ab.merge List.length demoTwin = some abc ∧
      demoSelf.merge List.length demoTwin = some ac ∧
      ac.merge List.length demoOther = some acb ∧
      ∀ w, abc.find? w = acb.find? w) ∧
    (∃ r r2, (new 2).mergeAll List.length [demoSelf, demoOther, demoTwin] = some r ∧
      (new 2).mergeAll List.length [demoTwin, demoSelf, demoOther] = some r2 ∧
      ∀ w, r.find? w = r2.find? w) := by
  have hA : BuiltByInserts List.length 2 demoSelf := ⟨[([97], 0)], rfl⟩
  have hB : BuiltByInserts List.length 2 demoOther :=
    ⟨[([98, 99], 1), ([97], 2), ([98, 99], 1), ([97], 2), ([97], 2)], rfl⟩
  have hC : BuiltByInserts List.length 2 demoTwin := ⟨[([97], 1)], rfl⟩
  have hboth := merge_order_independent List.length 2 (by decide) demoSelf demoOther
    demoTwin hA hB hC
  have hperm : [demoSelf, demoOther, demoTwin].Perm [demoTwin, demoSelf, demoOther] :=
    show ([demoSelf, demoOther] ++ [demoTwin]).Perm ([demoTwin] ++ [demoSelf, demoOther])
      from List.perm_append_comm
  have hall : ∀ d ∈ [demoSelf, demoOther, demoTwin], BuiltByInserts List.length 2 d := by
    intro d hd
    simp only [List.mem_cons, List.mem_singleton, List.not_mem_nil, or_false] at hd
    rcases hd with h | h | h
    · rw [h]; exact hA
    · rw [h]; exact hB
    · rw [h]; exact hC
  exact ⟨by decide, hA, hB, hC, by decide, by decide, by decide, hboth.1,
    hboth.2 _ _ hperm hall⟩

end ShardedConcurrentDictionary

namespace ShardedConcurrentDictionary

/-! ## The sharded dictionary: `removeSingleOccurrences` -/

theorem dlookup_filter (p : Entry → Bool) (w : Word) :
    ∀ (l : List (Sigma fun _ : Word => Entry)), l.NodupKeys →
      (l.filter (fun c => p c.2)).dlookup w = (l.dlookup w).filter p := by
  intro l
  induction l with
  | nil => intro _; rfl
  | cons c t ih =>
    intro hl
    obtain ⟨hnot, ht⟩ := List.nodupKeys_cons.1 hl
    cases c with
    | mk a b =>
      by_cases ha : a = w
      · subst ha
        have hnone : t.dlookup a = none := List.dlookup_eq_none.2 hnot
        by_cases hp : p b = true
        · simp [List.filter_cons, hp, List.dlookup_cons_eq, Option.filter]
        · have hp' : p b = false := by simpa using hp
          simp only [List.filter_cons, hp', List.dlookup_cons_eq, Option.filter]
          simp only [Bool.false_eq_true, if_false]
          rw [ih ht, hnone]
          rfl
      · have ha' : w ≠ a := fun e => ha e.symm
        rw [List.dlookup_cons_ne t ⟨a, b⟩ ha']
        by_cases hp : p b = true
        · simp only [List.filter_cons, hp, if_true]
          rw [List.dlookup_cons_ne (t.filter (fun c => p c.2)) ⟨a, b⟩ ha']
          exact ih ht
        · have hp' : p b = false := by simpa using hp
          simp only [List.filter_cons, hp', Bool.false_eq_true, if_false]
          exact ih ht

theorem lookup_removeSingleFromShard (shard : Shard) (w : Word) :
    (removeSingleFromShard shard).lookup w
      = (shard.lookup w).filter (fun e => decide (e.wordCount ≠ 1)) :=
  dlookup_filter (fun e => decide (e.wordCount ≠ 1)) w shard.entries shard.nodupKeys

theorem shardEntry_removeSingleOccurrences (self : ShardedConcurrentDictionary) (i : Nat)
    (w : Word) :
    self.removeSingleOccurrences.shardEntry i w
      = (self.shardEntry i w).filter (fun e => decide (e.wordCount ≠ 1)) := by
  rw [shardEntry_eq_bind, shardEntry_eq_bind]
  simp only [removeSingleOccurrences, List.getElem?_map]
  cases self.shards_[i]? with
  | none => rfl
  | some shard => exact lookup_removeSingleFromShard shard w

theorem find?_removeSingleOccurrences (self : ShardedConcurrentDictionary) (w : Word) :
    self.removeSingleOccurrences.find? w
      = self.shards_.findSome?
          (fun shard => (shard.lookup w).filter (fun e => decide (e.wordCount ≠ 1))) := by
  unfold find? removeSingleOccurrences
  induction self.shards_ with
  | nil => rfl
  | cons a t ih =>
    simp only [List.map_cons, List.findSome?_cons, lookup_removeSingleFromShard, ih]

/-- Under shard placement pruning filters the union reading. -/
theorem find?_removeSingleOccurrences_placed (hash : Word → Nat)
    (self : ShardedConcurrentDictionary) (h : self.Placed hash) (w : Word) :
    self.removeSingleOccurrences.find? w
      = (self.find? w).filter (fun e => decide (e.wordCount ≠ 1)) := by
  have hlen : self.removeSingleOccurrences.shards_.length = self.shards_.length := by
    simp [removeSingleOccurrences]
  have hp : self.removeSingleOccurrences.Placed hash := by
    intro i w' hi
    rw [shardEntry_removeSingleOccurrences] at hi
    rw [hlen]
    apply h i w'
    cases hs : self.shardEntry i w' with
    | none => rw [hs] at hi; exact Bool.noConfusion hi
    | some e => rfl
  rw [find?_eq_entry hash _ hp, find?_eq_entry hash _ h, entry, hlen,
    shardEntry_removeSingleOccurrences]
  rfl

end ShardedConcurrentDictionary

namespace ShardedConcurrentDictionary

theorem filter_eq_some_imp (p : Entry → Bool) (o : Option Entry) (e : Entry)
    (h : o.filter p = some e) : o = some e ∧ p e = true := by
  cases o with
  | none => simp [Option.filter] at h
  | some x =>
    by_cases hp : p x = true
    · simp only [Option.filter, hp, if_true, Option.some.injEq] at h
      subst h
      exact ⟨rfl, hp⟩
    · simp [Option.filter, hp] at h

theorem findSome?_filter_keep (p : Entry → Bool) (w : Word) (e : Entry) (hp : p e = true) :
    ∀ l : List Shard, l.findSome? (fun shard => shard.lookup w) = some e →
      l.findSome? (fun shard => (shard.lookup w).filter p) = some e := by
  intro l
  induction l with
  | nil => intro h; simp at h
  | cons a t ih =>
    intro h
    simp only [List.findSome?_cons] at h ⊢
    cases ha : AList.lookup w a with
    | none =>
      rw [ha] at h
      simp only [Option.filter]
      exact ih h
    | some x =>
      rw [ha] at h
      simp only at h
      cases h
      simp [Option.filter, hp]

theorem findSome?_filter_none (p : Entry → Bool) (w : Word) :
    ∀ l : List Shard, l.findSome? (fun shard => shard.lookup w) = none →
      l.findSome? (fun shard => (shard.lookup w).filter p) = none := by
  intro l
  induction l with
  | nil => intro _; rfl
  | cons a t ih =>
    intro h
    simp only [List.findSome?_cons] at h ⊢
    cases ha : AList.lookup w a with
    | none =>
      rw [ha] at h
      simp only [Option.filter]
      exact ih h
    | some x =>
      rw [ha] at h
      simp at h

/-- C6: `removeSingleOccurrences()` is total, and afterwards no present entry, in any
shard, has `wordCount == 1`; every entry whose `wordCount` was at least 2 is still
present in its shard with the same `wordCount` and `bookIds`; no word absent from a shard
is present in it afterwards. The same three facts hold for the dictionary read as the
union of its shards. -/
theorem removeSingleOccurrences_spec (self : ShardedConcurrentDictionary) :
    (∀ i w e, self.removeSingleOccurrences.shardEntry i w = some e → e.wordCount ≠ 1) ∧
    (∀ i w e, self.shardEntry i w = some e → 2 ≤ e.wordCount →
      self.removeSingleOccurrences.shardEntry i w = some e) ∧
    (∀ i w, self.shardEntry i w = none →
      self.removeSingleOccurrences.shardEntry i w = none) ∧
    (∀ w e, self.removeSingleOccurrences.find? w = some e → e.wordCount ≠ 1) ∧
    (∀ w e, self.find? w = some e → 2 ≤ e.wordCount →
      self.removeSingleOccurrences.find? w = some e) ∧
    (∀ w, self.find? w = none → self.removeSingleOccurrences.find? w = none) := by
  refine ⟨?_, ?_, ?_, ?_, ?_, ?_⟩
  · intro i w e h
    rw [shardEntry_removeSingleOccurrences] at h
    simpa using (filter_eq_some_imp _ _ _ h).2
  · intro i w e h h2
    rw [shardEntry_removeSingleOccurrences, h]
    have : e.wordCount ≠ 1 := by omega
    simp [Option.filter, this]
  · intro i w h
    rw [shardEntry_removeSingleOccurrences, h]
    rfl
  · intro w e h
    rw [find?_removeSingleOccurrences] at h
    obtain ⟨shard, _, hs⟩ := List.exists_of_findSome?_eq_some h
    simpa using (filter_eq_some_imp _ _ _ hs).2
  · intro w e h h2
    rw [find?_removeSingleOccurrences]
    have : e.wordCount ≠ 1 := by omega
    exact findSome?_filter_keep _ w e (by simpa using this) _ h
  · intro w h
    rw [find?_removeSingleOccurrences]
    exact findSome?_filter_none _ w _ h

end ShardedConcurrentDictionary

/-! ## The partition of `main` -/

theorem sliceCount_le_iff (total per : Nat) (hper : 0 < per) (i : Nat) :
    sliceCount total per ≤ i ↔ total ≤ i * per := by
  unfold sliceCount
  rw [← Nat.lt_succ_iff, Nat.div_lt_iff_lt_mul hper, Nat.succ_mul]
  omega

theorem booksPerThread_pos (total W : Nat) (htotal : 1 ≤ total) (hW : 1 ≤ W) :
    0 < booksPerThread total W := by
  unfold booksPerThread
  exact Nat.div_pos (by omega) (by omega)

theorem total_le_mul_booksPerThread (total W : Nat) (hW : 1 ≤ W) :
    total ≤ W * booksPerThread total W := by
  unfold booksPerThread
  have h1 := Nat.div_add_mod (total + W - 1) W
  have h2 := Nat.mod_lt (total + W - 1) (show 0 < W by omega)
  omega

/-- The launch loop breaks exactly when the slices launched so far cover the list: with
enough threads left it launches the slices `i, i + 1, ..., sliceCount - 1`. -/
theorem launchLoop_eq (total per : Nat) (hper : 0 < per) :
    ∀ (remaining i : Nat), total ≤ (i + remaining) * per →
      launchLoop total per remaining i
        = (List.range' i (sliceCount total per - i)).map (launchOf total per) := by
  intro remaining
  induction remaining with
  | zero =>
    intro i h
    have : sliceCount total per ≤ i := (sliceCount_le_iff total per hper i).2 (by simpa using h)
    simp [launchLoop, Nat.sub_eq_zero_of_le this]
  | succ rem ih =>
    intro i h
    by_cases hbreak : total ≤ i * per
    · have : sliceCount total per ≤ i := (sliceCount_le_iff total per hper i).2 hbreak
      have hmin : min (i * per + per) total = total := by omega
      simp [launchLoop, Nat.sub_eq_zero_of_le this, hmin, hbreak]
    · have hlt : i < sliceCount total per := by
        by_contra hcon
        exact hbreak ((sliceCount_le_iff total per hper i).1 (by omega))
      have hnot : ¬ (i * per ≥ min (i * per + per) total) := by omega
      have hsplit : sliceCount total per - i = (sliceCount total per - (i + 1)) + 1 := by omega
      rw [launchLoop]
      simp only [hnot, if_false]
      rw [ih (i + 1) (by rw [show i + 1 + rem = i + (rem + 1) by omega]; exact h), hsplit,
        List.range'_succ, List.map_cons]
      rfl

theorem launches_eq (total W : Nat) (htotal : 1 ≤ total) (hW : 1 ≤ W) :
    launches total W = (List.range (sliceCount total (booksPerThread total W))).map
      (launchOf total (booksPerThread total W)) := by
  unfold launches
  rw [launchLoop_eq total _ (booksPerThread_pos total W htotal hW) W 0
    (by simpa using total_le_mul_booksPerThread total W hW), Nat.sub_zero,
    List.range_eq_range']

theorem sliceCount_le_threads (total W : Nat) (htotal : 1 ≤ total) (hW : 1 ≤ W) :
    sliceCount total (booksPerThread total W) ≤ W :=
  (sliceCount_le_iff total _ (booksPerThread_pos total W htotal hW) W).2
    (total_le_mul_booksPerThread total W hW)

theorem launches_getElem? (total W : Nat) (htotal : 1 ≤ total) (hW : 1 ≤ W) (j : Nat)
    (l : Launch) (h : (launches total W)[j]? = some l) :
    j < sliceCount total (booksPerThread total W) ∧
      l = launchOf total (booksPerThread total W) j := by
  rw [launches_eq total W htotal hW, List.getElem?_map] at h
  by_cases hj : j < sliceCount total (booksPerThread total W)
  · rw [List.getElem?_range hj] at h
    simp only [Option.map_some', Option.some.injEq] at h
    exact ⟨hj, h.symm⟩
  · rw [List.getElem?_eq_none (by simpa using hj)] at h
    simp at h

/-- The slices `0 .. k-1` put end to end are the first `k * perThread` books. -/
theorem join_threadBooks (allBooks : List Book) (per : Nat) (k : Nat) :
    (((List.range k).map (launchOf allBooks.length per)).map (threadBooks allBooks)).flatten
      = allBooks.take (k * per) := by
  induction k with
  | zero => simp
  | succ k ih =>
    rw [List.range_succ, List.map_append, List.map_append, List.flatten_append, ih]
    simp only [List.map_cons, List.map_nil, List.flatten_cons, List.flatten_nil,
      List.append_nil, threadBooks, launchOf]
    rw [Nat.succ_mul, List.take_add]
    congr 1
    apply List.take_eq_take.2
    simp only [List.length_drop]
    omega

theorem castInt_of_lt (n : Nat) (h : n < 2147483648) : castInt n = (n : Int) := by
  unfold castInt wrapInt
  omega

/-- C9 (amended): for every document list of length `total ≥ 1` and every worker count
`W ≥ 1`, with `per = (total + W - 1) / W`, the launch loop of `main` launches at most `W`
slices; the slice of rank `j` belongs to thread `j` and is `[j*per, min(j*per + per,
total))`, which is not empty; every launched slice but the last has exactly `per`
documents; consecutive slices are contiguous, the first starts at 0 and the last ends at
`total`, so the slices are pairwise disjoint and their concatenation in order is the whole
list; the start offset passed is `static_cast<int>(j*per)`, which equals the global index
`j*per` of the first document of the slice when the list has at most `2^31` documents. -/
theorem partition_spec (allBooks : List Book) (W : Nat) (hbooks : 1 ≤ allBooks.length)
    (hW : 1 ≤ W) :
    (launches allBooks.length W).length ≤ W ∧
    (∀ j l, (launches allBooks.length W)[j]? = some l →
      l.i = j ∧ l.startIdx = j * booksPerThread allBooks.length W ∧
      l.endIdx = min (j * booksPerThread allBooks.length W + booksPerThread allBooks.length W)
        allBooks.length ∧
      l.startIdx < l.endIdx ∧
      l.startBookId = castInt (j * booksPerThread allBooks.length W) ∧
      (j + 1 < (launches allBooks.length W).length →
        l.endIdx - l.startIdx = booksPerThread allBooks.length W)) ∧
    (∀ j l l', (launches allBooks.length W)[j]? = some l →
      (launches allBooks.length W)[j + 1]? = some l' → l.endIdx = l'.startIdx) ∧
    (∃ l, (launches allBooks.length W)[0]? = some l ∧ l.startIdx = 0) ∧
    (∃ l, (launches allBooks.length W).getLast? = some l ∧ l.endIdx = allBooks.length) ∧
    (launches allBooks.length W).Pairwise (fun a b => a.endIdx ≤ b.startIdx) ∧
    ((launches allBooks.length W).map (threadBooks allBooks)).flatten = allBooks ∧
    (allBooks.length ≤ 2147483648 →
      ∀ l ∈ launches allBooks.length W, l.startBookId = (l.startIdx : Int)) := by
  have hper := booksPerThread_pos allBooks.length W hbooks hW
  have hk := sliceCount_le_threads allBooks.length W hbooks hW
  have heq := launches_eq allBooks.length W hbooks hW
  have hget := launches_getElem? allBooks.length W hbooks hW
  have hlen : (launches allBooks.length W).length
      = sliceCount allBooks.length (booksPerThread allBooks.length W) := by
    rw [heq]; simp
  have hcover : allBooks.length ≤ sliceCount allBooks.length (booksPerThread allBooks.length W)
      * booksPerThread allBooks.length W :=
    (sliceCount_le_iff _ _ hper _).1 le_rfl
  have hstart : ∀ j, j < sliceCount allBooks.length (booksPerThread allBooks.length W) →
      j * booksPerThread allBooks.length W < allBooks.length := by
    intro j hj
    by_contra hcon
    have := (sliceCount_le_iff allBooks.length _ hper j).2 (by omega)
    omega
  have hkpos : 0 < sliceCount allBooks.length (booksPerThread allBooks.length W) := by
    by_contra hcon
    have := (sliceCount_le_iff allBooks.length _ hper 0).1 (by omega)
    omega
  refine ⟨by omega, ?_, ?_, ?_, ?_, ?_, ?_, ?_⟩
  · intro j l hl
    obtain ⟨hj, rfl⟩ := hget j l hl
    have := hstart j hj
    refine ⟨rfl, rfl, rfl, ?_, rfl, ?_⟩
    · simp only [launchOf]; omega
    · intro hj1
      have h1 := hstart (j + 1) (by omega)
      rw [Nat.succ_mul] at h1
      simp only [launchOf]
      omega
  · intro j l l' hl hl'
    obtain ⟨hj, rfl⟩ := hget j l hl
    obtain ⟨hj', rfl⟩ := hget (j + 1) l' hl'
    have h1 := hstart (j + 1) hj'
    rw [Nat.succ_mul] at h1
    simp only [launchOf, Nat.succ_mul]
    omega
  · refine ⟨launchOf allBooks.length (booksPerThread allBooks.length W) 0, ?_, by simp [launchOf]⟩
    rw [heq, List.getElem?_map, List.getElem?_range hkpos]
    rfl
  · obtain ⟨k, hk'⟩ := Nat.exists_eq_succ_of_ne_zero (Nat.pos_iff_ne_zero.1 hkpos)
    refine ⟨launchOf allBooks.length (booksPerThread allBooks.length W) k, ?_, ?_⟩
    · rw [heq, hk', List.range_succ, List.map_append]
      simp
    · have h1 := hstart k (by omega)
      rw [hk', Nat.succ_mul] at hcover
      simp only [launchOf]
      omega
  · rw [heq, List.pairwise_map]
    refine List.Pairwise.imp_of_mem ?_ (List.pairwise_lt_range _)
    intro a b ha hb hab
    have h1 : (a + 1) * booksPerThread allBooks.length W
        ≤ b * booksPerThread allBooks.length W := Nat.mul_le_mul_right _ hab
    rw [Nat.succ_mul] at h1
    simp only [launchOf]
    omega
  · rw [heq, join_threadBooks, List.take_of_length_le hcover]
  · intro hsmall l hl
    obtain ⟨j, hj⟩ := List.getElem?_of_mem hl
    obtain ⟨hj', rfl⟩ := hget j l hj
    have := hstart j hj'
    simp only [launchOf]
    exact castInt_of_lt _ (by omega)

theorem partition_spec_witness :
    1 ≤ [some (bytes "a"), none, some (bytes "b c"), some [], some (bytes "d")].length ∧
    (1 : Nat) ≤ 2 ∧
    ((launches 5 2).map
      (threadBooks [some (bytes "a"), none, some (bytes "b c"), some [], some (bytes "d")])).flatten
      = [some (bytes "a"), none, some (bytes "b c"), some [], some (bytes "d")] :=
  ⟨by decide, by decide,
    (partition_spec [some (bytes "a"), none, some (bytes "b c"), some [], some (bytes "d")] 2
      (by decide) (by decide)).2.2.2.2.2.2.1⟩

/-- C9, counterexample to the claim as stated: for a list of `2^32` documents and two
workers the second slice starts at the global index `2^31`, and the start offset passed
for it is `static_cast<int>(2^31) = -2^31`. -/
theorem partition_startOffset_counterexample :
    ∃ l, (launches (List.replicate 4294967296 (some ([] : List Nat))).length 2)[1]? = some l ∧
      l.startIdx = 2147483648 ∧ l.startBookId = -2147483648 ∧
      l.startBookId ≠ (l.startIdx : Int) := by
  rw [List.length_replicate]
  exact ⟨⟨1, 2147483648, 4294967296, -2147483648⟩, by decide, rfl, rfl, by decide⟩

/-! ## Document ids -/

/-- The id that `processBooks` gives the book of local index `i` of a slice that starts
at the global index `s` depends on `s + i` only: it is `s + i` reduced into `int`. -/
theorem bookId_castInt (s i : Nat) : bookId (castInt s) i = wrapInt ((s + i : Nat) : Int) := by
  unfold bookId castInt wrapInt
  push_cast
  omega

theorem launches_zero (W : Nat) (hW : 1 ≤ W) : launches 0 W = [] := by
  obtain ⟨k, rfl⟩ := Nat.exists_eq_succ_of_ne_zero (show W ≠ 0 by omega)
  have hper : booksPerThread 0 (k + 1) = 0 := by
    unfold booksPerThread
    exact Nat.div_eq_of_lt (by omega)
  simp [launches, hper, launchLoop]

/-- Every launched slice lies inside the list, and its start offset is
`static_cast<int>(startIdx)`. -/
theorem launches_bounds (total W : Nat) (hW : 1 ≤ W) (l : Launch) (hl : l ∈ launches total W) :
    l.startIdx < l.endIdx ∧ l.endIdx ≤ total ∧ l.startBookId = castInt l.startIdx := by
  by_cases htotal : 1 ≤ total
  · obtain ⟨j, hj⟩ := List.getElem?_of_mem hl
    obtain ⟨hj', rfl⟩ := launches_getElem? total W htotal hW j l hj
    have hper := booksPerThread_pos total W htotal hW
    have : j * booksPerThread total W < total := by
      by_contra hcon
      have := (sliceCount_le_iff total _ hper j).2 (by omega)
      omega
    simp only [launchOf]
    exact ⟨by omega, by omega, trivial⟩
  · have h0 : total = 0 := by omega
    subst h0
    rw [launches_zero W hW] at hl
    simp at hl

/-- C10 (amended): for every document list and every worker count `W ≥ 1`, the book of
local index `i` in a launched slice is the book of global index `startIdx + i`, and the
id `startBookId + static_cast<int>(i)` that `processBooks` gives it is that global index
when the list has at most `2^31` documents; when the list has at most `2^32` documents,
two books with the same id have the same global index, whether they are in the same
slice or not. -/
theorem bookId_spec (allBooks : List Book) (W : Nat) (hW : 1 ≤ W) :
    (∀ l ∈ launches allBooks.length W, ∀ i, i < l.endIdx - l.startIdx →
      (threadBooks allBooks l)[i]? = allBooks[l.startIdx + i]?) ∧
    (allBooks.length ≤ 2147483648 →
      ∀ l ∈ launches allBooks.length W, ∀ i, i < l.endIdx - l.startIdx →
        bookId l.startBookId i = ((l.startIdx + i : Nat) : Int)) ∧
    (allBooks.length ≤ 4294967296 →
      ∀ l ∈ launches allBooks.length W, ∀ l' ∈ launches allBooks.length W, ∀ i i',
        i < l.endIdx - l.startIdx → i' < l'.endIdx - l'.startIdx →
        bookId l.startBookId i = bookId l'.startBookId i' →
        l.startIdx + i = l'.startIdx + i') := by
  refine ⟨?_, ?_, ?_⟩
  · intro l _ i hi
    simp only [threadBooks, List.getElem?_take, hi, if_true, List.getElem?_drop]
  · intro hsmall l hl i hi
    obtain ⟨h1, h2, h3⟩ := launches_bounds allBooks.length W hW l hl
    rw [h3, bookId_castInt]
    unfold wrapInt
    push_cast
    omega
  · intro hsmall l hl l' hl' i i' hi hi' hid
    obtain ⟨h1, h2, h3⟩ := launches_bounds allBooks.length W hW l hl
    obtain ⟨h1', h2', h3'⟩ := launches_bounds allBooks.length W hW l' hl'
    rw [h3, h3', bookId_castInt, bookId_castInt] at hid
    unfold wrapInt at hid
    push_cast at hid
    omega

theorem bookId_spec_witness :
    (1 : Nat) ≤ 2 ∧
    (∀ l ∈ launches 3 2, ∀ i, i < l.endIdx - l.startIdx →
      bookId l.startBookId i = ((l.startIdx + i : Nat) : Int)) :=
  ⟨by decide, (bookId_spec [some (bytes "a"), none, some (bytes "b")] 2 (by decide)).2.1
    (by decide)⟩

/-- C10, counterexample to the claim as stated: a list of `2^32 + 1` documents handled by
one worker is one slice that starts at 0; its books of local (and global) index 0 and
`2^32` both get the id 0, and its book of index `2^31` gets the id `-2^31`. -/
theorem bookId_counterexample :
    launches (List.replicate 4294967297 (some ([] : List Nat))).length 1
      = [⟨0, 0, 4294967297, 0⟩] ∧
    bookId 0 0 = bookId 0 4294967296 ∧ bookId 0 2147483648 = -2147483648 := by
  rw [List.length_replicate]
  exact ⟨by decide, by decide, by decide⟩

/-! ## The two-document scenario -/

namespace ShardedConcurrentDictionary

theorem tally_scenario (w : Word) :
    tally [([116, 104, 101], 0), ([102, 111, 120], 0), ([114, 97, 110], 0),
        ([116, 104, 101], 1), ([102, 111, 120], 1), ([116, 104, 101], 1),
        ([102, 111, 120], 1)] w
      = if w = [116, 104, 101] ∨ w = [102, 111, 120] then some ⟨3, {0, 1}⟩
        else if w = [114, 97, 110] then some ⟨1, {0}⟩ else none := by
  by_cases h1 : w = [116, 104, 101]
  · subst h1
    decide
  · by_cases h2 : w = [102, 111, 120]
    · subst h2
      decide
    · by_cases h3 : w = [114, 97, 110]
      · subst h3
        decide
      · have k1 : ¬ [116, 104, 101] = w := fun e => h1 e.symm
        have k2 : ¬ [102, 111, 120] = w := fun e => h2 e.symm
        have k3 : ¬ [114, 97, 110] = w := fun e => h3 e.symm
        simp only [tally_cons, tally_nil, k1, k2, k3, h1, h2, h3, if_false, or_self,
          addOpt_none_left]

end ShardedConcurrentDictionary

namespace ShardedConcurrentDictionary

theorem shardEntry_of_placed (hash : Word → Nat) (self : ShardedConcurrentDictionary)
    (h : self.Placed hash) (i : Nat) (w : Word) :
    self.shardEntry i w = if i = hash w % self.shards_.length then self.find? w else none := by
  by_cases hi : i = hash w % self.shards_.length
  · rw [if_pos hi, find?_eq_entry hash self h, entry, hi]
  · rw [if_neg hi]
    by_contra hcon
    exact hi (h i w (Option.ne_none_iff_isSome.1 hcon))

/-- C8: tokenizing `"The Fox ran."` yields `[the, fox, ran]`, tokenizing
`"The fox the FOX."` yields `[the, fox, the, fox]`; inserting the words of the first with
id 0 and those of the second with id 1 into the empty dictionary, for every shard count
`N ≥ 1` and every hash function, returns, and after `removeSingleOccurrences()` the
dictionary holds exactly two entries: `the` and `fox`, each with `wordCount` 3 and
`bookIds` {0, 1}, each in the shard it is routed to and nowhere else; every other word,
`ran` in particular, is absent from every shard. -/
theorem scenario_spec (hash : Word → Nat) (N : Nat) (hN : 1 ≤ N) :
    splitToWords (bytes "The Fox ran.") = [bytes "the", bytes "fox", bytes "ran"] ∧
    splitToWords (bytes "The fox the FOX.")
      = [bytes "the", bytes "fox", bytes "the", bytes "fox"] ∧
    ∃ d, (new N).insertAll hash
        ((splitToWords (bytes "The Fox ran.")).map (fun w => (w, (0 : Int))) ++
          (splitToWords (bytes "The fox the FOX.")).map (fun w => (w, (1 : Int)))) = some d ∧
      (∀ w, d.removeSingleOccurrences.find? w =
        if w = bytes "the" ∨ w = bytes "fox" then some ⟨3, {0, 1}⟩ else none) ∧
      (∀ i w, d.removeSingleOccurrences.shardEntry i w =
        if (w = bytes "the" ∨ w = bytes "fox") ∧ i = hash w % N
        then some ⟨3, {0, 1}⟩ else none) ∧
      d.removeSingleOccurrences.find? (bytes "ran") = none := by
  have hA : splitToWords (bytes "The Fox ran.") = [bytes "the", bytes "fox", bytes "ran"] := by
    decide
  have hB : splitToWords (bytes "The fox the FOX.")
      = [bytes "the", bytes "fox", bytes "the", bytes "fox"] := by decide
  have hthe : bytes "the" = [116, 104, 101] := by decide
  have hfox : bytes "fox" = [102, 111, 120] := by decide
  have hran : bytes "ran" = [114, 97, 110] := by decide
  refine ⟨hA, hB, ?_⟩
  rw [hA, hB, hthe, hfox, hran]
  obtain ⟨d, h1, h2, h3, h4⟩ := insertAll_new hash N (by omega)
    [([116, 104, 101], 0), ([102, 111, 120], 0), ([114, 97, 110], 0),
      ([116, 104, 101], 1), ([102, 111, 120], 1), ([116, 104, 101], 1),
      ([102, 111, 120], 1)]
  have hfind : ∀ w, d.removeSingleOccurrences.find? w =
      if w = [116, 104, 101] ∨ w = [102, 111, 120] then some ⟨3, {0, 1}⟩ else none := by
    intro w
    rw [find?_removeSingleOccurrences_placed hash d h3, h4, tally_scenario]
    by_cases hw : w = [116, 104, 101] ∨ w = [102, 111, 120]
    · simp only [hw, if_true]
      decide
    · simp only [hw, if_false]
      by_cases hr : w = [114, 97, 110]
      · simp only [hr, if_true]
        decide
      · simp only [hr, if_false]
        rfl
  refine ⟨d, h1, hfind, ?_, ?_⟩
  · intro i w
    have hp : d.removeSingleOccurrences.Placed hash := by
      intro i' w' hi'
      rw [shardEntry_removeSingleOccurrences] at hi'
      have hlen : d.removeSingleOccurrences.shards_.length = d.shards_.length := by
        simp [removeSingleOccurrences]
      rw [hlen]
      apply h3 i' w'
      cases hs : d.shardEntry i' w' with
      | none => rw [hs] at hi'; exact Bool.noConfusion hi'
      | some e => rfl
    have hlen : d.removeSingleOccurrences.shards_.length = N := by
      simp [removeSingleOccurrences, h2]
    rw [shardEntry_of_placed hash _ hp, hlen, hfind]
    by_cases hi : i = hash w % N
    · simp [hi]
    · simp [hi]
  · rw [hfind]
    decide

theorem scenario_spec_witness :
    (1 : Nat) ≤ 4 ∧
    ∃ d, (new 4).insertAll List.sum
        ((splitToWords (bytes "The Fox ran.")).map (fun w => (w, (0 : Int))) ++
          (splitToWords (bytes "The fox the FOX.")).map (fun w => (w, (1 : Int)))) = some d ∧
      d.removeSingleOccurrences.find? (bytes "fox") = some ⟨3, {0, 1}⟩ := by
  obtain ⟨_, _, d, h1, h2, _⟩ := scenario_spec List.sum 4 (by decide)
  exact ⟨by decide, d, h1, by rw [h2]; decide⟩

end ShardedConcurrentDictionary

/-! ## `processBooks` as a sequence of `insert` calls -/

namespace ShardedConcurrentDictionary

theorem insertAll_append (hash : Word → Nat) (self : ShardedConcurrentDictionary)
    (a b : List (Word × Int)) :
    self.insertAll hash (a ++ b)
      = (self.insertAll hash a).bind (fun d => d.insertAll hash b) := by
  unfold insertAll
  rw [List.foldlM_append]
  rfl

theorem tally_append (a b : List (Word × Int)) (w : Word) :
    tally (a ++ b) w = addOpt (tally a w) (tally b w) := by
  induction a with
  | nil => rw [List.nil_append, tally_nil, addOpt_none_left]
  | cons c t ih => rw [List.cons_append, tally_cons, ih, tally_cons, addOpt_assoc]

/-- A sequence of `insert` calls on a dictionary with shard placement: it returns a
dictionary with shard placement that reads as the previous one plus the tally of the
calls. -/
theorem insertAll_placed (hash : Word → Nat) (N : Nat) (hN : 0 < N)
    (self : ShardedConcurrentDictionary) (hlen : self.shards_.length = N)
    (hp : self.Placed hash) (calls : List (Word × Int)) :
    ∃ r, self.insertAll hash calls = some r ∧ r.shards_.length = N ∧ r.Placed hash ∧
      ∀ w, r.find? w = addOpt (self.find? w) (tally calls w) := by
  obtain ⟨r, h1, h2, h3⟩ := insertAll_spec hash calls self (by omega)
  have hrest : ∀ i w, i ≠ hash w % self.shards_.length →
      r.shardEntry i w = self.shardEntry i w := by
    intro i w hi
    rw [h3, if_neg hi]
  have hpr : r.Placed hash := placed_of_routed hash self r h2 hrest hp
  refine ⟨r, h1, by omega, hpr, fun w => ?_⟩
  rw [find?_eq_entry hash r hpr, find?_eq_entry hash self hp, entry, h2, h3, if_pos rfl]
  rfl

end ShardedConcurrentDictionary

/-- The loop over the lines of one file makes the `insert` calls of the words of the
lines read, in order, all with the id of the book. -/
theorem readLoop_eq_insertAll (hash : Word → Nat) (id : Int) (fuel : Nat) :
    ∀ (file : List Nat) (dict : ShardedConcurrentDictionary),
      readLoop hash id fuel file dict
        = dict.insertAll hash
            (((linesLoop fuel file).flatMap splitToWords).map (fun word => (word, id))) := by
  induction fuel with
  | zero => intro file dict; rfl
  | succ fuel ih =>
    intro file dict
    rw [readLoop, linesLoop]
    cases hg : getline file with
    | none => rfl
    | some p =>
      obtain ⟨line, unread⟩ := p
      simp only [List.flatMap_cons, List.map_append]
      rw [ShardedConcurrentDictionary.insertAll_append]
      cases dict.insertAll hash ((splitToWords line).map (fun word => (word, id))) with
      | none => rfl
      | some dict' => exact ih unread dict'

theorem getline_length (file line unread : List Nat) (h : getline file = some (line, unread)) :
    unread.length < file.length := by
  induction file generalizing line unread with
  | nil => simp [getline] at h
  | cons c t ih =>
    rw [getline] at h
    by_cases hc : c = 10
    · simp only [hc, if_true, Option.some.injEq, Prod.mk.injEq] at h
      rw [← h.2]
      simp
    · simp only [hc, if_false] at h
      cases hg : getline t with
      | none =>
        rw [hg] at h
        simp only [Option.some.injEq, Prod.mk.injEq] at h
        rw [← h.2]
        simp
      | some p =>
        obtain ⟨l, u⟩ := p
        rw [hg] at h
        simp only [Option.some.injEq, Prod.mk.injEq] at h
        have := ih l u hg
        rw [← h.2]
        simp only [List.length_cons]
        omega

/-- The length of the file is enough fuel for the loop over its lines: more fuel reads
the same lines. -/
theorem linesLoop_fuel (fuel : Nat) : ∀ (file : List Nat) (extra : Nat), file.length ≤ fuel →
    linesLoop (fuel + extra) file = linesLoop fuel file := by
  induction fuel with
  | zero =>
    intro file extra h
    have hnil : file = [] := List.eq_nil_of_length_eq_zero (by omega)
    subst hnil
    cases extra <;> simp [linesLoop, getline]
  | succ fuel ih =>
    intro file extra h
    rw [show fuel + 1 + extra = (fuel + extra) + 1 by omega, linesLoop, linesLoop]
    cases hg : getline file with
    | none => rfl
    | some p =>
      obtain ⟨line, unread⟩ := p
      have := getline_length file line unread hg
      simp only
      rw [ih unread extra (by omega)]

/-- With the length of the file as fuel the loop over its lines stops because the file
is exhausted. -/
theorem readLoop_fuel (hash : Word → Nat) (id : Int) (file : List Nat) (extra : Nat)
    (dict : ShardedConcurrentDictionary) :
    readLoop hash id (file.length + extra) file dict
      = readLoop hash id file.length file dict := by
  rw [readLoop_eq_insertAll, readLoop_eq_insertAll, linesLoop_fuel file.length file extra le_rfl]

/-- `processBooks` makes exactly the calls `callsOf`. -/
theorem processBooksFrom_eq_insertAll (hash : Word → Nat) (startBookId : Int) :
    ∀ (books : List Book) (i : Nat) (dict : ShardedConcurrentDictionary),
      processBooksFrom hash startBookId books i dict
        = dict.insertAll hash (callsOf startBookId i books) := by
  intro books
  induction books with
  | nil => intro i dict; rfl
  | cons b rest ih =>
    intro i dict
    cases b with
    | none =>
      rw [processBooksFrom, callsOf]
      exact ih (i + 1) dict
    | some file =>
      rw [processBooksFrom, callsOf, ShardedConcurrentDictionary.insertAll_append,
        readLoop_eq_insertAll]
      unfold bookWords
      cases dict.insertAll hash
          (((linesLoop file.length file).flatMap splitToWords).map
            (fun word => (word, bookId startBookId i))) with
      | none => rfl
      | some dict' => exact ih (i + 1) dict'

theorem callsOf_append (startBookId : Int) :
    ∀ (a b : List Book) (i : Nat),
      callsOf startBookId i (a ++ b)
        = callsOf startBookId i a ++ callsOf startBookId (i + a.length) b := by
  intro a
  induction a with
  | nil => intro b i; simp [callsOf]
  | cons x t ih =>
    intro b i
    cases x with
    | none =>
      rw [List.cons_append, callsOf, callsOf, ih b (i + 1), List.length_cons]
      rw [show i + 1 + t.length = i + (t.length + 1) by omega]
    | some file =>
      rw [List.cons_append, callsOf, callsOf, ih b (i + 1), List.length_cons,
        List.append_assoc]
      rw [show i + 1 + t.length = i + (t.length + 1) by omega]

theorem bookId_shift (s i : Nat) : bookId (castInt s) i = bookId 0 (s + i) := by
  unfold bookId castInt wrapInt
  push_cast
  omega

/-- The calls of a worker started at the offset `static_cast<int>(s)` are those of a
worker started at offset 0 whose loop index begins at `s`. -/
theorem callsOf_shift (s : Nat) : ∀ (books : List Book) (i : Nat),
    callsOf (castInt s) i books = callsOf 0 (s + i) books := by
  intro books
  induction books with
  | nil => intro i; rw [callsOf, callsOf]
  | cons x t ih =>
    intro i
    cases x with
    | none =>
      rw [callsOf, callsOf, ih (i + 1), Nat.add_assoc]
    | some file =>
      rw [callsOf, callsOf, ih (i + 1), bookId_shift, Nat.add_assoc]

/-! ## The pipeline of `main` -/

namespace ShardedConcurrentDictionary

theorem foldl_addOpt_comm (l : List (Option Entry)) (o t : Option Entry) :
    l.foldl addOpt (addOpt o t) = addOpt (l.foldl addOpt o) t := by
  induction l generalizing o with
  | nil => rfl
  | cons x l ih => rw [List.foldl_cons, List.foldl_cons, addOpt_right_comm, ih]

/-- Adding `t` to one element of a list of entries adds `t` to their sum. -/
theorem foldl_addOpt_set (t : Option Entry) :
    ∀ (l : List (Option Entry)) (j : Nat) (x : Option Entry) (o : Option Entry),
      l[j]? = some x →
      (l.set j (addOpt x t)).foldl addOpt o = addOpt (l.foldl addOpt o) t := by
  intro l
  induction l with
  | nil => intro j x o h; simp at h
  | cons y l ih =>
    intro j x o h
    cases j with
    | zero =>
      simp only [List.getElem?_cons_zero, Option.some.injEq] at h
      subst h
      rw [List.set_cons_zero, List.foldl_cons, List.foldl_cons, ← addOpt_assoc,
        foldl_addOpt_comm]
    | succ j =>
      simp only [List.getElem?_cons_succ] at h
      rw [List.set_cons_succ, List.foldl_cons, List.foldl_cons]
      exact ih j x (addOpt o y) h

end ShardedConcurrentDictionary

open ShardedConcurrentDictionary

/-- The threads of `main`, on thread dictionaries that all have `N` shards and shard
placement: they all return, the dictionaries keep `N` shards and shard placement, and
the sum of their readings grows by the tally of the calls of all the launched workers. -/
theorem runThreads_spec (hash : Word → Nat) (N : Nat) (hN : 0 < N) (allBooks : List Book) :
    ∀ (L : List Launch) (dicts : List ShardedConcurrentDictionary),
    (∀ d ∈ dicts, d.shards_.length = N ∧ d.Placed hash) →
    (∀ l ∈ L, l.i < dicts.length) →
    ∃ dicts', runThreads hash allBooks L dicts = some dicts' ∧
      (∀ d ∈ dicts', d.shards_.length = N ∧ d.Placed hash) ∧
      ∀ w o, (dicts'.map (fun d => d.find? w)).foldl addOpt o
        = addOpt ((dicts.map (fun d => d.find? w)).foldl addOpt o)
            (tally (L.flatMap (fun l => callsOf l.startBookId 0 (threadBooks allBooks l))) w) := by
  intro L
  induction L with
  | nil =>
    intro dicts hall _
    exact ⟨dicts, rfl, hall, fun w o => by simp [tally_nil, addOpt]⟩
  | cons l rest ih =>
    intro dicts hall hidx
    have hl : l.i < dicts.length := hidx l (List.mem_cons_self _ _)
    have hd := hall dicts[l.i] (List.getElem_mem _)
    obtain ⟨d', h1, h2, h3, h4⟩ := insertAll_placed hash N hN dicts[l.i] hd.1 hd.2
      (callsOf l.startBookId 0 (threadBooks allBooks l))
    have hall' : ∀ d ∈ dicts.set l.i d', d.shards_.length = N ∧ d.Placed hash := by
      intro d hdm
      rcases List.mem_or_eq_of_mem_set hdm with h | h
      · exact hall d h
      · subst h; exact ⟨h2, h3⟩
    obtain ⟨dicts', e1, e2, e3⟩ := ih (dicts.set l.i d') hall'
      (fun x hx => by rw [List.length_set]; exact hidx x (List.mem_cons_of_mem _ hx))
    refine ⟨dicts', ?_, e2, fun w o => ?_⟩
    · rw [runThreads, List.getElem?_eq_getElem hl]
      simp only [processBooks, processBooksFrom_eq_insertAll, h1]
      exact e1
    · rw [e3, List.flatMap_cons, tally_append, ← addOpt_assoc]
      congr 1
      rw [List.map_set, h4]
      apply foldl_addOpt_set
      rw [List.getElem?_map, List.getElem?_eq_getElem hl]
      rfl

theorem take_succ_threadBooks (allBooks : List Book) (per k : Nat) :
    allBooks.take ((k + 1) * per)
      = allBooks.take (k * per) ++ threadBooks allBooks (launchOf allBooks.length per k) := by
  simp only [threadBooks, launchOf]
  rw [Nat.succ_mul, List.take_add]
  congr 1
  apply List.take_eq_take.2
  simp only [List.length_drop]
  omega

/-- The calls of the workers of the slices `0 .. k-1`, in slice order, are the calls of
one worker started at offset 0 on the first `k * perThread` books. -/
theorem calls_of_slices (allBooks : List Book) (per k : Nat) :
    ((List.range k).map (launchOf allBooks.length per)).flatMap
        (fun l => callsOf l.startBookId 0 (threadBooks allBooks l))
      = callsOf 0 0 (allBooks.take (k * per)) := by
  induction k with
  | zero => simp [callsOf]
  | succ k ih =>
    rw [List.range_succ, List.map_append, List.flatMap_append, ih, take_succ_threadBooks,
      callsOf_append]
    congr 1
    simp only [List.map_cons, List.map_nil, List.flatMap_cons, List.flatMap_nil,
      List.append_nil]
    show callsOf (castInt (k * per)) 0 _ = _
    rw [callsOf_shift, Nat.add_zero, Nat.zero_add]
    by_cases hk : k * per ≤ allBooks.length
    · rw [List.length_take, Nat.min_eq_left hk]
    · have hnil : threadBooks allBooks (launchOf allBooks.length per k) = [] := by
        simp only [threadBooks, launchOf]
        rw [List.drop_eq_nil_of_le (by omega)]
        simp
      rw [hnil, callsOf, callsOf]

/-- C7: for every non-empty document list, every worker count `W ≥ 1` and every shard
count `N ≥ 1`, the pipeline of `main` (slices, one private dictionary per worker filled by
`processBooks` with its start offset, all `W` thread dictionaries merged into the empty
accumulator, `removeSingleOccurrences`) returns, ingesting the whole list with one worker
at start offset 0 returns, and the pipeline's result gives every word the entry (same
presence, `wordCount` and `bookIds`) that the single worker's dictionary gives it after
`removeSingleOccurrences`; so the result does not depend on `W`. Documents that cannot
be opened are allowed: both sides skip them. -/
theorem main_spec (hash : Word → Nat) (N W : Nat) (allBooks : List Book) (hN : 1 ≤ N)
    (hW : 1 ≤ W) (hbooks : allBooks ≠ []) :
    ∃ r s, main hash N allBooks W = some r ∧
      processBooks hash allBooks (new N) 0 = some s ∧
      ∀ w, r.find? w = s.removeSingleOccurrences.find? w := by
  have hN' : 0 < N := by omega
  have htotal : 1 ≤ allBooks.length := by
    cases allBooks with
    | nil => exact absurd rfl hbooks
    | cons a t => simp
  have hper := booksPerThread_pos allBooks.length W htotal hW
  have hcover : allBooks.length ≤ sliceCount allBooks.length (booksPerThread allBooks.length W)
      * booksPerThread allBooks.length W :=
    (sliceCount_le_iff _ _ hper _).1 le_rfl
  -- the threads
  obtain ⟨dicts, hrun, hdicts, hsum⟩ := runThreads_spec hash N hN' allBooks
    (launches allBooks.length W) (List.replicate W (new N))
    (by
      intro d hd
      obtain ⟨_, rfl⟩ := List.mem_replicate.1 hd
      exact ⟨length_new N, placed_new hash N⟩)
    (by
      intro l hl
      obtain ⟨j, hj⟩ := List.getElem?_of_mem hl
      obtain ⟨hj', rfl⟩ := launches_getElem? allBooks.length W htotal hW j l hj
      have := sliceCount_le_threads allBooks.length W htotal hW
      simp only [launchOf, List.length_replicate]
      omega)
  -- the merge
  obtain ⟨acc, hmerge, _, hpacc, hfacc⟩ := mergeAll_placed hash N hN' dicts (new N)
    (length_new N) (placed_new hash N) hdicts
  -- the single worker
  obtain ⟨s, hs, _, hps, hfs⟩ := insertAll_placed hash N hN' (new N) (length_new N)
    (placed_new hash N) (callsOf 0 0 allBooks)
  have hcalls : (launches allBooks.length W).flatMap
      (fun l => callsOf l.startBookId 0 (threadBooks allBooks l)) = callsOf 0 0 allBooks := by
    rw [launches_eq allBooks.length W htotal hW, calls_of_slices,
      List.take_of_length_le hcover]
  have hnone : ∀ w, (new N).find? w = none := by
    intro w
    rw [find?_eq_entry hash _ (placed_new hash N), entry, shardEntry_new]
  have hempty : ∀ w, ((List.replicate W (new N)).map (fun d => d.find? w)).foldl addOpt none
      = none := by
    intro w
    apply foldl_addOpt_none
    intro x hx
    obtain ⟨d, hd, rfl⟩ := List.mem_map.1 hx
    obtain ⟨_, rfl⟩ := List.mem_replicate.1 hd
    exact hnone w
  refine ⟨acc.removeSingleOccurrences, s, ?_, ?_, fun w => ?_⟩
  · simp only [main, hrun, hmerge]
  · rw [processBooks, processBooksFrom_eq_insertAll]
    exact hs
  · rw [find?_removeSingleOccurrences_placed hash acc hpacc,
      find?_removeSingleOccurrences_placed hash s hps, hfacc, hnone, hsum, hempty, hcalls, hfs,
      hnone]

theorem main_spec_witness :
    (1 : Nat) ≤ 4 ∧ (1 : Nat) ≤ 2 ∧
    ∃ r s, main List.sum 4
        [some (bytes "The Fox ran."), none, some (bytes "The fox\nthe FOX.")] 2 = some r ∧
      processBooks List.sum
        [some (bytes "The Fox ran."), none, some (bytes "The fox\nthe FOX.")] (new 4) 0
        = some s ∧
      ∀ w, r.find? w = s.removeSingleOccurrences.find? w :=
  ⟨by decide, by decide,
    main_spec List.sum 4 2 [some (bytes "The Fox ran."), none, some (bytes "The fox\nthe FOX.")]
      (by decide) (by decide) (by simp)⟩

/-! ## Totality and shard routing -/

theorem length_removeSingleOccurrences (self : ShardedConcurrentDictionary) :
    self.removeSingleOccurrences.shards_.length = self.shards_.length := by
  simp [removeSingleOccurrences]

/-- `merge` on a dictionary with at least one shard and another with at least as many
shards returns and keeps the number of shards of `self`. -/
theorem merge_returns (hash : Word → Nat) (self other : ShardedConcurrentDictionary)
    (hN : 0 < self.shards_.length) (hlen : self.shards_.length ≤ other.shards_.length) :
    ∃ r, self.merge hash other = some r ∧ r.shards_.length = self.shards_.length := by
  obtain ⟨r, h1, h2, _⟩ := merge_range_spec hash other self.shards_.length hlen self hN
  exact ⟨r, h1, h2⟩

theorem insert_returns (hash : Word → Nat) (self : ShardedConcurrentDictionary) (word : Word)
    (bookId : Int) (hN : 0 < self.shards_.length) :
    ∃ r, self.insert hash word bookId = some r ∧ r.shards_.length = self.shards_.length := by
  obtain ⟨r, h1, h2, _⟩ := mergeEntry_spec hash self word ⟨1, {bookId}⟩ hN
  exact ⟨r, by rw [insert_eq_mergeEntry]; exact h1, h2⟩

/-- C13: for every dictionary with `N ≥ 1` shards, `getShardIndex(word)` is
`hash(word) mod N`, is computed without a modulo by zero and is below `N`, so
`shards_[getShardIndex(word)]` exists; `insert` returns; `merge` with another dictionary
of `N` shards reads only existing shards `other.shards_[i]`, `i < N`, and returns;
`removeSingleOccurrences` is a total function; all three keep the number of shards. The
result `none` of the embedding (index out of range, modulo by zero) does not occur. -/
theorem operations_total (hash : Word → Nat) (self other : ShardedConcurrentDictionary)
    (word : Word) (bookId : Int) (hN : 1 ≤ self.shards_.length)
    (hlen : other.shards_.length = self.shards_.length) :
    (∃ i, self.getShardIndex hash word = some i ∧ i = hash word % self.shards_.length ∧
      i < self.shards_.length ∧ (self.shards_[i]?).isSome = true) ∧
    (∃ r, self.insert hash word bookId = some r ∧ r.shards_.length = self.shards_.length) ∧
    (∀ i, i < self.shards_.length → (other.shards_[i]?).isSome = true) ∧
    (∃ r, self.merge hash other = some r ∧ r.shards_.length = self.shards_.length) ∧
    self.removeSingleOccurrences.shards_.length = self.shards_.length := by
  have hlt : hash word % self.shards_.length < self.shards_.length := Nat.mod_lt _ (by omega)
  refine ⟨⟨_, getShardIndex_pos hash self word (by omega), rfl, hlt, ?_⟩,
    insert_returns hash self word bookId (by omega), ?_,
    merge_returns hash self other (by omega) (by omega),
    length_removeSingleOccurrences self⟩
  · rw [List.getElem?_eq_getElem hlt]; rfl
  · intro i hi
    rw [List.getElem?_eq_getElem (by omega)]; rfl

theorem operations_total_witness :
    1 ≤ demoSelf.shards_.length ∧ demoOther.shards_.length = demoSelf.shards_.length ∧
    (∃ r, demoSelf.insert List.length [98, 99] 5 = some r ∧
      r.shards_.length = demoSelf.shards_.length) ∧
    (∃ r, demoSelf.merge List.length demoOther = some r ∧
      r.shards_.length = demoSelf.shards_.length) := by
  obtain ⟨_, h2, _, h4, _⟩ :=
    operations_total List.length demoSelf demoOther [98, 99] 5 (by decide) rfl
  exact ⟨by decide, rfl, h2, h4⟩

/-- C14: for a fixed shard count `N ≥ 1` and a word `w`, `getShardIndex(w)` is
`hash(w) mod N` whatever the tables hold: two dictionaries with `N` shards route `w` to the
same shard index, and a call repeated after an `insert`, a `merge` or a
`removeSingleOccurrences` returns the same value as before. -/
theorem getShardIndex_deterministic (hash : Word → Nat) (N : Nat) (hN : 1 ≤ N)
    (d1 d2 : ShardedConcurrentDictionary) (w : Word) (h1 : d1.shards_.length = N)
    (h2 : d2.shards_.length = N) :
    d1.getShardIndex hash w = some (hash w % N) ∧
    d1.getShardIndex hash w = d2.getShardIndex hash w ∧
    (∀ word bookId r, d1.insert hash word bookId = some r →
      r.getShardIndex hash w = d1.getShardIndex hash w) ∧
    (∀ other r, other.shards_.length = N → d1.merge hash other = some r →
      r.getShardIndex hash w = d1.getShardIndex hash w) ∧
    d1.removeSingleOccurrences.getShardIndex hash w = d1.getShardIndex hash w := by
  have e1 : d1.getShardIndex hash w = some (hash w % N) := by
    rw [getShardIndex_pos hash d1 w (by omega), h1]
  have e2 : d2.getShardIndex hash w = some (hash w % N) := by
    rw [getShardIndex_pos hash d2 w (by omega), h2]
  have hsame : ∀ r : ShardedConcurrentDictionary, r.shards_.length = d1.shards_.length →
      r.getShardIndex hash w = d1.getShardIndex hash w := by
    intro r hr
    rw [e1, getShardIndex_pos hash r w (by omega), hr, h1]
  refine ⟨e1, by rw [e1, e2], ?_, ?_, hsame _ (length_removeSingleOccurrences d1)⟩
  · intro word bookId r hr
    obtain ⟨r', hr', hl⟩ := insert_returns hash d1 word bookId (by omega)
    rw [hr] at hr'
    cases hr'
    exact hsame r hl
  · intro other r ho hr
    obtain ⟨r', hr', hl⟩ := merge_returns hash d1 other (by omega) (by omega)
    rw [hr] at hr'
    cases hr'
    exact hsame r hl

theorem getShardIndex_deterministic_witness :
    (1 : Nat) ≤ 2 ∧ demoSelf.getShardIndex List.length [97] = some 1 ∧
    demoSelf.getShardIndex List.length [97] = demoOther.getShardIndex List.length [97] := by
  obtain ⟨h1, h2, _⟩ :=
    getShardIndex_deterministic List.length 2 (by decide) demoSelf demoOther [97] rfl rfl
  exact ⟨by decide, h1, h2⟩

/-! ## Shard counts that do not match, and the shard count zero -/

/-- C12 (amended): the constructor accepts every `numShards`, zero included: it returns
a dictionary with `numShards` shards, so `ShardedConcurrentDictionary(0)` is a
dictionary with an empty shard sequence, on which `getShardIndex` and `insert` are
undefined (modulo by zero). The zero check is in `main`: a shard count of zero given as
argument ends the program with status 1 before any dictionary is constructed, and every
shard count `main` constructs a dictionary with is at least 1. -/
theorem zero_shards_spec (hash : Word → Nat) :
    (∀ numShards, (new numShards).shards_.length = numShards) ∧
    (new 0).shards_ = [] ∧
    (∀ word bookId, (new 0).getShardIndex hash word = none ∧
      (new 0).insert hash word bookId = none) ∧
    mainNumShards (some (some 0)) = .error 1 ∧
    (∀ arg numShards, mainNumShards arg = .ok numShards → 1 ≤ numShards) := by
  refine ⟨length_new, rfl, fun word bookId => ⟨rfl, rfl⟩, rfl, ?_⟩
  intro arg n h
  unfold mainNumShards at h
  split at h
  · cases h; decide
  · cases h
  · split at h
    · cases h
    · cases h; omega

/-- C12, counterexample to the claim as stated: the constructor called with zero shards
returns a dictionary, whose shard sequence is empty. -/
theorem zero_shards_counterexample :
    ∃ d, new 0 = d ∧ d.shards_ = [] ∧ d.shards_.length = 0 :=
  ⟨new 0, rfl, rfl, rfl⟩

/-! ## Invariants of the reachable dictionaries -/

theorem placed_removeSingleOccurrences (hash : Word → Nat)
    (self : ShardedConcurrentDictionary) (h : self.Placed hash) :
    self.removeSingleOccurrences.Placed hash := by
  intro i w hi
  rw [shardEntry_removeSingleOccurrences] at hi
  rw [length_removeSingleOccurrences]
  apply h i w
  cases hs : self.shardEntry i w with
  | none => rw [hs] at hi; exact Bool.noConfusion hi
  | some e => rfl

theorem insert_some_pos (hash : Word → Nat) (d r : ShardedConcurrentDictionary) (word : Word)
    (bookId : Int) (h : d.insert hash word bookId = some r) : 0 < d.shards_.length := by
  by_contra hcon
  have h0 : d.shards_.length = 0 := by omega
  simp [ShardedConcurrentDictionary.insert, getShardIndex, h0] at h

theorem merge_no_shard (hash : Word → Nat) (d other : ShardedConcurrentDictionary)
    (h : d.shards_.length = 0) : d.merge hash other = some d := by
  unfold merge
  rw [h]
  rfl

/-- One step of `insert` or `merge` keeps the number of shards and shard placement. -/
theorem insert_keeps_placed (hash : Word → Nat) (d r : ShardedConcurrentDictionary)
    (word : Word) (bookId : Int) (h : d.insert hash word bookId = some r)
    (hp : d.Placed hash) : r.shards_.length = d.shards_.length ∧ r.Placed hash := by
  have hN := insert_some_pos hash d r word bookId h
  obtain ⟨r', h1, h2, h3⟩ := mergeEntry_spec hash d word ⟨1, {bookId}⟩ hN
  rw [insert_eq_mergeEntry, h1] at h
  cases h
  refine ⟨h2, placed_of_routed hash d _ h2 ?_ hp⟩
  intro i w hi
  rw [h3, if_neg]
  rintro ⟨h4, h5⟩
  subst h5
  exact hi h4

theorem merge_keeps_placed (hash : Word → Nat) (d other r : ShardedConcurrentDictionary)
    (hlen : other.shards_.length = d.shards_.length) (h : d.merge hash other = some r)
    (hp : d.Placed hash) : r.shards_.length = d.shards_.length ∧ r.Placed hash := by
  by_cases h0 : d.shards_.length = 0
  · rw [merge_no_shard hash d other h0] at h
    cases h
    exact ⟨rfl, hp⟩
  · obtain ⟨r', h1, h2, h3⟩ :=
      merge_range_spec hash other d.shards_.length (by omega) d (by omega)
    have h1' : d.merge hash other = some r' := h1
    rw [h1'] at h
    cases h
    refine ⟨h2, placed_of_routed hash d _ h2 ?_ hp⟩
    intro i w hi
    rw [h3, if_neg hi]

theorem reachable_placed (hash : Word → Nat) (N : Nat) (d : ShardedConcurrentDictionary)
    (h : Reachable hash N d) : d.shards_.length = N ∧ d.Placed hash := by
  induction h with
  | empty => exact ⟨length_new N, placed_new hash N⟩
  | insert d r word bookId _ hr ih =>
    obtain ⟨h1, h2⟩ := insert_keeps_placed hash d r word bookId hr ih.2
    exact ⟨by omega, h2⟩
  | merge d other r _ ho hr ih =>
    obtain ⟨h1, h2⟩ := merge_keeps_placed hash d other r (by omega) hr ih.2
    exact ⟨by omega, h2⟩
  | prune d _ ih =>
    exact ⟨by rw [length_removeSingleOccurrences]; exact ih.1,
      placed_removeSingleOccurrences hash d ih.2⟩

/-- C17: in every dictionary reachable from the empty dictionary with `N ≥ 1` shards by
`insert`, `merge` with any dictionary of `N` shards and `removeSingleOccurrences`, the
number of shards is `N` and every word stored in shard `i` has
`getShardIndex(word) = i`; so every word occurs in at most one shard. -/
theorem shard_placement_invariant (hash : Word → Nat) (N : Nat) (hN : 1 ≤ N)
    (d : ShardedConcurrentDictionary) (h : Reachable hash N d) :
    d.shards_.length = N ∧
    (∀ i w, (d.shardEntry i w).isSome = true → d.getShardIndex hash w = some i) ∧
    d.Placed hash ∧ d.AtMostOneShard := by
  obtain ⟨h1, h2⟩ := reachable_placed hash N d h
  refine ⟨h1, ?_, h2, atMostOneShard_of_placed hash d h2⟩
  intro i w hi
  rw [getShardIndex_pos hash d w (by omega), h2 i w hi]

theorem shard_placement_invariant_witness :
    (1 : Nat) ≤ 2 ∧ Reachable List.length 2 demoSelf ∧
    demoSelf.shards_.length = 2 ∧ demoSelf.AtMostOneShard := by
  have hr : Reachable List.length 2 demoSelf :=
    Reachable.insert (new 2) demoSelf [97] 0 Reachable.empty rfl
  obtain ⟨h1, _, _, h4⟩ := shard_placement_invariant List.length 2 (by decide) demoSelf hr
  exact ⟨by decide, hr, h1, h4⟩

theorem entryOK_addEntry (o : Option Entry) (e y : Entry)
    (ho : ∀ x, o = some x → EntryOK x) (he : EntryOK e) (h : addEntry o e = some y) :
    EntryOK y := by
  obtain ⟨he1, he2, he3⟩ := he
  cases o with
  | none =>
    simp only [addEntry, countOf, idsOf, Option.getD_none, Option.some.injEq] at h
    subst h
    refine ⟨by simpa using he1, ?_, ?_⟩
    · simpa using he2
    · simpa using he3
  | some x =>
    obtain ⟨hx1, hx2, hx3⟩ := ho x rfl
    simp only [addEntry, countOf, idsOf, Option.getD_some, Option.some.injEq] at h
    subst h
    refine ⟨by show 1 ≤ x.wordCount + e.wordCount; omega, ?_, ?_⟩
    · exact hx2.mono Finset.subset_union_left
    · show ((x.bookIds ∪ e.bookIds).card : Int) ≤ x.wordCount + e.wordCount
      have := Finset.card_union_le x.bookIds e.bookIds
      omega

theorem entryOK_addOpt (o x : Option Entry) (ho : ∀ e, o = some e → EntryOK e)
    (hx : ∀ e, x = some e → EntryOK e) : ∀ e, addOpt o x = some e → EntryOK e := by
  intro e h
  cases x with
  | none => exact ho e h
  | some y => exact entryOK_addEntry o y e ho (hx y rfl) h

theorem entryOK_foldl_addOpt (l : List (Option Entry))
    (hl : ∀ x ∈ l, ∀ e, x = some e → EntryOK e) :
    ∀ o : Option Entry, (∀ e, o = some e → EntryOK e) →
      ∀ e, l.foldl addOpt o = some e → EntryOK e := by
  induction l with
  | nil => intro o ho e h; exact ho e h
  | cons x t ih =>
    intro o ho e h
    exact ih (fun y hy => hl y (List.mem_cons_of_mem _ hy)) (addOpt o x)
      (entryOK_addOpt o x ho (hl x (List.mem_cons_self _ _))) e h

/-- Every dictionary reachable from empty dictionaries has `N` shards and only entries
that satisfy the entry invariant. -/
theorem reachableClosed_entryOK (hash : Word → Nat) (N : Nat) (d : ShardedConcurrentDictionary)
    (h : ReachableClosed hash N d) :
    d.shards_.length = N ∧ ∀ i w e, d.shardEntry i w = some e → EntryOK e := by
  induction h with
  | empty =>
    refine ⟨length_new N, fun i w e he => ?_⟩
    rw [shardEntry_new] at he
    cases he
  | insert d r word bookId _ hr ih =>
    have hN := insert_some_pos hash d r word bookId hr
    obtain ⟨r', h1, h2, h3⟩ := mergeEntry_spec hash d word ⟨1, {bookId}⟩ hN
    rw [insert_eq_mergeEntry, h1] at hr
    cases hr
    refine ⟨by omega, fun i w e he => ?_⟩
    rw [h3] at he
    split_ifs at he
    · refine entryOK_addEntry _ ⟨1, {bookId}⟩ e (fun x hx => ih.2 i w x hx) ?_ he
      exact ⟨le_refl _, Finset.singleton_nonempty _, by simp⟩
    · exact ih.2 i w e he
  | merge d other r _ _ hr ihd iho =>
    by_cases h0 : d.shards_.length = 0
    · rw [merge_no_shard hash d other h0] at hr
      cases hr
      exact ihd
    · obtain ⟨r', h1, h2, h3⟩ :=
        merge_range_spec hash other d.shards_.length (by omega) d (by omega)
      have h1' : d.merge hash other = some r' := h1
      rw [h1'] at hr
      cases hr
      refine ⟨by omega, fun i w e he => ?_⟩
      rw [h3] at he
      split_ifs at he
      · refine entryOK_foldl_addOpt _ ?_ _ (fun x hx => ihd.2 i w x hx) e he
        intro x hx y hy
        obtain ⟨k, _, rfl⟩ := List.mem_map.1 hx
        exact iho.2 k w y hy
      · exact ihd.2 i w e he
  | prune d _ ih =>
    refine ⟨by rw [length_removeSingleOccurrences]; exact ih.1, fun i w e he => ?_⟩
    rw [shardEntry_removeSingleOccurrences] at he
    exact ih.2 i w e (filter_eq_some_imp _ _ _ he).1

theorem exists_shardEntry_of_find? (d : ShardedConcurrentDictionary) (w : Word) (e : Entry)
    (h : d.find? w = some e) : ∃ i, d.shardEntry i w = some e := by
  obtain ⟨shard, hm, hs⟩ := List.exists_of_findSome?_eq_some h
  obtain ⟨i, hi, rfl⟩ := List.mem_iff_getElem.1 hm
  exact ⟨i, by rw [shardEntry_eq_bind, List.getElem?_eq_getElem hi]; exact hs⟩

/-- C18: in every dictionary reachable from empty dictionaries by `insert`, `merge` of
reachable dictionaries with the same shard count and `removeSingleOccurrences`, every
present entry, in every shard and in the union reading, has `wordCount ≥ 1` and a
non-empty `bookIds` set with at most `wordCount` elements, counts being unbounded
integers; and after `removeSingleOccurrences` every present entry has `wordCount ≥ 2`. -/
theorem entry_invariant (hash : Word → Nat) (N : Nat) (d : ShardedConcurrentDictionary)
    (h : ReachableClosed hash N d) :
    (∀ i w e, d.shardEntry i w = some e →
      1 ≤ e.wordCount ∧ e.bookIds.Nonempty ∧ (e.bookIds.card : Int) ≤ e.wordCount) ∧
    (∀ w e, d.find? w = some e →
      1 ≤ e.wordCount ∧ e.bookIds.Nonempty ∧ (e.bookIds.card : Int) ≤ e.wordCount) ∧
    (∀ i w e, d.removeSingleOccurrences.shardEntry i w = some e → 2 ≤ e.wordCount) ∧
    (∀ w e, d.removeSingleOccurrences.find? w = some e → 2 ≤ e.wordCount) := by
  obtain ⟨_, hok⟩ := reachableClosed_entryOK hash N d h
  have hprune : ∀ i w e, d.removeSingleOccurrences.shardEntry i w = some e →
      2 ≤ e.wordCount := by
    intro i w e he
    rw [shardEntry_removeSingleOccurrences] at he
    obtain ⟨h1, h2⟩ := filter_eq_some_imp _ _ _ he
    have h3 := (hok i w e h1).1
    have h4 : e.wordCount ≠ 1 := by simpa using h2
    omega
  refine ⟨hok, ?_, hprune, ?_⟩
  · intro w e he
    obtain ⟨i, hi⟩ := exists_shardEntry_of_find? d w e he
    exact hok i w e hi
  · intro w e he
    obtain ⟨i, hi⟩ := exists_shardEntry_of_find? _ w e he
    exact hprune i w e hi

theorem entry_invariant_witness :
    ReachableClosed List.length 2 demoSelf ∧
    (∀ w e, demoSelf.find? w = some e →
      1 ≤ e.wordCount ∧ e.bookIds.Nonempty ∧ (e.bookIds.card : Int) ≤ e.wordCount) := by
  have hr : ReachableClosed List.length 2 demoSelf :=
    ReachableClosed.insert (new 2) demoSelf [97] 0 ReachableClosed.empty rfl
  exact ⟨hr, (entry_invariant List.length 2 demoSelf hr).2.1⟩

/-! ## Tokenizing line by line -/

/-- With enough fuel the outer loop appends the words of the rest of the text to the
words built so far. -/
theorem splitLoop_enough (fuel : Nat) (rest : List Nat) (words : List Word)
    (h : rest.length ≤ fuel) : splitLoop fuel rest words = words ++ splitToWords rest := by
  obtain ⟨extra, rfl⟩ := Nat.exists_eq_add_of_le h
  rw [splitLoop_fuel rest.length rest words extra le_rfl, splitLoop_eq_runs rest.length [] rest,
    splitToWords, splitLoop_eq_runs rest.length [] rest []]
  simp

/-- One iteration of the outer loop, on the words returned. -/
theorem splitToWords_step (rest : List Nat) (hne : rest ≠ []) :
    splitToWords rest =
      (if (collectAlpha (skipNonAlpha rest)).1 ≠ []
        then [(collectAlpha (skipNonAlpha rest)).1.map tolower] else [])
      ++ splitToWords (collectAlpha (skipNonAlpha rest)).2 := by
  obtain ⟨sep, _, _, _, _, _, hlen⟩ := splitStep_spec rest hne
  obtain ⟨k, hk⟩ := Nat.exists_eq_succ_of_ne_zero
    (show rest.length ≠ 0 from fun h => hne (List.eq_nil_of_length_eq_zero h))
  rw [splitToWords, hk, splitLoop]
  simp only [hne, if_false]
  split_ifs with hw
  · rw [splitLoop_enough k _ _ (by omega)]
    simp
  · rw [splitLoop_enough k _ _ (by omega)]

theorem splitToWords_nil : splitToWords [] = [] := by
  simp [splitToWords, splitLoop]

theorem splitToWords_cons_nonalpha (c : Nat) (t : List Nat) (hc : isalpha c = false) :
    splitToWords (c :: t) = splitToWords t := by
  have hskip : skipNonAlpha (c :: t) = skipNonAlpha t := by simp [skipNonAlpha, hc]
  rw [splitToWords_step (c :: t) (by simp), hskip]
  by_cases ht : t = []
  · subst ht
    simp [skipNonAlpha, collectAlpha, splitToWords_nil]
  · rw [splitToWords_step t ht]

theorem splitToWords_cons_alpha (c : Nat) (t : List Nat) (hc : isalpha c = true) :
    splitToWords (c :: t)
      = (collectAlpha (c :: t)).1.map tolower :: splitToWords (collectAlpha (c :: t)).2 := by
  have hskip : skipNonAlpha (c :: t) = c :: t := by simp [skipNonAlpha, hc]
  have hw : (collectAlpha (c :: t)).1 ≠ [] := by simp [collectAlpha, hc]
  rw [splitToWords_step (c :: t) (by simp), hskip, if_pos hw]
  rfl

/-- The second inner loop stops at a non-alphabetic character: what follows it does not
change the word collected. -/
theorem collectAlpha_append (l : List Nat) (c : Nat) (b : List Nat) (hc : isalpha c = false) :
    collectAlpha (l ++ c :: b) = ((collectAlpha l).1, (collectAlpha l).2 ++ c :: b) := by
  induction l with
  | nil => simp [collectAlpha, hc]
  | cons x t ih =>
    by_cases hx : isalpha x = true
    · rw [List.cons_append, collectAlpha, collectAlpha]
      simp only [hx, if_true]
      rw [ih]
    · have hx' : isalpha x = false := by simpa using hx
      simp [collectAlpha, hx']

theorem splitToWords_append_aux (c : Nat) (b : List Nat) (hc : isalpha c = false) (n : Nat) :
    ∀ a : List Nat, a.length ≤ n →
      splitToWords (a ++ c :: b) = splitToWords a ++ splitToWords b := by
  induction n with
  | zero =>
    intro a ha
    have hnil : a = [] := List.eq_nil_of_length_eq_zero (by omega)
    subst hnil
    rw [List.nil_append, splitToWords_cons_nonalpha c b hc, splitToWords_nil, List.nil_append]
  | succ n ih =>
    intro a ha
    cases a with
    | nil =>
      rw [List.nil_append, splitToWords_cons_nonalpha c b hc, splitToWords_nil,
        List.nil_append]
    | cons x t =>
      have ht : t.length ≤ n := by simpa using ha
      by_cases hx : isalpha x = true
      · obtain ⟨h1, _, _, _⟩ := collectAlpha_spec (x :: t)
        have hw : (collectAlpha (x :: t)).1 ≠ [] := by simp [collectAlpha, hx]
        have hlen : (collectAlpha (x :: t)).2.length ≤ n := by
          have h2 := congrArg List.length h1
          rw [List.length_append, List.length_cons] at h2
          have h3 : 0 < (collectAlpha (x :: t)).1.length := List.length_pos.2 hw
          omega
        have happ := collectAlpha_append (x :: t) c b hc
        rw [List.cons_append] at happ
        rw [List.cons_append, splitToWords_cons_alpha x _ hx, happ,
          splitToWords_cons_alpha x t hx]
        simp only [List.cons_append, List.cons.injEq, true_and]
        exact ih _ hlen
      · have hx' : isalpha x = false := by simpa using hx
        rw [List.cons_append, splitToWords_cons_nonalpha x _ hx',
          splitToWords_cons_nonalpha x t hx']
        exact ih t ht

/-- What `std::getline` returns: a line without newline, and either the file is the line,
a newline and the unread part, or the file is the line and nothing is left unread. -/
theorem getline_spec (file line unread : List Nat) (h : getline file = some (line, unread)) :
    file = line ++ 10 :: unread ∨ (file = line ∧ unread = []) := by
  induction file generalizing line unread with
  | nil => simp [getline] at h
  | cons c t ih =>
    rw [getline] at h
    by_cases hc : c = 10
    · simp only [hc, if_true, Option.some.injEq, Prod.mk.injEq] at h
      left
      rw [hc, ← h.1, ← h.2]
      rfl
    · simp only [hc, if_false] at h
      cases hg : getline t with
      | none =>
        rw [hg] at h
        simp only [Option.some.injEq, Prod.mk.injEq] at h
        have ht : t = [] := by
          cases t with
          | nil => rfl
          | cons a b =>
            rw [getline] at hg
            split_ifs at hg
            cases hgb : getline b <;> rw [hgb] at hg <;> simp at hg
        right
        rw [← h.1, ← h.2, ht]
        exact ⟨rfl, rfl⟩
      | some p =>
        obtain ⟨l, u⟩ := p
        rw [hg] at h
        simp only [Option.some.injEq, Prod.mk.injEq] at h
        rcases ih l u hg with h1 | ⟨h1, h2⟩
        · left
          rw [← h.1, ← h.2, h1]
          rfl
        · right
          rw [← h.1, ← h.2, h2]
          exact ⟨by rw [← h1], rfl⟩

theorem isalpha_newline : isalpha 10 = false := by decide

theorem linesLoop_words (fuel : Nat) : ∀ file : List Nat, file.length ≤ fuel →
    (linesLoop fuel file).flatMap splitToWords = splitToWords file := by
  induction fuel with
  | zero =>
    intro file h
    have hnil : file = [] := List.eq_nil_of_length_eq_zero (by omega)
    subst hnil
    simp [linesLoop, splitToWords_nil]
  | succ fuel ih =>
    intro file h
    rw [linesLoop]
    cases hg : getline file with
    | none =>
      cases file with
      | nil => simp [splitToWords_nil]
      | cons c t =>
        rw [getline] at hg
        split_ifs at hg
        cases hgt : getline t <;> rw [hgt] at hg <;> simp at hg
    | some p =>
      obtain ⟨line, unread⟩ := p
      have hlen := getline_length file line unread hg
      simp only [List.flatMap_cons]
      rw [ih unread (by omega)]
      rcases getline_spec file line unread hg with h1 | ⟨h1, h2⟩
      · rw [h1, splitToWords_append_aux 10 unread isalpha_newline line.length line le_rfl]
      · rw [h2, splitToWords_nil, List.append_nil, h1]

/-- C20: for all texts `a` and `b` and every non-alphabetic character `c`, the newline in
particular, `splitToWords(a ++ [c] ++ b) = splitToWords(a) ++ splitToWords(b)`; hence the
words of the lines that `std::getline` reads from a file are, in order, the words of the
whole file, and the loop of `processBooks` over the lines of a file makes exactly the
`insert` calls of the tokenization of the whole file. -/
theorem splitToWords_lines :
    (∀ (a b : List Nat) (c : Nat), isalpha c = false →
      splitToWords (a ++ [c] ++ b) = splitToWords a ++ splitToWords b) ∧
    (∀ a b : List Nat, splitToWords (a ++ [10] ++ b) = splitToWords a ++ splitToWords b) ∧
    (∀ file : List Nat, bookWords file = splitToWords file) ∧
    (∀ (hash : Word → Nat) (id : Int) (file : List Nat) (dict : ShardedConcurrentDictionary),
      readLoop hash id file.length file dict
        = dict.insertAll hash ((splitToWords file).map (fun word => (word, id)))) := by
  have h1 : ∀ (a b : List Nat) (c : Nat), isalpha c = false →
      splitToWords (a ++ [c] ++ b) = splitToWords a ++ splitToWords b := by
    intro a b c hc
    rw [List.append_assoc, List.singleton_append]
    exact splitToWords_append_aux c b hc a.length a le_rfl
  refine ⟨h1, fun a b => h1 a b 10 isalpha_newline,
    fun file => linesLoop_words file.length file le_rfl, ?_⟩
  intro hash id file dict
  rw [readLoop_eq_insertAll, linesLoop_words file.length file le_rfl]

/-! ## Books that cannot be opened -/

theorem bookWords_eq (file : List Nat) : bookWords file = splitToWords file :=
  linesLoop_words file.length file le_rfl

theorem callsOf_eq_enumFrom (startBookId : Int) : ∀ (books : List Book) (i : Nat),
    callsOf startBookId i books = (books.enumFrom i).flatMap (fun p =>
      match p.2 with
      | none => []
      | some file => (splitToWords file).map (fun word => (word, bookId startBookId p.1))) := by
  intro books
  induction books with
  | nil => intro i; rw [callsOf]; rfl
  | cons b t ih =>
    intro i
    cases b with
    | none =>
      rw [callsOf, ih (i + 1), List.enumFrom_cons, List.flatMap_cons]
      rfl
    | some file =>
      rw [callsOf, ih (i + 1), List.enumFrom_cons, List.flatMap_cons, bookWords_eq]

theorem callsOf_asEmptyText (startBookId : Int) : ∀ (books : List Book) (i : Nat),
    callsOf startBookId i (asEmptyText books) = callsOf startBookId i books := by
  intro books
  induction books with
  | nil => intro i; rfl
  | cons b t ih =>
    intro i
    have ih' := ih (i + 1)
    unfold asEmptyText at ih' ⊢
    cases b with
    | none =>
      simp only [List.map_cons, Option.getD_none]
      rw [callsOf, callsOf, ih']
      simp [bookWords, linesLoop, getline]
    | some file =>
      simp only [List.map_cons, Option.getD_some]
      rw [callsOf, callsOf, ih']

/-- C19: for every slice of books, every dictionary and every start offset,
`processBooks` does what it would do if every book that cannot be opened had empty text:
it makes exactly the `insert` calls of the readable books, in order, each readable book
ingested in full (every word of the tokenization of its text) with the id
`startBookId + static_cast<int>(i)` of its index `i` in the slice, whatever the number of
books skipped before it; a book that cannot be opened contributes no call and does not
stop the loop. The id is the exact sum `startBookId + i` whenever that sum and `i` are
representable in `int`. -/
theorem processBooks_skips_unreadable (hash : Word → Nat) (books : List Book)
    (dict : ShardedConcurrentDictionary) (startBookId : Int) :
    processBooks hash books dict startBookId
      = processBooks hash (asEmptyText books) dict startBookId ∧
    processBooks hash books dict startBookId
      = dict.insertAll hash (readableCalls startBookId books) ∧
    (∀ before after : List Book,
      readableCalls startBookId (before ++ none :: after)
        = readableCalls startBookId (before ++ some [] :: after)) ∧
    (∀ i : Nat, (i : Int) < 2147483648 → -2147483648 ≤ startBookId + i →
      startBookId + i < 2147483648 → bookId startBookId i = startBookId + i) := by
  refine ⟨?_, ?_, ?_, ?_⟩
  · rw [processBooks, processBooks, processBooksFrom_eq_insertAll,
      processBooksFrom_eq_insertAll, callsOf_asEmptyText]
  · rw [processBooks, processBooksFrom_eq_insertAll, callsOf_eq_enumFrom]
    rfl
  · intro before after
    unfold readableCalls
    rw [← callsOf_eq_enumFrom, ← callsOf_eq_enumFrom, callsOf_append, callsOf_append]
    congr 1
  · intro i h1 h2 h3
    unfold bookId castInt wrapInt
    omega

/-! ## The locks of `merge`: proofs -/

theorem always_head (p : Held → Bool) (h : Held) (trace : List LockEvent)
    (ha : always p h trace = true) : p h = true := by
  cases trace with
  | nil => exact ha
  | cons e t =>
    rw [always, Bool.and_eq_true] at ha
    exact ha.1

theorem always_append (p : Held → Bool) (a b : List LockEvent) :
    ∀ h : Held, always p h (a ++ b) = true ↔
      (always p h a = true ∧ always p (heldAfter h a) b = true) := by
  induction a with
  | nil =>
    intro h
    simp only [List.nil_append, always, heldAfter, List.foldl_nil]
    exact ⟨fun hb => ⟨always_head p h b hb, hb⟩, fun hb => hb.2⟩
  | cons e t ih =>
    intro h
    rw [List.cons_append, always, always, Bool.and_eq_true, Bool.and_eq_true, ih (h.step e),
      and_assoc]
    rfl

theorem heldAfter_append (h : Held) (a b : List LockEvent) :
    heldAfter h (a ++ b) = heldAfter (heldAfter h a) b := by
  simp [heldAfter, List.foldl_append]

/-- The inner loop of `merge`, entered with the lock of shard `i` of `other` held and no
lock of `self`: the locks are nested at every point and the same locks are held at the
end. -/
theorem shardLockTrace_nested (hash : Word → Nat) (numShards i : Nat) (otherShard : Shard) :
    always nestedLocks ⟨[i], []⟩ (shardLockTrace hash numShards otherShard) = true ∧
    heldAfter ⟨[i], []⟩ (shardLockTrace hash numShards otherShard) = ⟨[i], []⟩ := by
  unfold shardLockTrace
  induction otherShard.entries with
  | nil => exact ⟨rfl, rfl⟩
  | cons c t ih =>
    rw [List.flatMap_cons]
    constructor
    · rw [always_append]
      refine ⟨by simp [always, nestedLocks, Held.step], ?_⟩
      have : heldAfter ⟨[i], []⟩ [LockEvent.acquireThis (hash c.1 % numShards),
          LockEvent.releaseThis (hash c.1 % numShards)] = ⟨[i], []⟩ := by
        simp [heldAfter, Held.step]
      rw [this]
      exact ih.1
    · rw [heldAfter_append]
      have : heldAfter ⟨[i], []⟩ [LockEvent.acquireThis (hash c.1 % numShards),
          LockEvent.releaseThis (hash c.1 % numShards)] = ⟨[i], []⟩ := by
        simp [heldAfter, Held.step]
      rw [this]
      exact ih.2

theorem mergeLockTraceFrom_nested (hash : Word → Nat) (numShards : Nat)
    (other : ShardedConcurrentDictionary) (indices : List Nat) :
    always nestedLocks ⟨[], []⟩ (mergeLockTraceFrom hash numShards other indices) = true ∧
    heldAfter ⟨[], []⟩ (mergeLockTraceFrom hash numShards other indices) = ⟨[], []⟩ := by
  induction indices with
  | nil => exact ⟨rfl, rfl⟩
  | cons i rest ih =>
    rw [mergeLockTraceFrom]
    cases other.shards_[i]? with
    | none => exact ⟨rfl, rfl⟩
    | some otherShard =>
      obtain ⟨h1, h2⟩ := shardLockTrace_nested hash numShards i otherShard
      have hstep : (⟨[], []⟩ : Held).step (LockEvent.acquireOther i) = ⟨[i], []⟩ := rfl
      have hrel : (⟨[i], []⟩ : Held).step (LockEvent.releaseOther i) = ⟨[], []⟩ := by
        simp [Held.step]
      constructor
      · simp only [always, Bool.and_eq_true]
        refine ⟨by decide, ?_⟩
        rw [hstep, always_append, h2]
        refine ⟨h1, ?_⟩
        simp only [always, Bool.and_eq_true]
        refine ⟨by simp [nestedLocks], ?_⟩
        rw [hrel]
        exact ih.1
      · simp only [heldAfter, List.foldl_cons]
        rw [hstep]
        have := heldAfter_append ⟨[i], []⟩ (shardLockTrace hash numShards otherShard)
          (LockEvent.releaseOther i :: mergeLockTraceFrom hash numShards other rest)
        simp only [heldAfter] at this h2 ih
        rw [this, h2, List.foldl_cons, hrel]
        exact ih.2

/-- C16 (amended): during `self.merge(other)` the locks are nested: at every point of the
sequence of lock events the thread holds at most one lock of `other` and at most one lock
of `self`, and it holds a lock of `self` only while it holds a lock of `other`; every lock
on a shard of `self` is acquired while the lock on the shard of `other` that is being
traversed is held; when `merge` returns no lock is held. -/
theorem merge_locks_nested (hash : Word → Nat) (self other : ShardedConcurrentDictionary) :
    always nestedLocks ⟨[], []⟩ (mergeLockTrace hash self other) = true ∧
    heldAfter ⟨[], []⟩ (mergeLockTrace hash self other) = ⟨[], []⟩ ∧
    (∀ pre post j, mergeLockTrace hash self other = pre ++ LockEvent.acquireThis j :: post →
      (heldAfter ⟨[], []⟩ pre).other ≠ [] ∧
      (heldAfter ⟨[], []⟩ (pre ++ [LockEvent.acquireThis j])).other ≠ [] ∧
      (heldAfter ⟨[], []⟩ (pre ++ [LockEvent.acquireThis j])).this ≠ []) := by
  obtain ⟨h1, h2⟩ := mergeLockTraceFrom_nested hash self.shards_.length other
    (List.range self.shards_.length)
  refine ⟨h1, h2, ?_⟩
  intro pre post j hsplit
  have h3 : always nestedLocks ⟨[], []⟩ (mergeLockTrace hash self other) = true := h1
  rw [hsplit, show pre ++ LockEvent.acquireThis j :: post
      = (pre ++ [LockEvent.acquireThis j]) ++ post by simp, always_append] at h3
  have h4 := always_head _ _ _ h3.2
  rw [heldAfter_append] at h4 ⊢
  have h5 : heldAfter (heldAfter ⟨[], []⟩ pre) [LockEvent.acquireThis j]
      = { heldAfter ⟨[], []⟩ pre with this := j :: (heldAfter ⟨[], []⟩ pre).this } := rfl
  rw [h5] at h4 ⊢
  simp only [nestedLocks, Bool.and_eq_true, Bool.or_eq_true, List.isEmpty_cons,
    Bool.false_eq_true, false_or, Bool.not_eq_true', List.isEmpty_eq_false] at h4
  have h6 : (heldAfter ⟨[], []⟩ pre).other ≠ [] := by
    simpa [List.isEmpty_iff] using h4.2
  exact ⟨h6, h6, by simp⟩

/-- C16, counterexample to the claim as stated: when a dictionary whose shard 0 holds a
word is merged, the second lock event is the acquisition of a lock of `self` and the
lock of shard 0 of `other` is still held: after two events the thread holds a lock of
`other` and a lock of `self`. -/
theorem merge_locks_counterexample :
    (mergeLockTrace List.length demoSelf demoOther).take 2
      = [LockEvent.acquireOther 0, LockEvent.acquireThis 0] ∧
    heldAfter ⟨[], []⟩ ((mergeLockTrace List.length demoSelf demoOther).take 2) = ⟨[0], [0]⟩ ∧
    always neverBoth ⟨[], []⟩ (mergeLockTrace List.length demoSelf demoOther) = false := by
  decide

/-! ## Concurrent `insert` calls: proofs -/

theorem single_find?_new (w : Word) : ConcurrentDictionary.new.find? w = none := rfl

theorem single_find?_insert (s : ConcurrentDictionary) (word : Word) (bookId : Int)
    (w : Word) :
    (s.insert word bookId).find? w
      = if w = word then some ⟨countOf (s.find? word) + 1,
          Insert.insert bookId (idsOf (s.find? word))⟩
        else s.find? w := by
  unfold ConcurrentDictionary.insert ConcurrentDictionary.find?
  by_cases h : w = word
  · subst h
    rw [if_pos rfl]
    simp only [AList.lookup_insert]
    rfl
  · rw [if_neg h]
    simp only [AList.lookup_insert_ne h]

/-- The loop of `ConcurrentDictionary::merge` over a list of entries. -/
theorem single_merge_loop (w : Word) :
    ∀ (l : List (Sigma fun _ : Word => Entry)) (acc : ConcurrentDictionary),
    (l.foldl
      (fun (acc : ConcurrentDictionary) (p : Sigma fun _ : Word => Entry) =>
        let myEntry := (acc.dict_.lookup p.1).getD {}
        (⟨acc.dict_.insert p.1
          { wordCount := myEntry.wordCount + p.2.wordCount,
            bookIds := myEntry.bookIds ∪ p.2.bookIds }⟩ : ConcurrentDictionary))
      acc).find? w = addOpt (acc.find? w) (sumEntries l w) := by
  intro l
  induction l with
  | nil => intro acc; rfl
  | cons c t ih =>
    intro acc
    rw [List.foldl_cons, ih, sumEntries, ← addOpt_assoc]
    congr 1
    show (addToShard acc.dict_ c.1 c.2.wordCount c.2.bookIds).lookup w = _
    rw [lookup_addToShard]
    by_cases h : w = c.1
    · subst h
      rw [if_pos rfl, if_pos rfl]
      rfl
    · rw [if_neg h, if_neg (fun h2 => h h2.symm)]
      rfl

theorem single_find?_merge (s o : ConcurrentDictionary) (w : Word) :
    (s.merge o).find? w = addOpt (s.find? w) (o.find? w) := by
  unfold ConcurrentDictionary.merge
  rw [single_merge_loop, sumEntries_eq_dlookup _ o.dict_.nodupKeys]
  rfl

theorem single_find?_removeSingleOccurrences (s : ConcurrentDictionary) (w : Word) :
    s.removeSingleOccurrences.find? w
      = (s.find? w).filter (fun e => decide (e.wordCount ≠ 1)) :=
  lookup_removeSingleFromShard s.dict_ w

theorem find?_new (N : Nat) (w : Word) : (new N).find? w = none := by
  rw [find?_eq_entry List.length (new N) (placed_new List.length N) w]
  exact shardEntry_new N _ w

/-- Simulation: every history runs on sharded instances with `N ≥ 1` shards, keeps the
shard placement, and its result, read as the union of the shards, is the mapping of the
single-map run. -/
theorem runSharded_simulation (hash : Word → Nat) (N : Nat) (hN : 1 ≤ N) :
    ∀ p : History, ∃ d, p.runSharded hash N = some d ∧ d.shards_.length = N ∧
      d.Placed hash ∧ ∀ w, d.find? w = p.runSingle.find? w := by
  intro p
  induction p with
  | empty => exact ⟨new N, rfl, length_new N, placed_new hash N, fun w => find?_new N w⟩
  | insert before word bookId ih =>
    obtain ⟨d, hd, hlen, hp, hf⟩ := ih
    obtain ⟨r, hr, hrlen, _, _, hrest⟩ := insert_spec hash d word bookId (by omega)
    obtain ⟨hrp, hword, hother⟩ := hrest hp
    refine ⟨r, ?_, by omega, hrp, ?_⟩
    · simp only [History.runSharded, hd]
      exact hr
    · intro w
      simp only [History.runSingle]
      rw [single_find?_insert]
      by_cases h : w = word
      · subst h
        rw [if_pos rfl, hword, hf]
      · rw [if_neg h, hother w h, hf]
  | merge before other ih1 ih2 =>
    obtain ⟨d, hd, hlen, hp, hf⟩ := ih1
    obtain ⟨o, ho, holen, hop, hof⟩ := ih2
    obtain ⟨r, hr, hrlen, hrp, hrf⟩ := merge_placed hash N (by omega) d o hlen holen hp hop
    refine ⟨r, ?_, hrlen, hrp, ?_⟩
    · simp only [History.runSharded, hd, ho]
      exact hr
    · intro w
      simp only [History.runSingle]
      rw [single_find?_merge, hrf, hf, hof]
  | removeSingleOccurrences before ih =>
    obtain ⟨d, hd, hlen, hp, hf⟩ := ih
    refine ⟨d.removeSingleOccurrences, ?_, ?_, placed_removeSingleOccurrences hash d hp, ?_⟩
    · simp only [History.runSharded, hd]
    · rw [length_removeSingleOccurrences, hlen]
    · intro w
      simp only [History.runSingle]
      rw [find?_removeSingleOccurrences_placed hash d hp, single_find?_removeSingleOccurrences,
        hf]

/-- C21: for every shard count `N ≥ 1`, every hash function and every history of
`insert`, `merge` and `removeSingleOccurrences` calls on instances constructed empty, the
history applied to `ShardedConcurrentDictionary` instances with `N` shards returns a
dictionary with `N` shards whose mapping word -> (`wordCount`, `bookIds`), read as the
union of the tables of its shards, is the mapping of the `ConcurrentDictionary` that the
same history yields; hence the mapping is the same for every other shard count
`M ≥ 1` and hash function. -/
theorem sharded_refines_single (hash : Word → Nat) (N : Nat) (hN : 1 ≤ N) (p : History) :
    ∃ d, p.runSharded hash N = some d ∧ d.shards_.length = N ∧
      (∀ w, d.find? w = p.runSingle.find? w) ∧
      (∀ (hash2 : Word → Nat) (M : Nat), 1 ≤ M →
        ∃ d2, p.runSharded hash2 M = some d2 ∧ d2.shards_.length = M ∧
          ∀ w, d2.find? w = d.find? w) := by
  obtain ⟨d, hd, hlen, _, hf⟩ := runSharded_simulation hash N hN p
  refine ⟨d, hd, hlen, hf, ?_⟩
  intro hash2 M hM
  obtain ⟨d2, hd2, hlen2, _, hf2⟩ := runSharded_simulation hash2 M hM p
  exact ⟨d2, hd2, hlen2, fun w => by rw [hf2, hf]⟩

/-- The example history on two shards and on three shards with another hash function:
the word `a` has the entry `(2, {0, 1})` in both, as in the single table. -/
theorem sharded_refines_single_witness :
    (1 : Nat) ≤ 2 ∧
    demoHistory.runSingle.find? [97] = some ⟨2, {0, 1}⟩ ∧
    ∃ d, demoHistory.runSharded List.length 2 = some d ∧ d.shards_.length = 2 ∧
      (∀ w, d.find? w = demoHistory.runSingle.find? w) ∧
      (∀ (hash2 : Word → Nat) (M : Nat), 1 ≤ M →
        ∃ d2, demoHistory.runSharded hash2 M = some d2 ∧ d2.shards_.length = M ∧
          ∀ w, d2.find? w = d.find? w) :=
  ⟨by decide, by decide, sharded_refines_single List.length 2 (by decide) demoHistory⟩

/-! ## Pruning and merging -/

/-- Entries of count at least 1: an entry that the sum of the two pruned entries holds is
held, with a count at least as large and at least its ids, by the pruned sum of the two
entries. -/
theorem addOpt_filter_le (x y : Option Entry) (hx : ∀ e, x = some e → 1 ≤ e.wordCount)
    (hy : ∀ e, y = some e → 1 ≤ e.wordCount) (e : Entry)
    (h : addOpt (x.filter (fun e => decide (e.wordCount ≠ 1)))
      (y.filter (fun e => decide (e.wordCount ≠ 1))) = some e) :
    ∃ e2, (addOpt x y).filter (fun e => decide (e.wordCount ≠ 1)) = some e2 ∧
      e.wordCount ≤ e2.wordCount ∧ e.bookIds ⊆ e2.bookIds := by
  cases x with
  | none =>
    cases y with
    | none => cases h
    | some b =>
      by_cases hb : b.wordCount = 1
      · simp [Option.filter, hb, addOpt] at h
      · refine ⟨e, ?_, le_refl _, Finset.Subset.refl _⟩
        simp only [Option.filter, ne_eq, hb, not_false_eq_true, decide_True, if_true] at h
        simp only [addOpt, addEntry, countOf, idsOf, Option.getD_none, zero_add,
          Option.some.injEq] at h ⊢
        subst h
        simp [Option.filter, hb]
  | some a =>
    have ha1 := hx a rfl
    cases y with
    | none =>
      by_cases ha : a.wordCount = 1
      · simp [Option.filter, ha, addOpt] at h
      · refine ⟨e, ?_, le_refl _, Finset.Subset.refl _⟩
        simp only [Option.filter, ne_eq, ha, not_false_eq_true, decide_True, if_true,
          addOpt, Option.some.injEq] at h ⊢
        subst h
        simp [ha]
    | some b =>
      have hb1 := hy b rfl
      by_cases ha : a.wordCount = 1
      · by_cases hb : b.wordCount = 1
        · simp [Option.filter, ha, hb, addOpt] at h
        · simp only [Option.filter, ne_eq, ha, hb, not_false_eq_true, decide_True, if_true,
            not_true_eq_false, decide_False, Bool.false_eq_true, if_false,
            addOpt, addEntry, countOf, idsOf, Option.getD_none, Option.getD_some, zero_add,
            Option.some.injEq] at h ⊢
          subst h
          refine ⟨⟨1 + b.wordCount, a.bookIds ∪ b.bookIds⟩, ?_, ?_, ?_⟩
          · rw [if_pos (by simpa using (by omega : (1 : Int) + b.wordCount ≠ 1))]
          · show b.wordCount ≤ 1 + b.wordCount
            omega
          · exact Finset.union_subset_union (Finset.empty_subset _) (Finset.Subset.refl _)
      · by_cases hb : b.wordCount = 1
        · simp only [Option.filter, ne_eq, ha, hb, not_false_eq_true, decide_True, if_true,
            not_true_eq_false, decide_False, Bool.false_eq_true, if_false,
            addOpt, addEntry, countOf, idsOf, Option.getD_none, Option.getD_some, zero_add,
            Option.some.injEq] at h ⊢
          subst h
          refine ⟨⟨a.wordCount + 1, a.bookIds ∪ b.bookIds⟩, ?_, ?_, ?_⟩
          · rw [if_pos (by simpa using (by omega : a.wordCount + 1 ≠ 1))]
          · show a.wordCount ≤ a.wordCount + 1
            omega
          · exact Finset.subset_union_left
        · simp only [Option.filter, ne_eq, ha, hb, not_false_eq_true, decide_True, if_true,
            addOpt, addEntry, countOf, idsOf, Option.getD_none, Option.getD_some, zero_add,
            Option.some.injEq] at h ⊢
          subst h
          refine ⟨⟨a.wordCount + b.wordCount, a.bookIds ∪ b.bookIds⟩, ?_, le_refl _,
            Finset.Subset.refl _⟩
          rw [if_pos (by simpa using (by omega : a.wordCount + b.wordCount ≠ 1))]

/-! ## The sharded dictionary with `int` counts: one update and sequences of updates -/

theorem wrapInt_of_range (z : Int) (h1 : -2147483648 ≤ z) (h2 : z ≤ 2147483647) :
    wrapInt z = z := by
  unfold wrapInt
  omega

theorem wrapInt_range (z : Int) : -2147483648 ≤ wrapInt z ∧ wrapInt z ≤ 2147483647 := by
  unfold wrapInt
  omega

theorem wrapInt_add_left (a b : Int) : wrapInt (wrapInt a + b) = wrapInt (a + b) := by
  unfold wrapInt
  omega

theorem lookup_addToShardInt (shard : Shard) (word : Word) (count : Int) (ids : Finset Int)
    (w : Word) :
    (addToShardInt shard word count ids).lookup w =
      if w = word then addEntryInt (shard.lookup word) ⟨count, ids⟩ else shard.lookup w := by
  unfold addToShardInt
  by_cases h : w = word
  · subst h
    simp [AList.lookup_insert, addEntryInt, countOf, idsOf]
  · simp [AList.lookup_insert_ne h, h]

theorem insertInt_eq_mergeEntryInt (hash : Word → Nat) (self : ShardedConcurrentDictionary)
    (word : Word) (bookId : Int) :
    self.insertInt hash word bookId = self.mergeEntryInt hash word ⟨1, {bookId}⟩ := by
  unfold insertInt mergeEntryInt addToShardInt
  cases self.getShardIndex hash word with
  | none => rfl
  | some k =>
    dsimp only
    cases self.shards_[k]? with
    | none => rfl
    | some shard =>
      dsimp only
      rw [Finset.union_comm, ← Finset.insert_eq]

/-- One `(word, entry)` step of `merge` in `int` on a dictionary with at least one shard:
it succeeds, keeps the number of shards, and changes exactly the entry of `word` in the
shard `word` is routed to. -/
theorem mergeEntryInt_spec (hash : Word → Nat) (self : ShardedConcurrentDictionary)
    (word : Word) (e : Entry) (hN : 0 < self.shards_.length) :
    ∃ r, self.mergeEntryInt hash word e = some r ∧ r.shards_.length = self.shards_.length ∧
      ∀ i w, r.shardEntry i w =
        if i = hash word % self.shards_.length ∧ w = word
        then addEntryInt (self.shardEntry i w) e else self.shardEntry i w := by
  have hlt : hash word % self.shards_.length < self.shards_.length := Nat.mod_lt _ hN
  unfold mergeEntryInt
  rw [getShardIndex_pos hash self word hN]
  simp only [List.getElem?_eq_getElem hlt]
  refine ⟨_, rfl, by simp, ?_⟩
  intro i w
  rw [shardEntry_set _ _ _ hlt, lookup_addToShardInt]
  by_cases hi : i = hash word % self.shards_.length
  · by_cases hw : w = word
    · subst hw
      simp only [hi, and_self, if_true]
      unfold shardEntry
      simp [List.getElem?_eq_getElem hlt]
    · simp only [hi, hw, and_false, if_false, if_true]
      unfold shardEntry
      simp [List.getElem?_eq_getElem hlt]
  · simp [hi]

/-- Adding in `int` twice is adding the exact sum in `int` once. -/
theorem addOptInt_assoc (o x y : Option Entry) :
    addOptInt (addOptInt o x) y = addOptInt o (addOpt x y) := by
  cases y with
  | none => rfl
  | some e =>
    cases x with
    | none => simp [addOptInt, addOpt, addEntryInt, addEntry, countOf, idsOf]
    | some f =>
      simp only [addOptInt, addOpt, addEntryInt, addEntry, countOf, idsOf, Option.getD_some,
        Option.some.injEq, Entry.mk.injEq]
      exact ⟨by rw [wrapInt_add_left, add_assoc], Finset.union_assoc _ _ _⟩

theorem addOptInt_none_right (o : Option Entry) : addOptInt o none = o := rfl

/-- A sequence of `(word, entry)` steps of `merge` in `int`, in any order and with any
repetition, on a dictionary with at least one shard: it succeeds, keeps the number of
shards, and adds in `int` to the entry of every word, in the shard the word is routed to,
the sum of the entries the sequence holds for it. -/
theorem foldlM_mergeEntryInt_spec (hash : Word → Nat) :
    ∀ (l : List (Sigma fun _ : Word => Entry)) (self : ShardedConcurrentDictionary),
    0 < self.shards_.length →
    ∃ r, l.foldlM (fun acc p => mergeEntryInt hash acc p.1 p.2) self = some r ∧
      r.shards_.length = self.shards_.length ∧
      ∀ i w, r.shardEntry i w =
        if i = hash w % self.shards_.length
        then addOptInt (self.shardEntry i w) (sumEntries l w) else self.shardEntry i w := by
  intro l
  induction l with
  | nil =>
    intro self _
    exact ⟨self, rfl, rfl, fun i w => by simp [sumEntries, addOptInt]⟩
  | cons c t ih =>
    intro self hN
    obtain ⟨s1, h1, hlen1, hent1⟩ := mergeEntryInt_spec hash self c.1 c.2 hN
    obtain ⟨r, h2, hlen2, hent2⟩ := ih s1 (by omega)
    refine ⟨r, ?_, by omega, ?_⟩
    · rw [List.foldlM_cons, h1]
      exact h2
    · intro i w
      rw [hent2, hlen1, hent1]
      by_cases hi : i = hash w % self.shards_.length
      · by_cases hw : c.1 = w
        · subst hw
          simp only [hi, and_self, if_true, sumEntries]
          rw [← addOptInt_assoc]
          rfl
        · have hw' : ¬ w = c.1 := fun e => hw e.symm
          simp only [hi, hw, hw', and_false, if_false, if_true, sumEntries, addOpt_none_left]
      · have : ¬ (i = hash c.1 % self.shards_.length ∧ w = c.1) := by
          rintro ⟨h1, h2⟩
          subst h2
          exact hi h1
        simp only [hi, this, if_false]

theorem insertAllInt_eq_foldlM (hash : Word → Nat) (calls : List (Word × Int)) :
    ∀ self : ShardedConcurrentDictionary, self.insertAllInt hash calls
      = (calls.map (fun c => (⟨c.1, ⟨1, {c.2}⟩⟩ : Sigma fun _ : Word => Entry))).foldlM
          (fun acc p => mergeEntryInt hash acc p.1 p.2) self := by
  induction calls with
  | nil => intro self; rfl
  | cons c t ih =>
    intro self
    unfold insertAllInt at ih ⊢
    rw [List.map_cons, List.foldlM_cons, List.foldlM_cons, insertInt_eq_mergeEntryInt]
    cases self.mergeEntryInt hash c.1 ⟨1, {c.2}⟩ with
    | none => rfl
    | some s1 => exact ih s1

/-- A sequence of `insert` calls in `int` on a dictionary with at least one shard
succeeds, keeps the number of shards, and adds in `int` the tally of the calls to the
entry of every word in the shard the word is routed to. -/
theorem insertAllInt_spec (hash : Word → Nat) (calls : List (Word × Int))
    (self : ShardedConcurrentDictionary) (hN : 0 < self.shards_.length) :
    ∃ r, self.insertAllInt hash calls = some r ∧ r.shards_.length = self.shards_.length ∧
      ∀ i w, r.shardEntry i w =
        if i = hash w % self.shards_.length
        then addOptInt (self.shardEntry i w) (tally calls w) else self.shardEntry i w := by
  rw [insertAllInt_eq_foldlM]
  obtain ⟨r, h1, h2, h3⟩ := foldlM_mergeEntryInt_spec hash
    (calls.map (fun c => (⟨c.1, ⟨1, {c.2}⟩⟩ : Sigma fun _ : Word => Entry))) self hN
  exact ⟨r, h1, h2, fun i w => by rw [h3, sumEntries_calls]⟩

/-- The inner loop of `merge` in `int` over one table of the other dictionary. -/
theorem mergeShardInt_spec (hash : Word → Nat) (self : ShardedConcurrentDictionary)
    (otherShard : Shard) (hN : 0 < self.shards_.length) :
    ∃ r, self.mergeShardInt hash otherShard = some r ∧
      r.shards_.length = self.shards_.length ∧
      ∀ i w, r.shardEntry i w =
        if i = hash w % self.shards_.length
        then addOptInt (self.shardEntry i w) (otherShard.lookup w)
        else self.shardEntry i w := by
  obtain ⟨r, h1, h2, h3⟩ := foldlM_mergeEntryInt_spec hash otherShard.entries self hN
  refine ⟨r, h1, h2, fun i w => ?_⟩
  rw [h3, sumEntries_eq_dlookup _ otherShard.nodupKeys]
  rfl

/-- The outer loop of `merge` in `int` after `n` iterations, `n` at most the number of
shards of `other`. -/
theorem mergeInt_range_spec (hash : Word → Nat) (other : ShardedConcurrentDictionary)
    (n : Nat) (hn : n ≤ other.shards_.length) (self : ShardedConcurrentDictionary)
    (hN : 0 < self.shards_.length) :
    ∃ r, (List.range n).foldlM
        (fun acc i =>
          match other.shards_[i]? with
          | none => none
          | some otherShard => mergeShardInt hash acc otherShard) self = some r ∧
      r.shards_.length = self.shards_.length ∧
      ∀ i w, r.shardEntry i w =
        if i = hash w % self.shards_.length
        then ((List.range n).map (fun k => other.shardEntry k w)).foldl addOptInt
          (self.shardEntry i w)
        else self.shardEntry i w := by
  induction n with
  | zero => exact ⟨self, rfl, rfl, fun i w => by simp⟩
  | succ n ih =>
    obtain ⟨r1, h1, hlen1, hent1⟩ := ih (by omega)
    have hlt : n < other.shards_.length := by omega
    obtain ⟨r, h2, hlen2, hent2⟩ := mergeShardInt_spec hash r1 other.shards_[n] (by omega)
    refine ⟨r, ?_, by omega, ?_⟩
    · rw [List.range_succ, List.foldlM_append, h1]
      simp only [Option.bind_eq_bind, Option.some_bind, List.foldlM_cons, List.foldlM_nil,
        List.getElem?_eq_getElem hlt, h2]
      rfl
    · intro i w
      rw [hent2, hlen1, hent1]
      by_cases hi : i = hash w % self.shards_.length
      · simp only [hi, if_true, List.range_succ, List.map_append, List.map_cons, List.map_nil,
          List.foldl_append, List.foldl_cons, List.foldl_nil]
        congr 1
        rw [shardEntry_eq_bind, List.getElem?_eq_getElem hlt]
        rfl
      · simp only [hi, if_false]

theorem foldl_addOptInt_none (xs : List (Option Entry)) (h : ∀ x ∈ xs, x = none)
    (o : Option Entry) : xs.foldl addOptInt o = o := by
  induction xs generalizing o with
  | nil => rfl
  | cons x t ih =>
    have hx : x = none := h x (List.mem_cons_self _ _)
    subst hx
    exact ih (fun y hy => h y (List.mem_cons_of_mem _ hy)) o

/-- Adding in `int` a list of possibly absent entries of which at most one is present
adds that one. -/
theorem foldl_addOptInt_pairwise (xs : List (Option Entry))
    (h : xs.Pairwise (fun a b => a = none ∨ b = none)) (o : Option Entry) :
    xs.foldl addOptInt o = addOptInt o (xs.findSome? id) := by
  induction xs generalizing o with
  | nil => rfl
  | cons x t ih =>
    obtain ⟨hx, ht⟩ := List.pairwise_cons.1 h
    cases x with
    | none =>
      simpa [List.findSome?_cons, addOptInt] using ih ht o
    | some e =>
      have hall : ∀ y ∈ t, y = none := by
        intro y hy
        rcases hx y hy with h1 | h1
        · exact absurd h1 (by simp)
        · exact h1
      simp only [List.foldl_cons, List.findSome?_cons, id]
      rw [foldl_addOptInt_none t hall]

/-- The effect of `merge` in `int` on every shard of `self`, when `other` has as many
shards and stores every word in at most one of them: the entry of a word in the shard it
is routed to receives in `int` the entry `other` holds for it, nothing else changes. -/
theorem mergeInt_shardEntry (hash : Word → Nat) (self other : ShardedConcurrentDictionary)
    (hN : 0 < self.shards_.length) (hlen : other.shards_.length = self.shards_.length)
    (hother : other.AtMostOneShard) :
    ∃ r, self.mergeInt hash other = some r ∧ r.shards_.length = self.shards_.length ∧
      ∀ i w, r.shardEntry i w =
        if i = hash w % self.shards_.length
        then addOptInt (self.shardEntry i w) (other.find? w) else self.shardEntry i w := by
  obtain ⟨r, h1, h2, h3⟩ :=
    mergeInt_range_spec hash other self.shards_.length (by omega) self hN
  refine ⟨r, h1, h2, fun i w => ?_⟩
  rw [h3, ← hlen, map_shardEntry_range,
    foldl_addOptInt_pairwise _ (pairwise_of_atMostOneShard other hother w),
    ← find?_eq_findSome?_map]

/-- `merge` in `int` of two dictionaries with shard placement and the same number of
shards: it returns a dictionary with shard placement whose union reading adds in `int`,
word by word, the entries of `other` to those of `self`. -/
theorem mergeInt_placed (hash : Word → Nat) (N : Nat) (hN : 0 < N)
    (self other : ShardedConcurrentDictionary)
    (hs : self.shards_.length = N) (ho : other.shards_.length = N)
    (hps : self.Placed hash) (hpo : other.Placed hash) :
    ∃ r, self.mergeInt hash other = some r ∧ r.shards_.length = N ∧ r.Placed hash ∧
      ∀ w, r.find? w = addOptInt (self.find? w) (other.find? w) := by
  obtain ⟨r, h1, h2, h3⟩ := mergeInt_shardEntry hash self other (by omega) (by omega)
    (atMostOneShard_of_placed hash other hpo)
  have hrest : ∀ i w, i ≠ hash w % self.shards_.length →
      r.shardEntry i w = self.shardEntry i w := by
    intro i w hi
    rw [h3, if_neg hi]
  have hpr : r.Placed hash := placed_of_routed hash self r h2 hrest hps
  refine ⟨r, h1, by omega, hpr, fun w => ?_⟩
  rw [find?_eq_entry hash r hpr, find?_eq_entry hash self hps, entry, h2, h3, if_pos rfl]
  rfl

/-- A sequence of `insert` calls in `int` on an empty dictionary with at least one shard
succeeds and yields a dictionary with the same number of shards, with shard placement,
that reads as the tally of the calls with its count reduced to `int`. -/
theorem insertAllInt_new (hash : Word → Nat) (N : Nat) (hN : 0 < N)
    (calls : List (Word × Int)) :
    ∃ r, (new N).insertAllInt hash calls = some r ∧ r.shards_.length = N ∧ r.Placed hash ∧
      ∀ w, r.find? w = addOptInt none (tally calls w) := by
  obtain ⟨r, h1, h2, h3⟩ := insertAllInt_spec hash calls (new N) (by rw [length_new]; exact hN)
  rw [length_new] at h2 h3
  have hp : r.Placed hash := by
    apply placed_of_routed hash (new N) r (by rw [h2, length_new]) _ (placed_new hash N)
    intro i w hi
    rw [length_new] at hi
    rw [h3, if_neg hi]
  refine ⟨r, h1, h2, hp, fun w => ?_⟩
  rw [find?_eq_entry hash r hp, entry, h2, h3, if_pos rfl, shardEntry_new]

/-! ## `insert` with `int` counts -/

theorem tally_replicate_self (k : Nat) (hk : 1 ≤ k) (w : Word) (d : Int) :
    tally (List.replicate k (w, d)) w = some ⟨(k : Int), {d}⟩ := by
  have hne : List.replicate k d ≠ [] := by
    intro h
    have := congrArg List.length h
    simp at this
    omega
  simp only [tally, occurrences_replicate, hne, if_false, List.length_replicate,
    Option.some.injEq, Entry.mk.injEq, true_and]
  ext x
  simp only [List.mem_toFinset, List.mem_replicate, Finset.mem_singleton]
  constructor
  · exact fun h => h.2
  · exact fun h => ⟨by omega, h⟩

theorem tally_replicate_other (k : Nat) (w w2 : Word) (d : Int) (h : w2 ≠ w) :
    tally (List.replicate k (w, d)) w2 = none := by
  have : occurrences (List.replicate k (w, d)) w2 = [] := by
    rw [occurrences_eq_nil]
    rintro ⟨c, hc, hw⟩
    rw [List.mem_replicate] at hc
    rw [hc.2] at hw
    exact h hw.symm
  simp [tally, this]

theorem find?_singleShard (word : Word) (e : Entry) (w : Word) :
    find? ⟨[singleShard word e]⟩ w = if w = word then some e else none := by
  unfold find?
  simp only [List.findSome?_cons, List.findSome?_nil]
  rw [lookup_singleShard]
  split_ifs <;> rfl

/-- The dictionary with one shard that holds one word `k` times, `1 ≤ k ≤ INT_MAX`, is
what `k` calls of `insert` make of the empty dictionary. -/
theorem insertAllInt_replicate (hash : Word → Nat) (k : Nat) (hk : 1 ≤ k)
    (hmax : k ≤ 2147483647) (w : Word) (d : Int) :
    ∃ r, (new 1).insertAllInt hash (List.replicate k (w, d)) = some r ∧
      r.shards_.length = 1 ∧ r.Placed hash ∧
      ∀ w2, r.find? w2 = find? ⟨[singleShard w ⟨(k : Int), {d}⟩]⟩ w2 := by
  obtain ⟨r, h1, h2, h3, h4⟩ := insertAllInt_new hash 1 (by decide) (List.replicate k (w, d))
  refine ⟨r, h1, h2, h3, fun w2 => ?_⟩
  rw [h4, find?_singleShard]
  by_cases h : w2 = w
  · subst h
    rw [if_pos rfl, tally_replicate_self k hk]
    simp only [addOptInt, addEntryInt, countOf, idsOf, Option.getD_none, zero_add,
      Finset.empty_union, Option.some.injEq, Entry.mk.injEq, and_true]
    exact wrapInt_of_range _ (by omega) (by omega)
  · rw [if_neg h, tally_replicate_other k w w2 d h]
    rfl

/-- C2 (amended): for every dictionary with at least one shard, `insert(word, bookId)`
returns, and afterwards the entry of `word` (in the shard `getShardIndex(word)`, where the
code keeps it) has its previous `wordCount` plus 1 computed in `int`, which is the
previous count plus 1 when the previous count is an `int` below `INT_MAX = 2^31 - 1` and
`-2^31` when it is `INT_MAX`, and its previous id set with `bookId` added, absent counting
as 0 and as the empty set; the entry of every other word in every shard, and every other
shard, is unchanged; the number of shards is unchanged. When the dictionary obeys shard
placement so does the result, and the same holds for the dictionary read as the union of
its shards. -/
theorem insertInt_spec (hash : Word → Nat) (self : ShardedConcurrentDictionary) (word : Word)
    (bookId : Int) (hN : 1 ≤ self.shards_.length) :
    ∃ r, self.insertInt hash word bookId = some r ∧
      r.shards_.length = self.shards_.length ∧
      r.entry hash word = some ⟨wrapInt (countOf (self.entry hash word) + 1),
        Insert.insert bookId (idsOf (self.entry hash word))⟩ ∧
      (-2147483648 ≤ countOf (self.entry hash word) →
        countOf (self.entry hash word) < 2147483647 →
        r.entry hash word = some ⟨countOf (self.entry hash word) + 1,
          Insert.insert bookId (idsOf (self.entry hash word))⟩) ∧
      (countOf (self.entry hash word) = 2147483647 →
        r.entry hash word = some ⟨-2147483648,
          Insert.insert bookId (idsOf (self.entry hash word))⟩) ∧
      (∀ i w, (w ≠ word ∨ i ≠ hash word % self.shards_.length) →
        r.shardEntry i w = self.shardEntry i w) ∧
      (self.Placed hash → r.Placed hash ∧
        r.find? word = some ⟨wrapInt (countOf (self.find? word) + 1),
          Insert.insert bookId (idsOf (self.find? word))⟩ ∧
        ∀ w, w ≠ word → r.find? w = self.find? w) := by
  obtain ⟨r, h1, h2, h3⟩ := mergeEntryInt_spec hash self word ⟨1, {bookId}⟩ (by omega)
  have hentry : r.entry hash word = some ⟨wrapInt (countOf (self.entry hash word) + 1),
      Insert.insert bookId (idsOf (self.entry hash word))⟩ := by
    rw [entry, h2, h3]
    simp only [and_self, if_true, addEntryInt, entry]
    rw [Finset.union_comm, ← Finset.insert_eq]
  have hrest : ∀ i w, (w ≠ word ∨ i ≠ hash word % self.shards_.length) →
      r.shardEntry i w = self.shardEntry i w := by
    intro i w hne
    rw [h3, if_neg]
    rintro ⟨hi, hw⟩
    rcases hne with h | h
    · exact h hw
    · exact h hi
  refine ⟨r, by rw [insertInt_eq_mergeEntryInt]; exact h1, h2, hentry, ?_, ?_, hrest,
    fun hp => ?_⟩
  · intro hlo hhi
    rw [hentry, wrapInt_of_range _ (by omega) (by omega)]
  · intro hmax
    rw [hentry, hmax]
    rfl
  have hpr : r.Placed hash := by
    apply placed_of_routed hash self r h2 _ hp
    intro i w hi
    by_cases hw : w = word
    · subst hw; exact hrest i w (Or.inr hi)
    · exact hrest i w (Or.inl hw)
  refine ⟨hpr, ?_, fun w hw => ?_⟩
  · rw [find?_eq_entry hash r hpr, find?_eq_entry hash self hp]
    exact hentry
  · rw [find?_eq_entry hash r hpr, find?_eq_entry hash self hp, entry, entry, h2]
    exact hrest _ w (Or.inl hw)

/-- The word `a`, held once in shard 1 of two, is inserted again: count 2. -/
theorem insertInt_spec_witness :
    1 ≤ demoSelf.shards_.length ∧
    (demoSelf.insertInt List.length [97] 5).map (fun d => d.find? [97])
      = some (some ⟨2, {5, 0}⟩) ∧
    ∃ r, demoSelf.insertInt List.length [97] 5 = some r ∧
      r.shards_.length = demoSelf.shards_.length ∧
      r.entry List.length [97]
        = some ⟨wrapInt (countOf (demoSelf.entry List.length [97]) + 1),
            Insert.insert 5 (idsOf (demoSelf.entry List.length [97]))⟩ ∧
      (∀ i w, (w ≠ [97] ∨ i ≠ List.length [97] % demoSelf.shards_.length) →
        r.shardEntry i w = demoSelf.shardEntry i w) := by
  obtain ⟨r, h1, h2, h3, _, _, h6, _⟩ := insertInt_spec List.length demoSelf [97] 5 (by decide)
  exact ⟨by decide, by decide, r, h1, h2, h3, h6⟩

/-- C2, counterexample to the claim as stated: the dictionary with one shard that holds
the word `a` `INT_MAX = 2^31 - 1` times is what `2^31 - 1` calls `insert("a", 0)` make of
the empty dictionary (no count leaves the range of `int` on the way); one more
`insert("a", 0)` gives `a` the `wordCount` `-2^31`, which is not the previous count plus
1. -/
theorem insertInt_counterexample :
    (∃ d, (new 1).insertAllInt List.length (List.replicate 2147483647 ([97], 0)) = some d ∧
      ∀ w, d.find? w = demoFull.find? w) ∧
    1 ≤ demoFull.shards_.length ∧
    demoFull.find? [97] = some ⟨2147483647, {0}⟩ ∧
    (demoFull.insertInt List.length [97] 0).map (fun d => d.find? [97])
      = some (some ⟨-2147483648, {0}⟩) ∧
    (-2147483648 : Int) ≠ 2147483647 + 1 := by
  refine ⟨?_, by decide, by decide, by decide, by decide⟩
  obtain ⟨d, h1, _, _, h4⟩ := insertAllInt_replicate List.length 2147483647 (by decide)
    (by decide) [97] 0
  exact ⟨d, h1, h4⟩

/-- C3 (amended): for every sequence of `insert(w_i, d_i)` calls applied to the empty
dictionary with `N ≥ 1` shards, the calls all return, and in the result every word `w` is
present iff some call names it, its `wordCount` is the number of calls that name it
reduced to `int`, which is that number itself when it is at most `INT_MAX = 2^31 - 1`,
and its `bookIds` the set of the `d_i` of those calls; in particular `k` calls
`insert(w, d)`, `1 ≤ k ≤ 2^31 - 1`, give `w` the entry `(k, {d})`. -/
theorem insertAllInt_new_spec (hash : Word → Nat) (N : Nat) (hN : 1 ≤ N)
    (calls : List (Word × Int)) :
    ∃ r, (new N).insertAllInt hash calls = some r ∧
      (∀ w, ((r.find? w).isSome = true ↔ ∃ c ∈ calls, c.1 = w) ∧
        countOf (r.find? w)
          = wrapInt ((calls.filter (fun c => decide (c.1 = w))).length : Int) ∧
        ((calls.filter (fun c => decide (c.1 = w))).length ≤ 2147483647 →
          countOf (r.find? w) = ((calls.filter (fun c => decide (c.1 = w))).length : Int)) ∧
        idsOf (r.find? w)
          = ((calls.filter (fun c => decide (c.1 = w))).map Prod.snd).toFinset) ∧
      (∀ w d k, 1 ≤ k → k ≤ 2147483647 → calls = List.replicate k (w, d) →
        r.find? w = some ⟨(k : Int), {d}⟩) := by
  obtain ⟨r, h1, _, _, h4⟩ := insertAllInt_new hash N (by omega) calls
  have hcount : ∀ w, countOf (r.find? w)
      = wrapInt ((calls.filter (fun c => decide (c.1 = w))).length : Int) := by
    intro w
    rw [h4]
    by_cases ho : occurrences calls w = []
    · have ho' := ho
      simp only [occurrences, List.map_eq_nil_iff] at ho'
      simp only [tally, ho, if_true, addOptInt, countOf, Option.getD_none, ho',
        List.length_nil]
      rfl
    · simp only [tally, ho, if_false, addOptInt, addEntryInt, countOf, Option.getD_some,
        Option.getD_none, zero_add]
      simp [occurrences]
  refine ⟨r, h1, fun w => ⟨?_, hcount w, ?_, ?_⟩, fun w d k hk hmax hcalls => ?_⟩
  · rw [h4]
    by_cases ho : occurrences calls w = []
    · have hno := (occurrences_eq_nil calls w).1 ho
      simp only [tally, ho, if_true, addOptInt, Option.isSome_none]
      exact ⟨fun h => Bool.noConfusion h, fun h => absurd h hno⟩
    · have hyes : ∃ c ∈ calls, c.1 = w := by
        by_contra hcon
        exact ho ((occurrences_eq_nil calls w).2 hcon)
      simp only [tally, ho, if_false, addOptInt, addEntryInt, Option.isSome_some, true_iff]
      exact hyes
  · intro hle
    rw [hcount, wrapInt_of_range _ (by omega) (by omega)]
  · rw [h4]
    by_cases ho : occurrences calls w = []
    · have ho' := ho
      simp only [occurrences] at ho'
      simp only [tally, ho, if_true, addOptInt, idsOf, Option.getD_none]
      rw [ho']; rfl
    · simp only [tally, ho, if_false, addOptInt, addEntryInt, idsOf, Option.getD_some,
        Option.getD_none, Finset.empty_union]
      rfl
  · rw [h4, hcalls, tally_replicate_self k hk]
    simp only [addOptInt, addEntryInt, countOf, idsOf, Option.getD_none, zero_add,
      Finset.empty_union, Option.some.injEq, Entry.mk.injEq, and_true]
    exact wrapInt_of_range _ (by omega) (by omega)

/-- Three calls on an empty dictionary with three shards: the word `a` is named twice,
by documents 0 and 1. -/
theorem insertAllInt_new_spec_witness :
    (1 : Nat) ≤ 3 ∧
    ((new 3).insertAllInt List.length [([97], 0), ([98, 99], 1), ([97], 1)]).map
        (fun d => d.find? [97]) = some (some ⟨2, {1, 0}⟩) ∧
    ∃ r, (new 3).insertAllInt List.length [([97], 0), ([98, 99], 1), ([97], 1)] = some r ∧
      ((r.find? [97]).isSome = true ↔
        ∃ c ∈ [(([97] : Word), (0 : Int)), ([98, 99], 1), ([97], 1)], c.1 = [97]) ∧
      countOf (r.find? [97]) = 2 ∧ idsOf (r.find? [97]) = {0, 1} := by
  obtain ⟨r, h1, h2, _⟩ := insertAllInt_new_spec List.length 3 (by decide)
    [([97], 0), ([98, 99], 1), ([97], 1)]
  obtain ⟨ha, _, hc, hd⟩ := h2 [97]
  refine ⟨by decide, by decide, r, h1, ha, ?_, ?_⟩
  · rw [hc (by decide)]
    decide
  · rw [hd]
    decide

/-- C3, counterexample to the claim as stated: `2^31` calls `insert("a", 0)` applied to
the empty dictionary with one shard give `a` the `wordCount` `-2^31`, not the number
`2^31` of calls that name it. -/
theorem insertAllInt_counterexample :
    ((List.replicate 2147483648 (([97] : Word), (0 : Int))).filter
      (fun c => decide (c.1 = [97]))).length = 2147483648 ∧
    ∃ r, (new 1).insertAllInt List.length (List.replicate 2147483648 ([97], 0)) = some r ∧
      r.find? [97] = some ⟨-2147483648, {0}⟩ ∧ countOf (r.find? [97]) ≠ 2147483648 := by
  constructor
  · rw [List.filter_eq_self.2 (fun c hc => by rw [(List.mem_replicate.1 hc).2]; rfl),
      List.length_replicate]
  · obtain ⟨r, h1, _, _, h4⟩ := insertAllInt_new List.length 1 (by decide)
      (List.replicate 2147483648 ([97], 0))
    have hf : r.find? [97] = some ⟨-2147483648, {0}⟩ := by
      rw [h4, tally_replicate_self 2147483648 (by decide)]
      simp only [addOptInt, addEntryInt, countOf, idsOf, Option.getD_none, zero_add,
        Finset.empty_union, Option.some.injEq, Entry.mk.injEq, and_true]
      decide
    refine ⟨r, h1, hf, ?_⟩
    rw [hf]
    decide

/-! ## `merge` with `int` counts -/

theorem isSome_addOptInt (o x : Option Entry) :
    (addOptInt o x).isSome = (o.isSome || x.isSome) := by
  cases x with
  | none => simp [addOptInt]
  | some e => simp [addOptInt, addEntryInt]

theorem idsOf_addOptInt (o x : Option Entry) : idsOf (addOptInt o x) = idsOf o ∪ idsOf x := by
  cases x with
  | none => simp [addOptInt, idsOf]
  | some e => simp [addOptInt, addEntryInt, idsOf]

theorem countOf_addOptInt (o x : Option Entry) :
    countOf (addOptInt o x)
      = if x.isSome = true then wrapInt (countOf o + countOf x) else countOf o := by
  cases x with
  | none => simp [addOptInt]
  | some e => simp [addOptInt, addEntryInt, countOf]

/-- When the exact sum is an `int`, adding in `int` is adding. -/
theorem addOptInt_eq_addOpt (o x : Option Entry)
    (h1 : -2147483648 ≤ countOf o + countOf x) (h2 : countOf o + countOf x ≤ 2147483647) :
    addOptInt o x = addOpt o x := by
  cases x with
  | none => rfl
  | some e =>
    simp only [countOf, Option.getD_some] at h1 h2
    simp only [addOptInt, addOpt, addEntryInt, addEntry, Option.some.injEq, Entry.mk.injEq,
      and_true]
    exact wrapInt_of_range _ h1 h2

/-- C4 (amended): for two dictionaries `self` and `other` with the same number `N ≥ 1` of
shards, `other` storing every word in at most one shard, `self.merge(other)` returns, and
afterwards, for every word `w`, with the entry of `w` in `self` read in the shard
`getShardIndex(w)` and its entry in `other` read in the one shard of `other` that stores
it: `w` is present iff it was present in `self` or in `other`; its `wordCount` is the sum
of its previous counts in `self` and in `other` computed in `int` (unchanged when `other`
does not hold `w`), which is the sum itself whenever the sum lies in the range of `int`,
`-2^31 .. 2^31 - 1`; its `bookIds` is the union of its previous id sets (absent: 0 and the
empty set); no other shard of `self` changes. When `self` obeys shard placement so does
the result and the same holds for the union reading `find?` of `self`. `other` is a value
that `merge` only reads. -/
theorem mergeInt_spec (hash : Word → Nat) (self other : ShardedConcurrentDictionary)
    (hN : 1 ≤ self.shards_.length) (hlen : other.shards_.length = self.shards_.length)
    (hother : other.AtMostOneShard) :
    ∃ r, self.mergeInt hash other = some r ∧
      r.shards_.length = self.shards_.length ∧
      (∀ w, ((r.entry hash w).isSome = true ↔
            ((self.entry hash w).isSome = true ∨ (other.find? w).isSome = true)) ∧
        countOf (r.entry hash w)
          = (if (other.find? w).isSome = true
              then wrapInt (countOf (self.entry hash w) + countOf (other.find? w))
              else countOf (self.entry hash w)) ∧
        (-2147483648 ≤ countOf (self.entry hash w) + countOf (other.find? w) →
          countOf (self.entry hash w) + countOf (other.find? w) ≤ 2147483647 →
          countOf (r.entry hash w)
            = countOf (self.entry hash w) + countOf (other.find? w)) ∧
        idsOf (r.entry hash w) = idsOf (self.entry hash w) ∪ idsOf (other.find? w)) ∧
      (∀ i w, i ≠ hash w % self.shards_.length → r.shardEntry i w = self.shardEntry i w) ∧
      (self.Placed hash → r.Placed hash ∧ ∀ w,
        ((r.find? w).isSome = true ↔
            ((self.find? w).isSome = true ∨ (other.find? w).isSome = true)) ∧
        countOf (r.find? w)
          = (if (other.find? w).isSome = true
              then wrapInt (countOf (self.find? w) + countOf (other.find? w))
              else countOf (self.find? w)) ∧
        (-2147483648 ≤ countOf (self.find? w) + countOf (other.find? w) →
          countOf (self.find? w) + countOf (other.find? w) ≤ 2147483647 →
          countOf (r.find? w) = countOf (self.find? w) + countOf (other.find? w)) ∧
        idsOf (r.find? w) = idsOf (self.find? w) ∪ idsOf (other.find? w)) := by
  obtain ⟨r, h1, h2, h3⟩ := mergeInt_shardEntry hash self other (by omega) hlen hother
  have hent : ∀ w, r.entry hash w = addOptInt (self.entry hash w) (other.find? w) := by
    intro w
    rw [entry, h2, h3, if_pos rfl]
    rfl
  have hrest : ∀ i w, i ≠ hash w % self.shards_.length →
      r.shardEntry i w = self.shardEntry i w := by
    intro i w hi
    rw [h3, if_neg hi]
  have hfour : ∀ a b c : Option Entry, a = addOptInt b c →
      ((a.isSome = true ↔ (b.isSome = true ∨ c.isSome = true)) ∧
        countOf a = (if c.isSome = true then wrapInt (countOf b + countOf c)
          else countOf b) ∧
        (-2147483648 ≤ countOf b + countOf c → countOf b + countOf c ≤ 2147483647 →
          countOf a = countOf b + countOf c) ∧
        idsOf a = idsOf b ∪ idsOf c) := by
    intro a b c h
    subst h
    refine ⟨?_, countOf_addOptInt b c, ?_, idsOf_addOptInt b c⟩
    · rw [isSome_addOptInt, Bool.or_eq_true]
    · intro hlo hhi
      rw [addOptInt_eq_addOpt b c hlo hhi, countOf_addOpt]
  refine ⟨r, h1, h2, fun w => hfour _ _ _ (hent w), hrest, fun hp => ?_⟩
  have hpr : r.Placed hash := placed_of_routed hash self r h2 hrest hp
  refine ⟨hpr, fun w => hfour _ _ _ ?_⟩
  rw [find?_eq_entry hash r hpr, find?_eq_entry hash self hp]
  exact hent w

/-- The word `a` is held once by `demoSelf` and three times by `demoOther`, the word `bc`
twice by `demoOther` only. -/
theorem mergeInt_spec_witness :
    1 ≤ demoSelf.shards_.length ∧ demoOther.shards_.length = demoSelf.shards_.length ∧
    demoOther.AtMostOneShard ∧
    (demoSelf.mergeInt List.length demoOther).map (fun d => (d.find? [97], d.find? [98, 99]))
      = some (some ⟨4, {0, 2}⟩, some ⟨2, {1}⟩) ∧
    ∃ r, demoSelf.mergeInt List.length demoOther = some r ∧
      countOf (r.entry List.length [97])
        = countOf (demoSelf.entry List.length [97]) + countOf (demoOther.find? [97]) ∧
      idsOf (r.entry List.length [97])
        = idsOf (demoSelf.entry List.length [97]) ∪ idsOf (demoOther.find? [97]) := by
  have ho : demoOther.AtMostOneShard :=
    atMostOneShard_of_placed List.length demoOther placed_demoOther
  obtain ⟨r, h1, _, h3, _⟩ := mergeInt_spec List.length demoSelf demoOther (by decide) rfl ho
  obtain ⟨_, _, hc, hd⟩ := h3 [97]
  exact ⟨by decide, rfl, ho, by decide, r, h1, hc (by decide) (by decide), hd⟩

/-- C4, counterexample to the claim as stated: two dictionaries with one shard that each
hold the word `a` `2^30` times (each is what `2^30` calls of `insert` make of the empty
dictionary); after `self.merge(other)` the `wordCount` of `a` is `-2^31`, not the sum
`2^31` of the two previous counts. -/
theorem mergeInt_counterexample :
    (∃ d, (new 1).insertAllInt List.length (List.replicate 1073741824 ([97], 0)) = some d ∧
      ∀ w, d.find? w = demoHalf.find? w) ∧
    (∃ d, (new 1).insertAllInt List.length (List.replicate 1073741824 ([97], 1)) = some d ∧
      ∀ w, d.find? w = demoHalfTwin.find? w) ∧
    demoHalf.shards_.length = 1 ∧ demoHalfTwin.shards_.length = 1 ∧
    demoHalf.AtMostOneShard ∧ demoHalfTwin.AtMostOneShard ∧
    demoHalf.find? [97] = some ⟨1073741824, {0}⟩ ∧
    demoHalfTwin.find? [97] = some ⟨1073741824, {1}⟩ ∧
    (demoHalf.mergeInt List.length demoHalfTwin).map (fun d => d.find? [97])
      = some (some ⟨-2147483648, {0, 1}⟩) ∧
    (-2147483648 : Int) ≠ 1073741824 + 1073741824 := by
  have hone : ∀ (e : Entry), AtMostOneShard ⟨[singleShard [97] e]⟩ := by
    intro e i j w hi hj
    have hi' : i = 0 := by
      by_contra hne
      have : shardEntry ⟨[singleShard [97] e]⟩ i w = none := by
        rw [shardEntry_eq_bind]
        rcases i with _ | i
        · exact absurd rfl hne
        · rfl
      rw [this] at hi
      exact Bool.noConfusion hi
    have hj' : j = 0 := by
      by_contra hne
      have : shardEntry ⟨[singleShard [97] e]⟩ j w = none := by
        rw [shardEntry_eq_bind]
        rcases j with _ | j
        · exact absurd rfl hne
        · rfl
      rw [this] at hj
      exact Bool.noConfusion hj
    rw [hi', hj']
  refine ⟨?_, ?_, rfl, rfl, hone _, hone _, by decide, by decide, by decide, by decide⟩
  · obtain ⟨d, h1, _, _, h4⟩ := insertAllInt_replicate List.length 1073741824 (by decide)
      (by decide) [97] 0
    exact ⟨d, h1, h4⟩
  · obtain ⟨d, h1, _, _, h4⟩ := insertAllInt_replicate List.length 1073741824 (by decide)
      (by decide) [97] 1
    exact ⟨d, h1, h4⟩

/-! ## Pruning and merging with `int` counts -/

theorem placed_one_shard (hash : Word → Nat) (d : ShardedConcurrentDictionary)
    (h : d.shards_.length = 1) : d.Placed hash := by
  intro i w hi
  rw [h, Nat.mod_one]
  by_contra hne
  have : d.shardEntry i w = none := by
    rw [shardEntry_eq_bind, List.getElem?_eq_none (by omega)]
    rfl
  rw [this] at hi
  exact Bool.noConfusion hi

theorem countOf_filter (o : Option Entry) (h : ∀ e, o = some e → 1 ≤ e.wordCount) :
    0 ≤ countOf (o.filter (fun e => decide (e.wordCount ≠ 1))) ∧
    countOf (o.filter (fun e => decide (e.wordCount ≠ 1))) ≤ countOf o := by
  cases o with
  | none => exact ⟨le_refl _, le_refl _⟩
  | some a =>
    have ha := h a rfl
    by_cases h1 : a.wordCount = 1
    · simp only [Option.filter, h1, ne_eq, not_true_eq_false, decide_False,
        Bool.false_eq_true, if_false, countOf, Option.getD_none, Option.getD_some]
      exact ⟨le_refl _, by decide⟩
    · simp only [Option.filter, h1, ne_eq, not_false_eq_true, decide_True, if_true, countOf,
        Option.getD_some]
      exact ⟨by omega, le_refl _⟩

/-- The two pipelines with `int` counts on dictionaries with shard placement and the same
number `N ≥ 1` of shards: both return, merge-then-prune reads as the pruned sum and
prune-then-merge as the sum of the pruned entries, sums taken in `int`. -/
theorem prune_mergeInt_reading (hash : Word → Nat) (N : Nat) (hN : 0 < N)
    (A B : ShardedConcurrentDictionary) (hA : A.shards_.length = N) (hB : B.shards_.length = N)
    (hpA : A.Placed hash) (hpB : B.Placed hash) :
    ∃ mp pm, A.mergeInt hash B = some mp ∧
      A.removeSingleOccurrences.mergeInt hash B.removeSingleOccurrences = some pm ∧
      (∀ w, mp.removeSingleOccurrences.find? w
        = (addOptInt (A.find? w) (B.find? w)).filter (fun e => decide (e.wordCount ≠ 1))) ∧
      (∀ w, pm.find? w
        = addOptInt ((A.find? w).filter (fun e => decide (e.wordCount ≠ 1)))
            ((B.find? w).filter (fun e => decide (e.wordCount ≠ 1)))) := by
  obtain ⟨mp, h1, _, hpm, hf⟩ := mergeInt_placed hash N hN A B hA hB hpA hpB
  obtain ⟨pm, h2, _, _, hg⟩ := mergeInt_placed hash N hN A.removeSingleOccurrences
    B.removeSingleOccurrences (by rw [length_removeSingleOccurrences, hA])
    (by rw [length_removeSingleOccurrences, hB])
    (placed_removeSingleOccurrences hash A hpA) (placed_removeSingleOccurrences hash B hpB)
  refine ⟨mp, pm, h1, h2, fun w => ?_, fun w => ?_⟩
  · rw [find?_removeSingleOccurrences_placed hash mp hpm, hf]
  · rw [hg, find?_removeSingleOccurrences_placed hash A hpA,
      find?_removeSingleOccurrences_placed hash B hpB]

theorem mergeInt_no_shard (hash : Word → Nat) (d other : ShardedConcurrentDictionary)
    (h : d.shards_.length = 0) : d.mergeInt hash other = some d := by
  unfold mergeInt
  rw [h]
  rfl

/-- An empty dictionary after one `insert` with `int` counts. -/
theorem insertInt_new_find? (hash : Word → Nat) (N : Nat) (hN : 1 ≤ N) (w : Word) (a : Int) :
    ∃ A, (new N).insertInt hash w a = some A ∧
      A.shards_.length = N ∧ A.Placed hash ∧ A.find? w = some ⟨1, {a}⟩ := by
  obtain ⟨A, h1, h2, h3, h4⟩ := insertAllInt_new hash N (by omega) [(w, a)]
  refine ⟨A, ?_, h2, h3, ?_⟩
  · simp only [insertAllInt, List.foldlM_cons, List.foldlM_nil] at h1
    cases hA : (new N).insertInt hash w a with
    | none => rw [hA] at h1; cases h1
    | some A2 =>
      rw [hA] at h1
      exact h1
  · rw [h4, show [(w, a)] = List.replicate 1 (w, a) from rfl,
      tally_replicate_self 1 (le_refl 1)]
    rfl

/-- C22 (amended): `removeSingleOccurrences` does not distribute over `merge`. For every
shard count `N ≥ 1`, hash function, word `w` and document ids `a`, `b`: the dictionaries
`A` and `B` that `insert(w, a)` resp. `insert(w, b)` make of an empty dictionary hold `w`
with `wordCount` 1; merging `B` into `A` and then pruning keeps `w` with `wordCount` 2,
and pruning `A` and `B` first and then merging yields a dictionary without `w`. For all
dictionaries `A` and `B` with the same shard count that store every word in the shard
it is routed to, both pipelines return, and every word present after prune-then-merge
whose counts in `A` and in `B` are at least 1 where it is present and sum to at most
`INT_MAX = 2^31 - 1` is present after merge-then-prune with a `wordCount` at least as
large. Counts are `int`s. -/
theorem prune_must_follow_merge (hash : Word → Nat) (N : Nat) :
    (1 ≤ N → ∀ (w : Word) (a b : Int), ∃ A B mp pm,
      (new N).insertInt hash w a = some A ∧ (new N).insertInt hash w b = some B ∧
      A.find? w = some ⟨1, {a}⟩ ∧ B.find? w = some ⟨1, {b}⟩ ∧
      A.mergeInt hash B = some mp ∧
      mp.removeSingleOccurrences.find? w = some ⟨2, {a} ∪ {b}⟩ ∧
      A.removeSingleOccurrences.mergeInt hash B.removeSingleOccurrences = some pm ∧
      pm.find? w = none) ∧
    (∀ A B : ShardedConcurrentDictionary,
      A.shards_.length = N → B.shards_.length = N → A.Placed hash → B.Placed hash →
      ∃ mp pm : ShardedConcurrentDictionary, A.mergeInt hash B = some mp ∧
        A.removeSingleOccurrences.mergeInt hash B.removeSingleOccurrences = some pm ∧
        ∀ (w : Word) (e : Entry), pm.find? w = some e →
          (∀ x : Entry, A.find? w = some x → 1 ≤ x.wordCount) →
          (∀ y : Entry, B.find? w = some y → 1 ≤ y.wordCount) →
          countOf (A.find? w) + countOf (B.find? w) ≤ 2147483647 →
          ∃ e2, mp.removeSingleOccurrences.find? w = some e2 ∧
            e.wordCount ≤ e2.wordCount) := by
  refine ⟨?_, ?_⟩
  · intro hN w a b
    obtain ⟨A, hiA, hlA, hpA, hfA⟩ := insertInt_new_find? hash N hN w a
    obtain ⟨B, hiB, hlB, hpB, hfB⟩ := insertInt_new_find? hash N hN w b
    obtain ⟨mp, pm, h1, h2, e1, e2⟩ :=
      prune_mergeInt_reading hash N (by omega) A B hlA hlB hpA hpB
    refine ⟨A, B, mp, pm, hiA, hiB, hfA, hfB, h1, ?_, h2, ?_⟩
    · rw [e1, hfA, hfB]
      rfl
    · rw [e2, hfA, hfB]
      rfl
  · intro A B hlA hlB hpA hpB
    rcases Nat.eq_zero_or_pos N with h0 | hpos
    · refine ⟨A, A.removeSingleOccurrences, mergeInt_no_shard hash A B (by omega),
        mergeInt_no_shard hash _ _ (by rw [length_removeSingleOccurrences]; omega), ?_⟩
      intro w e he
      have hnil : A.shards_ = [] := List.length_eq_zero.1 (by omega)
      simp [find?, removeSingleOccurrences, hnil] at he
    · obtain ⟨mp, pm, h1, h2, e1, e2⟩ :=
        prune_mergeInt_reading hash N hpos A B hlA hlB hpA hpB
      refine ⟨mp, pm, h1, h2, ?_⟩
      intro w e he hx hy hsum
      have cA : 0 ≤ countOf (A.find? w) := by
        cases hfa : A.find? w with
        | none => exact le_refl _
        | some x => exact le_trans (by decide) (hx x hfa)
      have cB : 0 ≤ countOf (B.find? w) := by
        cases hfb : B.find? w with
        | none => exact le_refl _
        | some y => exact le_trans (by decide) (hy y hfb)
      obtain ⟨fA1, fA2⟩ := countOf_filter (A.find? w) hx
      obtain ⟨fB1, fB2⟩ := countOf_filter (B.find? w) hy
      rw [e2, addOptInt_eq_addOpt _ _ (by omega) (by omega)] at he
      rw [e1, addOptInt_eq_addOpt _ _ (by omega) (by omega)]
      obtain ⟨e3, h3, h4, _⟩ := addOpt_filter_le _ _ hx hy e he
      exact ⟨e3, h3, h4⟩

/-- The word `a` is held three times by `demoOther` and once by `demoSelf`: after
prune-then-merge its count is 3, after merge-then-prune it is 4. -/
theorem prune_must_follow_merge_witness :
    demoOther.Placed List.length ∧ demoSelf.Placed List.length ∧
    (demoOther.removeSingleOccurrences.mergeInt List.length
        demoSelf.removeSingleOccurrences).map (fun d => d.find? [97])
      = some (some ⟨3, {2}⟩) ∧
    (demoOther.mergeInt List.length demoSelf).map
        (fun d => d.removeSingleOccurrences.find? [97]) = some (some ⟨4, {2, 0}⟩) ∧
    ∃ mp e2, demoOther.mergeInt List.length demoSelf = some mp ∧
      mp.removeSingleOccurrences.find? [97] = some e2 ∧ (3 : Int) ≤ e2.wordCount := by
  have hpm : (demoOther.removeSingleOccurrences.mergeInt List.length
      demoSelf.removeSingleOccurrences).map (fun d => d.find? [97])
        = some (some ⟨3, {2}⟩) := by decide
  refine ⟨placed_demoOther, placed_demoSelf, hpm, by decide, ?_⟩
  obtain ⟨mp, pm, h1, h2, h3⟩ := (prune_must_follow_merge List.length 2).2 demoOther demoSelf
    rfl rfl placed_demoOther placed_demoSelf
  rw [h2] at hpm
  have hA : demoOther.find? [97] = some ⟨3, {2}⟩ := by decide
  have hB : demoSelf.find? [97] = some ⟨1, {0}⟩ := by decide
  obtain ⟨e2, h4, h5⟩ := h3 [97] ⟨3, {2}⟩ (Option.some.inj hpm)
    (fun x hx => by rw [hA] at hx; cases hx; decide)
    (fun y hy => by rw [hB] at hy; cases hy; decide)
    (by rw [hA, hB]; decide)
  exact ⟨mp, e2, h1, h4, h5⟩

/-- C22, counterexample to the claim as stated: `A` holds the word `a` `INT_MAX` times and
`B` holds it once (each is what calls of `insert` make of the empty dictionary with one
shard). Pruning first removes `a` from `B` and the merge leaves `a` in `A` with
`wordCount` `INT_MAX`; merging first adds 1 to `INT_MAX` in `int`: merge-then-prune keeps
`a` with `wordCount` `-2^31`, which is smaller. -/
theorem prune_mergeInt_counterexample :
    (∃ d, (new 1).insertAllInt List.length (List.replicate 2147483647 ([97], 0)) = some d ∧
      ∀ w, d.find? w = demoFull.find? w) ∧
    (∃ d, (new 1).insertAllInt List.length (List.replicate 1 ([97], 1)) = some d ∧
      ∀ w, d.find? w = demoOnce.find? w) ∧
    demoFull.shards_.length = demoOnce.shards_.length ∧
    demoFull.Placed List.length ∧ demoOnce.Placed List.length ∧
    (demoFull.removeSingleOccurrences.mergeInt List.length
        demoOnce.removeSingleOccurrences).map (fun d => d.find? [97])
      = some (some ⟨2147483647, {0}⟩) ∧
    (demoFull.mergeInt List.length demoOnce).map
        (fun d => d.removeSingleOccurrences.find? [97])
      = some (some ⟨-2147483648, {0, 1}⟩) ∧
    ¬ ((2147483647 : Int) ≤ -2147483648) := by
  refine ⟨?_, ?_, rfl, placed_one_shard _ _ rfl, placed_one_shard _ _ rfl, by decide,
    by decide, by decide⟩
  · obtain ⟨d, h1, _, _, h4⟩ := insertAllInt_replicate List.length 2147483647 (by decide)
      (by decide) [97] 0
    exact ⟨d, h1, h4⟩
  · obtain ⟨d, h1, _, _, h4⟩ := insertAllInt_replicate List.length 1 (by decide)
      (by decide) [97] 1
    exact ⟨d, h1, h4⟩

end ParallelDictionary
